import Mathlib

/-!
Verification of the TRON document engine (starfederation/tron-go).

The development shallowly embeds the Go source over `List Nat` byte buffers:
pure Go functions become Lean functions, builder mutation becomes explicit
buffer threading, `uint32`/`uint64` arithmetic is `Nat` with explicit
`% 2^32` / `% 2^64` at the points where the Go code truncates, and fallible
Go functions return `Except String`.

The repository carries two on-disk node layouts side by side.  The map
engine (`map_ops.go`, `encode.go`, the `MapBuilder` sources) writes nodes
with an 8-byte header of a `flags` u32 (low two bits kind/key-type, upper
bits the node length) and an entry-count u32; its matching parsers are not
part of the sources and are modelled from the spec below (marked
`Modelled from the spec:`).  The array and framing code (`node.go`,
`document.go`, `array_ops.go`) uses tag-byte node headers; it is embedded
in the `V2` namespace.
-/

namespace Tron


/-- Bytes of a document or builder buffer, least offset first. -/
abbrev Bytes := List Nat

/-- Value of a little-endian byte list, first element least significant. -/
def leNat : Bytes → Nat
  | [] => 0
  | b :: t => b + 256 * leNat t

/-- Little-endian encoding of `n` into exactly `k` bytes (Go `PutUintNN`). -/
def leBytes : Nat → Nat → Bytes
  | 0, _ => []
  | k + 1, n => n % 256 :: leBytes k (n / 256)

/-- Reads `k` little-endian bytes of `b` starting at position `p`,
reduced to the machine width as the Go `binary.LittleEndian` readers do. -/
def readLE (b : Bytes) (p k : Nat) : Nat :=
  leNat ((b.drop p).take k) % 2 ^ (8 * k)

/-- Popcount over the low 16 bits, the SWAR routine from `node.go`.
All intermediate values stay below `2 ^ 16`, so plain `Nat` arithmetic
coincides with the Go `uint16` arithmetic. -/
def popcount16 (x : Nat) : Nat :=
  let x1 := x - ((x >>> 1) &&& 0x5555)
  let x2 := (x1 &&& 0x3333) + ((x1 >>> 2) &&& 0x3333)
  let x3 := (x2 + (x2 >>> 4)) &&& 0x0F0F
  let x4 := x3 + (x3 >>> 8)
  x4 &&& 0x1F

def bcFuel : Nat → Nat → Nat
  | 0, _ => 0
  | f + 1, n => if n = 0 then 0 else n % 2 + bcFuel f (n / 2)

def bitCount (n : Nat) : Nat := bcFuel n n

/-- Digit-wise map: applies `g` to each of the `k` low base-`2^w` digits. -/
def dmap (g : Nat → Nat) (w : Nat) : Nat → Nat → Nat
  | 0, _ => 0
  | k + 1, x => g (x % 2 ^ w) + 2 ^ w * dmap g w k (x / 2 ^ w)

/-- Mask with the `s` low bits of each of `k` base-`2^w` digits set. -/
def maskRep (s w : Nat) : Nat → Nat
  | 0 => 0
  | k + 1 => (2 ^ s - 1) + 2 ^ w * maskRep s w k

def pc1 (d : Nat) : Nat := d - d / 2

def pc2 (d : Nat) : Nat := pc1 (d % 4) + pc1 (d / 4)

def pc3 (d : Nat) : Nat := pc2 (d % 16) + pc2 (d / 16)

def pe1 (d : Nat) : Nat := pc1 (d % 4) + 4 * pc1 (d / 4)

def pe2 (d : Nat) : Nat := pc2 (d % 16) + 16 * pc2 (d / 16)

/-! ## Scalar value codec (`value.go`)

The scalar codec uses the upper-3-bit tag layout of `value.go`: the value
kind occupies bits 5..7 of the tag and the low five bits are kind-specific.
`f64` payloads are carried as their raw IEEE bit pattern, exactly as the Go
code moves them with `math.Float64bits`/`math.Float64frombits`. -/

/-- Decoded TRON value record.  Mirrors the Go `Value` struct: only the
field selected by `Type` is meaningful there, so the embedding is a sum. -/
inductive Value where
  | nil
  | bit (b : Bool)
  | i64 (v : Int)
  | f64 (bits : Nat)
  | txt (bytes : Bytes)
  | bin (bytes : Bytes)
  | arr (off : Nat)
  | map (off : Nat)
deriving DecidableEq

/-- Value kind from a tag byte: the upper three bits. -/
def TypeFromTag (tag : Nat) : Nat := tag >>> 5

/-- Kind-specific low five bits of a tag byte. -/
def LowBits (tag : Nat) : Nat := tag &&& 0x1F

def TypeNil : Nat := 0

def TypeBit : Nat := 1

def TypeI64 : Nat := 2

def TypeF64 : Nat := 3

def TypeTxt : Nat := 4

def TypeBin : Nat := 5

def TypeArr : Nat := 6

def TypeMap : Nat := 7

def TagNil : Nat := 0x00

def TagBitFalse : Nat := 0x20

def TagBitTrue : Nat := 0x21

def TagI64 : Nat := 0x40

def TagF64 : Nat := 0x60

/-- Two's-complement reading of a `uint64` bit pattern as `int64`. -/
def toInt64 (u : Nat) : Int :=
  if u % 2 ^ 64 < 2 ^ 63 then (u % 2 ^ 64 : Nat) else (u % 2 ^ 64 : Nat) - 2 ^ 64

/-- Reads the length encoding for txt/bin/arr/map (`decodeLength`).
Returns the payload length and the number of length bytes read. -/
def decodeLength (tag : Nat) (b : Bytes) : Except String (Nat × Nat) :=
  if tag &&& 0x10 ≠ 0 then
    .ok (tag &&& 0x0F, 0)
  else
    let n := tag &&& 0x0F
    if n < 1 ∨ n > 8 then
      .error "invalid length-of-length"
    else if b.length < n then
      .error "length-of-length bytes missing"
    else
      .ok (leNat (b.take n) % 2 ^ 64, n)

/-- Decodes a value record from `b`, returning the value and bytes read
(`DecodeValue` with `DecodeI64Value`/`DecodeF64Value` inlined). -/
def DecodeValue (b : Bytes) : Except String (Value × Nat) :=
  match b with
  | [] => .error "value tag missing"
  | tag :: rest =>
    if TypeFromTag tag = TypeNil then
      if LowBits tag ≠ 0 then .error "nil tag has non-zero low bits"
      else .ok (.nil, 1)
    else if TypeFromTag tag = TypeBit then
      if tag &&& 0x1E ≠ 0 then .error "bit tag has invalid low bits"
      else .ok (.bit (tag &&& 0x01 == 1), 1)
    else if TypeFromTag tag = TypeI64 then
      if LowBits tag ≠ 0 then .error "i64 tag has non-zero low bits"
      else if rest.length < 8 then .error "i64 payload too short"
      else .ok (.i64 (toInt64 (leNat (rest.take 8))), 9)
    else if TypeFromTag tag = TypeF64 then
      if LowBits tag ≠ 0 then .error "f64 tag has non-zero low bits"
      else if rest.length < 8 then .error "f64 payload too short"
      else .ok (.f64 (leNat (rest.take 8) % 2 ^ 64), 9)
    else if TypeFromTag tag ≤ 7 then
      match decodeLength tag rest with
      | .error e => .error e
      | .ok (length, n) =>
        if rest.length < n + length then .error "payload too short"
        else
          let payload := (rest.drop n).take length
          if TypeFromTag tag = TypeTxt then .ok (.txt payload, 1 + n + length)
          else if TypeFromTag tag = TypeBin then .ok (.bin payload, 1 + n + length)
          else if length = 0 ∨ length > 4 then
            .error "node offset length out of range"
          else if TypeFromTag tag = TypeArr then
            .ok (.arr (leNat payload % 2 ^ 32), 1 + n + length)
          else
            .ok (.map (leNat payload % 2 ^ 32), 1 + n + length)
    else .error "unknown value type"

/-- Number of length bytes for an unpacked length (`lengthBytesNoErr`,
which agrees with the loop in `writeLength` of `value.go`). -/
def lengthBytesNoErr (length : Nat) : Nat :=
  if length ≤ 15 then 0
  else if length ≤ 0xFF then 1
  else if length ≤ 0xFFFF then 2
  else if length ≤ 0xFFFFFF then 3
  else if length ≤ 0xFFFFFFFF then 4
  else if length ≤ 0xFFFFFFFFFF then 5
  else if length ≤ 0xFFFFFFFFFFFF then 6
  else if length ≤ 0xFFFFFFFFFFFFFF then 7
  else 8

/-- Writes a tag byte with encoded length (`writeLength`). -/
def writeLength (pfx length : Nat) : Bytes :=
  if length ≤ 15 then
    [pfx ||| 0x10 ||| length]
  else
    let n := lengthBytesNoErr length
    (pfx ||| (n &&& 0x0F)) :: leBytes n length

/-- Encodes a txt/bin record (`encodeBytesToBuffer`/`writeBytesValue`). -/
def encodeBytesToBuffer (typ : Nat) (payload : Bytes) : Bytes :=
  writeLength (typ <<< 5) payload.length ++ payload

/-- Encodes an arr/map offset record
(`encodeOffsetToBuffer`/`writeOffsetValue`). -/
def offLenBytes (off : Nat) : Nat :=
  if off > 0xFFFFFF then 4
  else if off > 0xFFFF then 3
  else if off > 0xFF then 2
  else 1

def encodeOffsetToBuffer (typ off : Nat) : Bytes :=
  writeLength (typ <<< 5) (offLenBytes off) ++ (leBytes 4 off).take (offLenBytes off)

/-- Encodes a value record (`encodeValueToBuffer`, identical in output to
`writeValue` of `encode.go`). -/
def encodeValueToBuffer : Value → Bytes
  | .nil => [TagNil]
  | .bit b => [if b then TagBitTrue else TagBitFalse]
  | .i64 v => TagI64 :: leBytes 8 (v % (2 ^ 64 : Int)).toNat
  | .f64 bits => TagF64 :: leBytes 8 bits
  | .txt s => encodeBytesToBuffer TypeTxt s
  | .bin s => encodeBytesToBuffer TypeBin s
  | .arr off => encodeOffsetToBuffer TypeArr off
  | .map off => encodeOffsetToBuffer TypeMap off

/-- Whether a value is of a non-container kind. -/
def NonContainer : Value → Prop
  | .arr _ => False
  | .map _ => False
  | _ => True

/-- Whether the payload of a scalar fits the machine widths the Go structs
impose (`int64` range, `uint64` bits, lengths below `2 ^ 64`). -/
def ScalarSized : Value → Prop
  | .i64 v => -(2 ^ 63) ≤ v ∧ v < 2 ^ 63
  | .f64 bits => bits < 2 ^ 64
  | .txt s => s.length < 2 ^ 64
  | .bin s => s.length < 2 ^ 64
  | _ => True

/-- Machine-size bounds the Go `Value` struct imposes on each payload. -/
def ValueSized : Value → Prop
  | .i64 v => -(2 ^ 63) ≤ v ∧ v < 2 ^ 63
  | .f64 bits => bits < 2 ^ 64
  | .txt s => s.length < 2 ^ 64
  | .bin s => s.length < 2 ^ 64
  | .arr off => off < 2 ^ 32
  | .map off => off < 2 ^ 32
  | _ => True

/-! ## Seeded xxh32 (`xxh32.go`)

The Go loop walks the buffer with an index; the embedding consumes the
byte list from the front, which visits the same bytes in the same order.
All `uint32` arithmetic carries an explicit `% 2 ^ 32`. -/

def xxh32Prime1 : Nat := 0x9E3779B1

def xxh32Prime2 : Nat := 0x85EBCA77

def xxh32Prime3 : Nat := 0xC2B2AE3D

def xxh32Prime4 : Nat := 0x27D4EB2F

def xxh32Prime5 : Nat := 0x165667B1

/-- 32-bit rotate left: the Go `(x << r) | (x >> (32 - r))` on `uint32`. -/
def rotl32 (x r : Nat) : Nat := ((x <<< r) % 2 ^ 32) ||| (x >>> (32 - r))

/-- Accumulator round of `XXH32`. -/
def xxh32Round (acc input : Nat) : Nat :=
  rotl32 ((acc + input * xxh32Prime2) % 2 ^ 32) 13 * xxh32Prime1 % 2 ^ 32

/-- Little-endian `uint32` of four bytes (`binary.LittleEndian.Uint32`). -/
def word4 (a b c d : Nat) : Nat := leNat [a, b, c, d] % 2 ^ 32

/-- Main 16-byte stripe loop of `XXH32` (`for p <= length-16`). -/
def xxh32Stripes : Nat → Nat → Nat → Nat → Bytes → Nat × Nat × Nat × Nat × Bytes
  | v1, v2, v3, v4,
    b0 :: b1 :: b2 :: b3 :: b4 :: b5 :: b6 :: b7 ::
    b8 :: b9 :: b10 :: b11 :: b12 :: b13 :: b14 :: b15 :: rest =>
    xxh32Stripes (xxh32Round v1 (word4 b0 b1 b2 b3)) (xxh32Round v2 (word4 b4 b5 b6 b7))
      (xxh32Round v3 (word4 b8 b9 b10 b11)) (xxh32Round v4 (word4 b12 b13 b14 b15)) rest
  | v1, v2, v3, v4, rest => (v1, v2, v3, v4, rest)

/-- Four-byte tail loop of `XXH32` (`for p <= length-4`). -/
def xxh32Tail4 : Nat → Bytes → Nat × Bytes
  | h, a :: b :: c :: d :: rest =>
    xxh32Tail4 (rotl32 ((h + word4 a b c d * xxh32Prime3) % 2 ^ 32) 17 * xxh32Prime4 % 2 ^ 32)
      rest
  | h, rest => (h, rest)

/-- Single-byte tail loop of `XXH32` (`for p < length`). -/
def xxh32Tail1 : Nat → Bytes → Nat
  | h, [] => h
  | h, a :: rest =>
    xxh32Tail1 (rotl32 ((h + a * xxh32Prime5) % 2 ^ 32) 11 * xxh32Prime1 % 2 ^ 32) rest

/-- Seeded xxh32 over a byte buffer (`XXH32` in `xxh32.go`). -/
def XXH32 (data : Bytes) (seed : Nat) : Nat :=
  let seed := seed % 2 ^ 32
  let start :=
    if data.length ≥ 16 then
      let r :=
        xxh32Stripes ((seed + xxh32Prime1 + xxh32Prime2) % 2 ^ 32)
          ((seed + xxh32Prime2) % 2 ^ 32) (seed % 2 ^ 32)
          ((seed + 2 ^ 32 - xxh32Prime1) % 2 ^ 32) data
      (((rotl32 r.1 1 + rotl32 r.2.1 7) % 2 ^ 32 + rotl32 r.2.2.1 12 + rotl32 r.2.2.2.1 18)
          % 2 ^ 32,
        r.2.2.2.2)
    else ((seed + xxh32Prime5) % 2 ^ 32, data)
  let h1 := (start.1 + data.length) % 2 ^ 32
  let t4 := xxh32Tail4 h1 start.2
  let h3 := xxh32Tail1 t4.1 t4.2
  let h4 := (h3 ^^^ (h3 >>> 15)) * xxh32Prime2 % 2 ^ 32
  let h5 := (h4 ^^^ (h4 >>> 13)) * xxh32Prime3 % 2 ^ 32
  h5 ^^^ (h5 >>> 16)

/-- Canonical xxhash sanity buffer: `buffer[i] = byte(byteGen >> 56)` with
`byteGen` starting at prime32 and multiplied by prime64 each step. -/
def sanityGo : Nat → Nat → Bytes
  | 0, _ => []
  | k + 1, gen => gen >>> 56 :: sanityGo k (gen * 11400714785074694797 % 2 ^ 64)

/-- Canonical xxhash sanity buffer of a given size. -/
def sanityBuffer (n : Nat) : Bytes := sanityGo n 2654435761

/-! ## Document trailer (`HeaderMagic`/`ParseTrailer`/`AppendTrailer`,
the 8-byte-trailer variant that `document.go` builds on) -/

def HeaderMagic : Bytes := [84, 82, 79, 78]

def TrailerSize : Nat := 8

structure Trailer where
  RootOffset : Nat
  PrevRootOffset : Nat
deriving DecidableEq

/-- Parses the last 8 bytes of a document into root and prev-root
offsets, after checking the leading header magic (`ParseTrailer`). -/
def ParseTrailer (b : Bytes) : Except String Trailer :=
  if b.length < HeaderMagic.length + TrailerSize then
    .error "document too short"
  else if b.take 4 ≠ HeaderMagic then
    .error "missing TRON header magic"
  else
    .ok ⟨readLE b (b.length - TrailerSize) 4, readLE b (b.length - TrailerSize + 4) 4⟩

/-- Appends the 8-byte trailer: root offset then prev-root offset, both
u32 little-endian (`AppendTrailer`). -/
def AppendTrailer (dst : Bytes) (t : Trailer) : Bytes :=
  dst ++ (leBytes 4 t.RootOffset ++ leBytes 4 t.PrevRootOffset)

/-! ## Tag-header nodes (`node.go`, `document.go`)

`node.go` and the operations built on it read node headers whose tag byte
carries the value kind in its LOW three bits: its reserved-bit tests
(`tag & 0x80` for arr, `tag & 0xC0` for map, length bits at `tag >> 4`)
only cohere with that layout. The kind extractor and tag constants it
calls are not among the source files, so they are modelled from the
spec's low-3-bit tag variant; every parser below otherwise mirrors
`node.go`/`document.go` statement for statement. -/

/-- Modelled from the spec: value kind of a node tag byte under the
low-3-bit tag layout (the second of the two layouts the spec records),
`kind = tag & 7` with the same kind numbering as the §3.2 table. -/
def TypeFromTagLow (tag : Nat) : Nat := tag &&& 7

def NodeBranch : Nat := 0

def NodeLeaf : Nat := 1

def KeyArr : Nat := 0

def KeyMap : Nat := 1

/-- Parsed node header metadata (`NodeHeader`; the Go field `Type` is
`type` here). -/
structure NodeHeader where
  type : Nat
  NodeLen : Nat
  Kind : Nat
  KeyType : Nat
  IsRoot : Bool
  LenBytes : Nat
deriving DecidableEq

/-- Little-endian unsigned read of the first `n` bytes (`readUint32LE`). -/
def readUint32LE (b : Bytes) (n : Nat) : Nat := leNat (b.take n) % 2 ^ 32

/-- Parses a node header from the start of `b` (`ParseNodeHeader`). -/
def ParseNodeHeader (b : Bytes) : Except String NodeHeader :=
  match b with
  | [] => .error "node tag missing"
  | tag :: rest =>
    let typ := TypeFromTagLow tag
    if typ = TypeNil then
      if tag ≠ TagNil then .error "nil tag has non-zero bits"
      else .ok ⟨TypeNil, 1, NodeBranch, KeyArr, false, 0⟩
    else if typ = TypeBit then
      if tag &&& 0xF6 ≠ 0 then .error "bit tag has invalid bits"
      else .ok ⟨TypeBit, 1, NodeBranch, KeyArr, false, 0⟩
    else if typ = TypeI64 then
      if tag &&& 0xF8 ≠ 0 then .error "i64 tag has invalid bits"
      else .ok ⟨TypeI64, 9, NodeBranch, KeyArr, false, 0⟩
    else if typ = TypeF64 then
      if tag &&& 0xF8 ≠ 0 then .error "f64 tag has invalid bits"
      else .ok ⟨TypeF64, 9, NodeBranch, KeyArr, false, 0⟩
    else if typ = TypeTxt ∨ typ = TypeBin then
      match decodeLength tag rest with
      | .error e => .error e
      | .ok (length, n) => .ok ⟨typ, (1 + n + length) % 2 ^ 32, NodeBranch, KeyArr, false, 0⟩
    else if typ = TypeArr then
      if tag &&& 0x80 ≠ 0 then .error "arr tag has invalid high bit"
      else
        let lenBytes := ((tag >>> 4) &&& 0x03) + 1
        if rest.length < lenBytes then .error "arr node length truncated"
        else
          let nodeLen := readUint32LE rest lenBytes
          if nodeLen < 1 + lenBytes then .error "invalid arr node length"
          else
            .ok ⟨TypeArr, nodeLen, (tag >>> 3) &&& 0x01, KeyArr, tag &&& 0x40 = 0, lenBytes⟩
    else if typ = TypeMap then
      if tag &&& 0xC0 ≠ 0 then .error "map tag has invalid high bits"
      else
        let lenBytes := ((tag >>> 4) &&& 0x03) + 1
        if rest.length < lenBytes then .error "map node length truncated"
        else
          let nodeLen := readUint32LE rest lenBytes
          if nodeLen < 1 + lenBytes then .error "invalid map node length"
          else .ok ⟨TypeMap, nodeLen, (tag >>> 3) &&& 0x01, KeyMap, false, lenBytes⟩
    else .error "unknown node type"

/-- Returns the node header and the full node byte slice at `off`
(`NodeSliceAt` in `document.go`). -/
def NodeSliceAt (b : Bytes) (off : Nat) : Except String (NodeHeader × Bytes) :=
  if off ≥ b.length then .error "node offset out of range"
  else
    match ParseNodeHeader (b.drop off) with
    | .error e => .error e
    | .ok h =>
      if off + h.NodeLen > b.length then .error "node length out of range"
      else .ok (h, (b.drop off).take h.NodeLen)

/-- Modelled from the spec: random-access value read at an absolute
offset. Reads the tag at `addr`: a tag naming a container node (arr or
map under the node-tag layout, with its high reserved bits clear) yields
a `Value` of that kind pointing at `addr` itself; any other tag is
decoded in place as a scalar record of the §3.2 codec, which the spec
prescribes for scalar records embedded in node bodies. -/
def DecodeValueAt (doc : Bytes) (addr : Nat) : Except String Value :=
  if addr ≥ doc.length then .error "value offset out of range"
  else
    let tag := (doc.drop addr).headD 0
    if TypeFromTagLow tag = TypeArr ∧ tag &&& 0x80 = 0 then .ok (.arr addr)
    else if TypeFromTagLow tag = TypeMap ∧ tag &&& 0xC0 = 0 then .ok (.map addr)
    else
      match DecodeValue (doc.drop addr) with
      | .error e => .error e
      | .ok (v, _) => .ok v

/-- Top-level document kind (`DocType`). -/
inductive DocType where
  | DocUnknown
  | DocScalar
  | DocTree
deriving DecidableEq

export DocType (DocUnknown DocScalar DocTree)

/-- Validates a TRON document's framing (`DetectDocType`): header magic,
trailer, and a parseable node at the root offset. -/
def DetectDocType (b : Bytes) : Except String DocType :=
  if b.length < HeaderMagic.length + TrailerSize then .error "document too short"
  else if b.take 4 ≠ HeaderMagic then .error "missing TRON header magic"
  else
    match ParseTrailer b with
    | .error e => .error e
    | .ok tr =>
      match NodeSliceAt b tr.RootOffset with
      | .error e => .error e
      | .ok _ => .ok DocTree

/-- A well-framed document whose root offset addresses a nil scalar
value record: magic, one nil record at offset 4, trailer with root 4. -/
def scalarRootedDoc : Bytes := HeaderMagic ++ [TagNil] ++ (leBytes 4 4 ++ leBytes 4 0)

/-! ## Array nodes and lookup (`node.go`, `array_ops.go`) -/

/-- Parsed array branch node (`ArrayBranchNode`). -/
structure ArrayBranchNode where
  Header : NodeHeader
  Shift : Nat
  Bitmap : Nat
  Length : Nat
  Children : List Nat
deriving DecidableEq

/-- Parsed array leaf node (`ArrayLeafNode`). -/
structure ArrayLeafNode where
  Header : NodeHeader
  Shift : Nat
  Bitmap : Nat
  Length : Nat
  ValueAddrs : List Nat
deriving DecidableEq

/-- Parses an array leaf node (`ParseArrayLeafNode`); the Go per-child
truncation checks are collapsed into one bound over the child count. -/
def ParseArrayLeafNode (b : Bytes) : Except String ArrayLeafNode :=
  match ParseNodeHeader b with
  | .error e => .error e
  | .ok h =>
    if h.KeyType ≠ KeyArr ∨ h.Kind ≠ NodeLeaf then .error "node is not an array leaf"
    else if b.length < h.NodeLen then .error "node truncated"
    else
      let p := 1 + h.LenBytes
      if h.NodeLen < p + 3 then .error "array leaf node too small"
      else
        let shift := (b.drop p).headD 0
        if shift ≠ 0 then .error "array leaf shift must be 0"
        else
          let bitmap := readLE b (p + 1) 2
          if h.IsRoot ∧ h.NodeLen < p + 7 then .error "array leaf root length truncated"
          else
            let length := if h.IsRoot then readLE b (p + 3) 4 else 0
            let q := if h.IsRoot then p + 7 else p + 3
            let entryCount := popcount16 bitmap
            if h.NodeLen < q + 4 * entryCount then .error "value address truncated"
            else
              .ok ⟨h, shift, bitmap, length,
                (List.range entryCount).map fun i => readLE b (q + 4 * i) 4⟩

/-- Parses an array branch node (`ParseArrayBranchNode`); the Go
per-child truncation checks are collapsed into one bound. -/
def ParseArrayBranchNode (b : Bytes) : Except String ArrayBranchNode :=
  match ParseNodeHeader b with
  | .error e => .error e
  | .ok h =>
    if h.KeyType ≠ KeyArr ∨ h.Kind ≠ NodeBranch then .error "node is not an array branch"
    else if b.length < h.NodeLen then .error "node truncated"
    else
      let p := 1 + h.LenBytes
      if h.NodeLen < p + 3 then .error "array branch node too small"
      else
        let shift := (b.drop p).headD 0
        if shift % 4 ≠ 0 then .error "array branch shift must be multiple of 4"
        else
          let bitmap := readLE b (p + 1) 2
          if h.IsRoot ∧ h.NodeLen < p + 7 then .error "array branch root length truncated"
          else
            let length := if h.IsRoot then readLE b (p + 3) 4 else 0
            let q := if h.IsRoot then p + 7 else p + 3
            let entryCount := popcount16 bitmap
            if h.NodeLen < q + 4 * entryCount then .error "child address truncated"
            else
              .ok ⟨h, shift, bitmap, length,
                (List.range entryCount).map fun i => readLE b (q + 4 * i) 4⟩

/-- Length stored on an array root node (`arrayRootLength`). -/
def arrayRootLength (doc : Bytes) (rootOff : Nat) : Except String Nat :=
  match NodeSliceAt doc rootOff with
  | .error e => .error e
  | .ok (h, node) =>
    if h.KeyType ≠ KeyArr then .error "root is not array"
    else if ¬ h.IsRoot then .error "array root missing root flag"
    else if h.Kind = NodeLeaf then
      match ParseArrayLeafNode node with
      | .error e => .error e
      | .ok leaf => .ok leaf.Length
    else if h.Kind = NodeBranch then
      match ParseArrayBranchNode node with
      | .error e => .error e
      | .ok br => .ok br.Length
    else .error "unknown array node kind"

/-- Array trie walk by index (`arrGet`). The Go loop follows child
offsets without a visited check, so it spins forever on an offset cycle;
`fuel` bounds the walk, and callers pass more steps than the document
has offsets, so fuel runs out exactly when the Go loop would cycle. -/
def arrGet (doc : Bytes) : Nat → Nat → Nat → Bool → Except String (Option Value)
  | 0, _, _, _ => .error "array node offset cycle"
  | fuel + 1, off, index, isRoot =>
    match NodeSliceAt doc off with
    | .error e => .error e
    | .ok (h, node) =>
      if h.KeyType ≠ KeyArr then .error "node is not an array"
      else if h.Kind = NodeLeaf then
        if ¬ isRoot ∧ h.IsRoot then .error "array non-root leaf marked as root"
        else
          let p := 1 + h.LenBytes
          if h.NodeLen < p + 3 then .error "array leaf node too small"
          else if (node.drop p).headD 0 ≠ 0 then .error "array leaf shift must be 0"
          else
            let bitmap := readLE node (p + 1) 2
            if h.IsRoot ∧ h.NodeLen < p + 7 then .error "array leaf root length truncated"
            else
              let q := if h.IsRoot then p + 7 else p + 3
              let slot := index &&& 0xF
              if (bitmap >>> slot) &&& 1 = 0 then .ok none
              else
                let idx := popcount16 (bitmap &&& ((1 <<< slot) - 1))
                let addrPos := q + idx * 4
                if addrPos + 4 > h.NodeLen then .error "value address truncated"
                else
                  match DecodeValueAt doc (readLE node addrPos 4) with
                  | .error e => .error e
                  | .ok val => .ok (some val)
      else
        if ¬ isRoot ∧ h.IsRoot then .error "array non-root branch marked as root"
        else
          let p := 1 + h.LenBytes
          if h.NodeLen < p + 3 then .error "array branch node too small"
          else
            let shift := (node.drop p).headD 0
            if shift % 4 ≠ 0 then .error "array branch shift must be multiple of 4"
            else
              let bitmap := readLE node (p + 1) 2
              if h.IsRoot ∧ h.NodeLen < p + 7 then .error "array branch root length truncated"
              else
                let q := if h.IsRoot then p + 7 else p + 3
                let slot := (index >>> shift) &&& 0xF
                if (bitmap >>> slot) &&& 1 = 0 then .ok none
                else
                  let idx := popcount16 (bitmap &&& ((1 <<< slot) - 1))
                  let childPos := q + idx * 4
                  if childPos + 4 > h.NodeLen then .error "child address truncated"
                  else arrGet doc fuel (readLE node childPos 4) index false

/-- Bounds-checked array lookup (`ArrGet`): fails unless the index lies
in `[0, length)` for the root's stored length. -/
def ArrGet (doc : Bytes) (rootOff index : Nat) : Except String (Option Value) :=
  match arrayRootLength doc rootOff with
  | .error e => .error e
  | .ok length =>
    if index ≥ length then .error "array index out of range"
    else arrGet doc (doc.length + 2) rootOff index true

/-! ## Builder and array updates (`document.go`, `array_ops.go`)

A `Builder` is its byte buffer here; each Go method threads the buffer
explicitly and append helpers return the offset with the grown buffer.
The node serializers `appendArrayLeafNode`/`appendArrayBranchNode` and
`valueAddress` that `array_ops.go` calls are not among the source files
and are modelled from the spec's node layout. -/

/-- Copies a document without its trailer into a builder
(`NewBuilderFromDocument`). -/
def NewBuilderFromDocument (doc : Bytes) : Except String (Bytes × Trailer) :=
  match ParseTrailer doc with
  | .error e => .error e
  | .ok tr => .ok (doc.take (doc.length - TrailerSize), tr)

/-- Appends an encoded node, returning its offset (`Builder.AppendNode`). -/
def AppendNode (buf node : Bytes) : Nat × Bytes := (buf.length, buf ++ node)

/-- The document with a trailer appended (`Builder.BytesWithTrailer`). -/
def BytesWithTrailer (buf : Bytes) (rootOffset prevRootOffset : Nat) : Bytes :=
  AppendTrailer buf ⟨rootOffset, prevRootOffset⟩

/-- Per-kind value comparison (`valueEqual`); f64 compares the raw bit
patterns, which is how `f64` payloads are carried here. -/
def valueEqual : Value → Value → Bool
  | .nil, .nil => true
  | .bit a, .bit b => a == b
  | .i64 a, .i64 b => a == b
  | .f64 a, .f64 b => a == b
  | .txt a, .txt b => a == b
  | .bin a, .bin b => a == b
  | .arr a, .arr b => a == b
  | .map a, .map b => a == b
  | _, _ => false

/-- Modelled from the spec: serializes and appends an array leaf node.
The tag byte carries the arr kind, the leaf bit, four length bytes and
the root flag (bit 0x40 clear marks a root); the body is shift, bitmap
u16 LE, the root's length u32 LE, then the value addresses u32 LE. -/
def appendArrayLeafNode (buf : Bytes) (n : ArrayLeafNode) : Except String (Nat × Bytes) :=
  let nodeLen := 1 + 4 + 3 + (if n.Header.IsRoot then 4 else 0) + 4 * n.ValueAddrs.length
  let tag := TypeArr ||| (NodeLeaf <<< 3) ||| (3 <<< 4) ||| (if n.Header.IsRoot then 0 else 0x40)
  .ok (AppendNode buf (tag :: (leBytes 4 nodeLen ++ [n.Shift % 256] ++ leBytes 2 n.Bitmap ++
    (if n.Header.IsRoot then leBytes 4 n.Length else []) ++
    (n.ValueAddrs.map (leBytes 4)).flatten)))

/-- Modelled from the spec: serializes and appends an array branch node;
the layout matches `appendArrayLeafNode` with child offsets as body. -/
def appendArrayBranchNode (buf : Bytes) (n : ArrayBranchNode) : Except String (Nat × Bytes) :=
  let nodeLen := 1 + 4 + 3 + (if n.Header.IsRoot then 4 else 0) + 4 * n.Children.length
  let tag := TypeArr ||| (NodeBranch <<< 3) ||| (3 <<< 4) ||| (if n.Header.IsRoot then 0 else 0x40)
  .ok (AppendNode buf (tag :: (leBytes 4 nodeLen ++ [n.Shift % 256] ++ leBytes 2 n.Bitmap ++
    (if n.Header.IsRoot then leBytes 4 n.Length else []) ++
    (n.Children.map (leBytes 4)).flatten)))

/-- Modelled from the spec: the address a node body stores for a value.
A container value already names its node's offset; a scalar value is
appended to the buffer as a §3.2 value record and its offset returned. -/
def valueAddress (buf : Bytes) (v : Value) : Except String (Nat × Bytes) :=
  match v with
  | .arr off => .ok (off, buf)
  | .map off => .ok (off, buf)
  | _ => .ok (AppendNode buf (encodeValueToBuffer v))

/-- Builds a fresh single-entry path down to `index` (`buildArrayPath`). -/
def buildArrayPath (index shift : Nat) (value : Value) (builder : Bytes) :
    Except String (Nat × Bytes) :=
  if shift % 4 ≠ 0 then .error "array path shift must be multiple of 4"
  else if _hz : shift = 0 then
    match valueAddress builder value with
    | .error e => .error e
    | .ok (addr, builder2) =>
      appendArrayLeafNode builder2
        ⟨⟨0, 0, NodeLeaf, KeyArr, false, 0⟩, 0, 1 <<< (index &&& 0xF), 0, [addr]⟩
  else
    match buildArrayPath index (shift - 4) value builder with
    | .error e => .error e
    | .ok (child, builder2) =>
      appendArrayBranchNode builder2
        ⟨⟨0, 0, NodeBranch, KeyArr, false, 0⟩, shift, 1 <<< ((index >>> shift) &&& 0xF), 0,
          [child]⟩
termination_by shift
decreasing_by omega

/-- Re-appends a root node as a non-root child (`cloneArrayNodeAsChild`). -/
def cloneArrayNodeAsChild (doc : Bytes) (off : Nat) (builder : Bytes) :
    Except String (Nat × Bytes) :=
  match NodeSliceAt doc off with
  | .error e => .error e
  | .ok (h, node) =>
    if h.KeyType ≠ KeyArr then .error "node is not an array"
    else if ¬ h.IsRoot then .ok (off, builder)
    else if h.Kind = NodeLeaf then
      match ParseArrayLeafNode node with
      | .error e => .error e
      | .ok leaf =>
        appendArrayLeafNode builder
          ⟨⟨0, 0, NodeLeaf, KeyArr, false, 0⟩, leaf.Shift, leaf.Bitmap, 0, leaf.ValueAddrs⟩
    else if h.Kind = NodeBranch then
      match ParseArrayBranchNode node with
      | .error e => .error e
      | .ok br =>
        appendArrayBranchNode builder
          ⟨⟨0, 0, NodeBranch, KeyArr, false, 0⟩, br.Shift, br.Bitmap, 0, br.Children⟩
    else .error "unknown array node kind"

/-- The root-raising loop of `ensureArrayRoot`: while `index >> shift`
overflows a slot, clone the root as a child and wrap it in a one-child
root branch one level up. -/
def ensureArrayRootLoop (builder : Bytes) (off index length shift : Nat) :
    Except String (Nat × Bytes) :=
  if _hgt : index >>> shift > 0xF then
    match cloneArrayNodeAsChild builder off builder with
    | .error e => .error e
    | .ok (childOff, builder2) =>
      match appendArrayBranchNode builder2
          ⟨⟨0, 0, NodeBranch, KeyArr, true, 0⟩, shift + 4, 1, length, [childOff]⟩ with
      | .error e => .error e
      | .ok (newOff, builder3) => ensureArrayRootLoop builder3 newOff index length (shift + 4)
  else .ok (off, builder)
termination_by index >>> shift
decreasing_by
  rw [Nat.shiftRight_add index shift 4, Nat.shiftRight_eq_div_pow _ 4]
  exact Nat.div_lt_self (by omega) (by norm_num)

/-- Raises the array root until the index fits under it
(`ensureArrayRoot`). -/
def ensureArrayRoot (builder : Bytes) (rootOff index length : Nat) :
    Except String (Nat × Bytes) :=
  match NodeSliceAt builder rootOff with
  | .error e => .error e
  | .ok (h, node) =>
    if h.KeyType ≠ KeyArr ∨ ¬ h.IsRoot then .error "array root missing root flag"
    else if h.Kind = NodeLeaf then ensureArrayRootLoop builder rootOff index length 0
    else if h.Kind = NodeBranch then
      match ParseArrayBranchNode node with
      | .error e => .error e
      | .ok br => ensureArrayRootLoop builder rootOff index length br.Shift
    else .error "unknown array node kind"

/-- Path-copying array update (`arrSetNode`): reads the node at `off` in
`doc`, rewrites the entry at `index`, appends the rewritten spine to the
builder, and reports the new offset and whether anything changed. `fuel`
bounds the child recursion exactly as in `arrGet`. -/
def arrSetNode (doc : Bytes) : Nat → Nat → Nat → Value → Bytes → Bool → Nat →
    Except String (Nat × Bool × Bytes)
  | 0, _, _, _, _, _, _ => .error "array node offset cycle"
  | fuel + 1, off, index, value, builder, isRoot, rootLength =>
    match NodeSliceAt doc off with
    | .error e => .error e
    | .ok (h, node) =>
      if h.KeyType ≠ KeyArr then .error "node is not an array"
      else if h.Kind = NodeLeaf then
        if ¬ isRoot ∧ h.IsRoot then .error "array non-root leaf marked as root"
        else
          let p := 1 + h.LenBytes
          if h.NodeLen < p + 3 then .error "array leaf node too small"
          else if (node.drop p).headD 0 ≠ 0 then .error "array leaf shift must be 0"
          else
            let bitmap := readLE node (p + 1) 2
            if h.IsRoot ∧ h.NodeLen < p + 7 then .error "array leaf root length truncated"
            else
              let length := if h.IsRoot then readLE node (p + 3) 4 else 0
              let q := if h.IsRoot then p + 7 else p + 3
              let slot := index &&& 0xF
              let idx := popcount16 (bitmap &&& ((1 <<< slot) - 1))
              if (bitmap >>> slot) &&& 1 = 1 then
                let addrPos := q + idx * 4
                if addrPos + 4 > h.NodeLen then .error "value address truncated"
                else
                  match DecodeValueAt doc (readLE node addrPos 4) with
                  | .error e => .error e
                  | .ok cur =>
                    if valueEqual cur value ∧ (¬ isRoot ∨ length = rootLength) then
                      .ok (off, false, builder)
                    else
                      match valueAddress builder value with
                      | .error e => .error e
                      | .ok (newAddr, builder2) =>
                        let entryCount := popcount16 bitmap
                        let newValues := (List.range entryCount).map fun i =>
                          if i = idx then newAddr else readLE node (q + 4 * i) 4
                        match appendArrayLeafNode builder2
                            ⟨⟨0, 0, NodeLeaf, KeyArr, isRoot, 0⟩, 0, bitmap,
                              if isRoot then rootLength else 0, newValues⟩ with
                        | .error e => .error e
                        | .ok (newOff, builder3) => .ok (newOff, true, builder3)
              else
                match valueAddress builder value with
                | .error e => .error e
                | .ok (newAddr, builder2) =>
                  let entryCount := popcount16 bitmap
                  let newValues :=
                    ((List.range idx).map fun i => readLE node (q + 4 * i) 4) ++ [newAddr] ++
                      ((List.range (entryCount - idx)).map fun i =>
                        readLE node (q + 4 * (idx + i)) 4)
                  match appendArrayLeafNode builder2
                      ⟨⟨0, 0, NodeLeaf, KeyArr, isRoot, 0⟩, 0, bitmap ||| (1 <<< slot),
                        if isRoot then rootLength else 0, newValues⟩ with
                  | .error e => .error e
                  | .ok (newOff, builder3) => .ok (newOff, true, builder3)
      else
        if ¬ isRoot ∧ h.IsRoot then .error "array non-root branch marked as root"
        else
          let p := 1 + h.LenBytes
          if h.NodeLen < p + 3 then .error "array branch node too small"
          else
            let shift := (node.drop p).headD 0
            if shift % 4 ≠ 0 then .error "array branch shift must be multiple of 4"
            else
              let bitmap := readLE node (p + 1) 2
              if h.IsRoot ∧ h.NodeLen < p + 7 then .error "array branch root length truncated"
              else
                let length := if h.IsRoot then readLE node (p + 3) 4 else 0
                let q := if h.IsRoot then p + 7 else p + 3
                let entryCount := popcount16 bitmap
                if h.NodeLen < q + 4 * entryCount then .error "child address truncated"
                else
                  let slot := (index >>> shift) &&& 0xF
                  let idx := popcount16 (bitmap &&& ((1 <<< slot) - 1))
                  if (bitmap >>> slot) &&& 1 = 1 then
                    match arrSetNode doc fuel (readLE node (q + idx * 4) 4) index value builder
                        false 0 with
                    | .error e => .error e
                    | .ok (newChild, childChanged, builder2) =>
                      if ¬ childChanged ∧ (¬ isRoot ∨ length = rootLength) then
                        .ok (off, false, builder2)
                      else
                        let newChildren := (List.range entryCount).map fun i =>
                          if i = idx then newChild else readLE node (q + 4 * i) 4
                        match appendArrayBranchNode builder2
                            ⟨⟨0, 0, NodeBranch, KeyArr, isRoot, 0⟩, shift, bitmap,
                              if isRoot then rootLength else 0, newChildren⟩ with
                        | .error e => .error e
                        | .ok (newOff, builder3) => .ok (newOff, true, builder3)
                  else
                    match buildArrayPath index (shift - 4) value builder with
                    | .error e => .error e
                    | .ok (child, builder2) =>
                      let newChildren :=
                        ((List.range idx).map fun i => readLE node (q + 4 * i) 4) ++ [child] ++
                          ((List.range (entryCount - idx)).map fun i =>
                            readLE node (q + 4 * (idx + i)) 4)
                      match appendArrayBranchNode builder2
                          ⟨⟨0, 0, NodeBranch, KeyArr, isRoot, 0⟩, shift,
                            bitmap ||| (1 <<< slot), if isRoot then rootLength else 0,
                            newChildren⟩ with
                      | .error e => .error e
                      | .ok (newOff, builder3) => .ok (newOff, true, builder3)

/-- Updates one index of an array (`arrSet`): raises the root as needed,
then rewrites the path to the index. As in Go, where `doc` aliases the
builder's buffer, reads go through the buffer as it stands after
`ensureArrayRoot`. -/
def arrSet (builder : Bytes) (rootOff index : Nat) (value : Value) (length : Nat) :
    Except String (Nat × Bytes) :=
  match ensureArrayRoot builder rootOff index length with
  | .error e => .error e
  | .ok (rootOff2, builder2) =>
    match arrSetNode builder2 (builder2.length + 2) rootOff2 index value builder2 true
        length with
    | .error e => .error e
    | .ok (newRoot, _, builder3) => .ok (newRoot, builder3)

/-- Shared validation of a top-level array document
(`arrayDocumentBase`): framing, arr-typed root, root length, and a
builder seeded from the document. -/
def arrayDocumentBase (doc : Bytes) : Except String (Nat × Nat × Bytes) :=
  match DetectDocType doc with
  | .error e => .error e
  | .ok _ =>
    match ParseTrailer doc with
    | .error e => .error e
    | .ok tr =>
      match DecodeValueAt doc tr.RootOffset with
      | .error e => .error e
      | .ok root =>
        match root with
        | .arr rootNodeOff =>
          match arrayRootLength doc rootNodeOff with
          | .error e => .error e
          | .ok length =>
            match NewBuilderFromDocument doc with
            | .error e => .error e
            | .ok (buf, _) => .ok (tr.RootOffset, length, buf)
        | _ => .error "root is not an array"

/-- Replaces the value at `index` of an array document
(`ArrSetDocument`); the index must be strictly below the stored length. -/
def ArrSetDocument (doc : Bytes) (index : Nat) (value : Value) : Except String Bytes :=
  match arrayDocumentBase doc with
  | .error e => .error e
  | .ok (rootOff, length, builder) =>
    if index ≥ length then .error "array index out of range"
    else
      match arrSet builder rootOff index value length with
      | .error e => .error e
      | .ok (newRoot, builder2) => .ok (BytesWithTrailer builder2 newRoot rootOff)

/-- The append loop of `ArrAppendDocument`: one `arrSet` at the old
length per value, growing the length as it goes. -/
def arrAppendLoop : List Value → Nat → Nat → Bytes → Except String (Nat × Bytes)
  | [], newRoot, _, builder => .ok (newRoot, builder)
  | v :: vs, newRoot, length, builder =>
    match arrSet builder newRoot length v (length + 1) with
    | .error e => .error e
    | .ok (updated, builder2) => arrAppendLoop vs updated (length + 1) builder2

/-- Appends values at the end of an array document (`ArrAppendDocument`);
with no values the input document is returned as is. -/
def ArrAppendDocument (doc : Bytes) (values : List Value) : Except String Bytes :=
  if values.length = 0 then .ok doc
  else
    match arrayDocumentBase doc with
    | .error e => .error e
    | .ok (rootOff, length, builder) =>
      match arrAppendLoop values rootOff length builder with
      | .error e => .error e
      | .ok (newRoot, builder2) => .ok (BytesWithTrailer builder2 newRoot rootOff)

/-- A top-level array document of length 1: magic, a nil value record at
offset 4, a root array leaf at offset 5 (bitmap 1, stored length 1, one
value address pointing at 4), and a trailer with root offset 5. -/
def singletonArrayDoc : Bytes :=
  HeaderMagic ++ [TagNil] ++ [14, 13, 0, 1, 0, 1, 0, 0, 0, 4, 0, 0, 0] ++
    (leBytes 4 5 ++ leBytes 4 0)

/-! ## Flags-header map engine (`map_ops.go`, `encode.go`,
`unnamed/part_002`)

`map_ops.go` calls one-argument node parsers (`ParseMapLeafNode(node)`),
which cannot be the two-argument tag-header parsers of `node.go`: the map
engine belongs to the generation whose nodes carry the 8-byte flags
header of §3.3 — exactly what `encode.go`'s map writers emit. Those
one-argument parsers are not among the source files and are modelled
from the spec's flags layout; the writers, the tree builder and the map
operations mirror `encode.go`, `unnamed/part_002` and `map_ops.go`. -/

def hamtSlots : Nat := 16

def hamtMask : Nat := 0xF

def maxDepth32 : Nat := 7

/-- Lexicographic byte comparison (`bytesCompare` in `node.go`):
-1, 0 or 1. -/
def bytesCompare : Bytes → Bytes → Int
  | [], [] => 0
  | [], _ :: _ => -1
  | _ :: _, [] => 1
  | a :: as, b :: bs => if a = b then bytesCompare as bs else if a < b then -1 else 1

/-- Modelled from the spec: parsed 8-byte node header of the flags
layout (§3.3): a u32 whose low two bits carry the kind and the key type
and whose remaining bits carry the total node length (a multiple of 4,
at least 8), then an entry-count u32. This is the header read by the
one-argument parsers `map_ops.go` calls. -/
structure NodeHeaderV1 where
  kind : Nat
  keyType : Nat
  nodeLen : Nat
  entryCount : Nat
deriving DecidableEq

/-- Modelled from the spec: `parse_node_header` over the flags layout;
rejects buffers shorter than the 8-byte header and node lengths below 8
(the length is a multiple of 4 by construction, its low two bits being
the kind and key-type fields). -/
def ParseNodeHeaderV1 (b : Bytes) : Except String NodeHeaderV1 :=
  if b.length < 8 then .error "node header truncated"
  else if readLE b 0 4 &&& (2 ^ 32 - 4) < 8 then .error "invalid node length"
  else
    .ok ⟨readLE b 0 4 &&& 1, (readLE b 0 4 >>> 1) &&& 1, readLE b 0 4 &&& (2 ^ 32 - 4),
      readLE b 4 4⟩

/-- Modelled from the spec: `node_slice_at` over the flags layout —
header plus the full node slice, failing out of range or truncated. -/
def NodeSliceAtV1 (b : Bytes) (off : Nat) : Except String (NodeHeaderV1 × Bytes) :=
  if off ≥ b.length then .error "node offset out of range"
  else
    match ParseNodeHeaderV1 (b.drop off) with
    | .error e => .error e
    | .ok h =>
      if off + h.nodeLen > b.length then .error "node length out of range"
      else .ok (h, (b.drop off).take h.nodeLen)

/-- Modelled from the spec: map branch body over the flags layout —
2-byte bitmap, 2 zero reserved bytes, then `popcount(bitmap)` child
offsets u32 LE, in ascending slot order, agreeing with the entry count. -/
def ParseMapBranchNodeV1 (b : Bytes) : Except String (Nat × List Nat) :=
  match ParseNodeHeaderV1 b with
  | .error e => .error e
  | .ok h =>
    if h.keyType ≠ KeyMap ∨ h.kind ≠ NodeBranch then .error "node is not a map branch"
    else if b.length < h.nodeLen then .error "node truncated"
    else if readLE b 10 2 ≠ 0 then .error "map branch reserved bytes must be zero"
    else if h.entryCount ≠ popcount16 (readLE b 8 2) then .error "map branch bitmap mismatch"
    else if h.nodeLen < 12 + 4 * h.entryCount then .error "child address truncated"
    else .ok (readLE b 8 2, (List.range h.entryCount).map fun i => readLE b (12 + 4 * i) 4)

/-- Reads `count` inline key-value records from `b` starting at `p`:
the record loop of the modelled map leaf parser. -/
def readLeafEntries (b : Bytes) : Nat → Nat → Except String (List (Bytes × Value))
  | 0, _ => .ok []
  | count + 1, p =>
    match DecodeValue (b.drop p) with
    | .error e => .error e
    | .ok (kv, n1) =>
      match kv with
      | .txt key =>
        match DecodeValue (b.drop (p + n1)) with
        | .error e => .error e
        | .ok (v, n2) =>
          match readLeafEntries b count (p + n1 + n2) with
          | .error e => .error e
          | .ok rest => .ok ((key, v) :: rest)
      | _ => .error "map leaf key must be txt"

/-- Whether consecutive keys are strictly ascending (sorted, unique). -/
def sortedUniqueKeys : List (Bytes × Value) → Bool
  | [] => true
  | [_] => true
  | a :: b :: rest => decide (bytesCompare a.1 b.1 < 0) && sortedUniqueKeys (b :: rest)

/-- Modelled from the spec: map leaf body over the flags layout —
`entryCount` records, each a txt key record followed by a value record,
keys sorted ascending and unique. -/
def ParseMapLeafNodeV1 (b : Bytes) : Except String (List (Bytes × Value)) :=
  match ParseNodeHeaderV1 b with
  | .error e => .error e
  | .ok h =>
    if h.keyType ≠ KeyMap ∨ h.kind ≠ NodeLeaf then .error "node is not a map leaf"
    else if b.length < h.nodeLen then .error "node truncated"
    else
      match readLeafEntries b h.entryCount 8 with
      | .error e => .error e
      | .ok entries =>
        if sortedUniqueKeys entries then .ok entries
        else .error "map leaf keys must be sorted and unique"

/-- Appends a node under the 8-byte flags header
(`appendNode`/`appendNodeWithBodyLen` in `encode.go`): flags u32 — the
padded node length with the low two bits carrying kind and key type —
then entry count u32, then the body zero-padded to a 4-byte boundary. -/
def appendNodeV1 (builder : Bytes) (kind keyT entryCount : Nat) (body : Bytes) : Nat × Bytes :=
  let nodeLen := 8 + body.length
  let pad := (4 - nodeLen % 4) % 4
  let flags := ((nodeLen + pad) % 2 ^ 32) ||| (kind &&& 1) ||| ((keyT &&& 1) <<< 1)
  AppendNode builder
    (leBytes 4 flags ++ leBytes 4 (entryCount % 2 ^ 32) ++ body ++ List.replicate pad 0)

/-- Appends a map branch node (`appendMapBranchNode` in `encode.go`):
bitmap u16, two zero bytes, children u32 LE. -/
def appendMapBranchNode (builder : Bytes) (bitmap : Nat) (children : List Nat) :
    Except String (Nat × Bytes) :=
  if children.length ≠ popcount16 bitmap then .error "children length does not match bitmap"
  else
    .ok (appendNodeV1 builder NodeBranch KeyMap children.length
      (leBytes 2 bitmap ++ [0, 0] ++ (children.map fun c => leBytes 4 c).flatten))

/-- Appends a map leaf node (`appendMapLeafNodeSorted` in `encode.go`):
each entry as an inline txt key record then a value record, in the given
order. -/
def appendMapLeafNodeSorted (builder : Bytes) (entries : List (Bytes × Value)) :
    Except String (Nat × Bytes) :=
  .ok (appendNodeV1 builder NodeLeaf KeyMap entries.length
    ((entries.map fun kv => encodeBytesToBuffer TypeTxt kv.1 ++ encodeValueToBuffer kv.2).flatten))

/-- A key with its value and cached hash (`mapEntry` in
`unnamed/part_002`; the Go field `Value` is `Val` here). -/
structure mapEntry where
  Key : Bytes
  Val : Value
  Hash : Nat
deriving DecidableEq

/-- In-memory HAMT node under construction (`mapNode`). -/
inductive mapNode where
  | leaf (entries : List mapEntry)
  | branch (bitmap : Nat) (children : List mapNode)

/-- The 4-bit slot of an entry's hash at a depth. -/
def slotOf (e : mapEntry) (depth : Nat) : Nat := (e.Hash >>> (depth * 4)) &&& hamtMask

/-- Ascending insertion by key into a sorted list (the effect of the Go
`sort.Slice` by `bytes.Compare` on lists with distinct keys). -/
def insertEntry (e : mapEntry) : List mapEntry → List mapEntry
  | [] => [e]
  | x :: xs => if bytesCompare e.Key x.Key < 0 then e :: x :: xs else x :: insertEntry e xs

/-- Sorts entries ascending by key. -/
def sortEntries : List mapEntry → List mapEntry
  | [] => []
  | x :: xs => insertEntry x (sortEntries xs)

/-- Builds the HAMT for a set of hashed entries from a depth
(`buildMapNode` in `unnamed/part_002`): empty and singleton sets make a
leaf, the depth cap makes a sorted leaf, and otherwise the entries are
partitioned by their hash slot at this depth into children in ascending
slot order. The Go recursion is bounded by the depth cap; `fuel` is the
structural bound and exceeds `maxDepth32 - depth` at every call site, so
the fuel-exhausted case is never taken. -/
def buildMapNode : Nat → List mapEntry → Nat → mapNode
  | _, [], _ => .leaf []
  | _, [e], _ => .leaf [e]
  | 0, entries, _ => .leaf (sortEntries entries)
  | fuel + 1, entries, depth =>
    if depth ≥ maxDepth32 then .leaf (sortEntries entries)
    else
      let slots := (List.range hamtSlots).filter fun s => entries.any fun e => slotOf e depth = s
      mapNode.branch (slots.foldl (fun bm s => bm ||| (1 <<< s)) 0)
        (slots.map fun s => buildMapNode fuel (entries.filter fun e => slotOf e depth = s)
          (depth + 1))

/-- Hashes leaf entries and builds their HAMT from a depth
(`buildMapNodeFromEntries`). -/
def buildMapNodeFromEntries (entries : List (Bytes × Value)) (depth : Nat) : mapNode :=
  match entries with
  | [] => .leaf []
  | _ => buildMapNode (maxDepth32 + 1) (entries.map fun kv => ⟨kv.1, kv.2, XXH32 kv.1 0⟩) depth

/-- Serializes a built HAMT bottom-up (`encodeMapNode` in
`unnamed/part_002`), appending children before their parent. The Go
recursion is structural on the tree; `fuel` is the structural bound and
exceeds the depth of every tree `buildMapNode` produces. -/
def encodeMapNode : Nat → Bytes → mapNode → Except String (Nat × Bytes)
  | 0, _, _ => .error "map node too deep"
  | _ + 1, builder, .leaf entries =>
    appendMapLeafNodeSorted builder (entries.map fun e => (e.Key, e.Val))
  | fuel + 1, builder, .branch bitmap children =>
    match children.foldlM
        (fun (acc : List Nat × Bytes) child =>
          (match encodeMapNode fuel acc.2 child with
            | .error e => .error e
            | .ok (off, b2) => .ok (acc.1 ++ [off], b2) : Except String (List Nat × Bytes)))
        (([] : List Nat), builder) with
    | .error e => .error e
    | .ok (offs, builder2) => appendMapBranchNode builder2 bitmap offs

/-- Map lookup (`mapGet` in `map_ops.go`): descend branches by 4 hash
bits per level, scan the leaf. The Go recursion follows child offsets
without a visited check and recurses forever on an offset cycle; `fuel`
bounds the walk as in `arrGet`. -/
def mapGet (doc : Bytes) : Nat → Nat → Bytes → Nat → Except String (Option Value)
  | 0, _, _, _ => .error "map node offset cycle"
  | fuel + 1, off, key, depth =>
    match NodeSliceAtV1 doc off with
    | .error e => .error e
    | .ok (h, node) =>
      if h.keyType ≠ KeyMap then .error "node is not a map"
      else if h.kind = NodeLeaf then
        match ParseMapLeafNodeV1 node with
        | .error e => .error e
        | .ok entries =>
          match entries.find? (fun kv => kv.1 == key) with
          | some kv => .ok (some kv.2)
          | none => .ok none
      else
        match ParseMapBranchNodeV1 node with
        | .error e => .error e
        | .ok (bitmap, children) =>
          let slot := (XXH32 key 0 >>> (depth * 4)) &&& hamtMask
          if (bitmap >>> slot) &&& 1 = 0 then .ok none
          else
            let idx := popcount16 (bitmap &&& ((1 <<< slot) - 1))
            mapGet doc fuel (children.getD idx 0) key (depth + 1)

/-- Bounds-checked map lookup over a document (`MapGet`). -/
def MapGet (doc : Bytes) (rootOff : Nat) (key : Bytes) : Except String (Option Value) :=
  mapGet doc (doc.length + 2) rootOff key 0

/-- Persistent map insert or update (`mapSet` in `map_ops.go`): at a
leaf, replace an equal-key entry (no write when the value is equal) or
extend and rebuild; at a branch, recurse on the slot's child and re-emit
the branch only when the child changed, or build a one-entry subtree for
an unset slot. The Go recursion carries the same `depth > maxDepth32`
guard; `fuel` is its structural image and exceeds the guard at every
call site. -/
def mapSet (doc : Bytes) : Nat → Nat → Bytes → Value → Nat → Bytes →
    Except String (Nat × Bool × Bytes)
  | 0, _, _, _, _, _ => .error "map depth exceeds max"
  | fuel + 1, off, key, val, depth, builder =>
    if depth > maxDepth32 then .error "map depth exceeds max"
    else
      match NodeSliceAtV1 doc off with
      | .error e => .error e
      | .ok (h, node) =>
        if h.keyType ≠ KeyMap then .error "node is not a map"
        else if h.kind = NodeLeaf then
          match ParseMapLeafNodeV1 node with
          | .error e => .error e
          | .ok entries =>
            match entries.find? (fun kv => kv.1 == key) with
            | some kv =>
              if valueEqual kv.2 val then .ok (off, false, builder)
              else
                match encodeMapNode (maxDepth32 + 2) builder
                    (buildMapNodeFromEntries
                      (entries.map fun e => if e.1 == key then (e.1, val) else e) depth) with
                | .error e => .error e
                | .ok (newOff, builder2) => .ok (newOff, true, builder2)
            | none =>
              match encodeMapNode (maxDepth32 + 2) builder
                  (buildMapNodeFromEntries (entries ++ [(key, val)]) depth) with
              | .error e => .error e
              | .ok (newOff, builder2) => .ok (newOff, true, builder2)
        else
          match ParseMapBranchNodeV1 node with
          | .error e => .error e
          | .ok (bitmap, children) =>
            let slot := (XXH32 key 0 >>> (depth * 4)) &&& hamtMask
            let idx := popcount16 (bitmap &&& ((1 <<< slot) - 1))
            if (bitmap >>> slot) &&& 1 = 1 then
              match mapSet doc fuel (children.getD idx 0) key val (depth + 1) builder with
              | .error e => .error e
              | .ok (newChild, changed, builder2) =>
                if ¬ changed then .ok (off, false, builder2)
                else
                  match appendMapBranchNode builder2 bitmap (children.set idx newChild) with
                  | .error e => .error e
                  | .ok (newOff, builder3) => .ok (newOff, true, builder3)
            else
              match encodeMapNode (maxDepth32 + 2) builder
                  (buildMapNodeFromEntries [(key, val)] (depth + 1)) with
              | .error e => .error e
              | .ok (newChild, builder2) =>
                match appendMapBranchNode builder2 (bitmap ||| (1 <<< slot))
                    (children.take idx ++ [newChild] ++ children.drop idx) with
                | .error e => .error e
                | .ok (newOff, builder3) => .ok (newOff, true, builder3)

/-- Whether the node at `off` is an empty map leaf (`mapNodeEmpty`). -/
def mapNodeEmpty (doc : Bytes) (off : Nat) : Except String Bool :=
  match NodeSliceAtV1 doc off with
  | .error e => .error e
  | .ok (h, node) =>
    if h.keyType ≠ KeyMap then .error "node is not a map"
    else if h.kind ≠ NodeLeaf then .ok false
    else
      match ParseMapLeafNodeV1 node with
      | .error e => .error e
      | .ok entries => .ok (entries.length == 0)

/-- Persistent map delete (`mapDel` in `map_ops.go`): filter the key out
of its leaf (no write when absent); at a branch, recurse, clear the bit
when the child becomes empty, and collapse a child-less branch to an
empty leaf. -/
def mapDel (doc : Bytes) : Nat → Nat → Bytes → Nat → Bytes →
    Except String (Nat × Bool × Bytes)
  | 0, _, _, _, _ => .error "map depth exceeds max"
  | fuel + 1, off, key, depth, builder =>
    if depth > maxDepth32 then .error "map depth exceeds max"
    else
      match NodeSliceAtV1 doc off with
      | .error e => .error e
      | .ok (h, node) =>
        if h.keyType ≠ KeyMap then .error "node is not a map"
        else if h.kind = NodeLeaf then
          match ParseMapLeafNodeV1 node with
          | .error e => .error e
          | .ok entries =>
            if ¬ entries.any (fun kv => kv.1 == key) then .ok (off, false, builder)
            else
              let kept := entries.filter fun kv => ¬ kv.1 == key
              if kept.length = 0 then
                match appendMapLeafNodeSorted builder [] with
                | .error e => .error e
                | .ok (newOff, builder2) => .ok (newOff, true, builder2)
              else
                match encodeMapNode (maxDepth32 + 2) builder
                    (buildMapNodeFromEntries kept depth) with
                | .error e => .error e
                | .ok (newOff, builder2) => .ok (newOff, true, builder2)
        else
          match ParseMapBranchNodeV1 node with
          | .error e => .error e
          | .ok (bitmap, children) =>
            let slot := (XXH32 key 0 >>> (depth * 4)) &&& hamtMask
            let idx := popcount16 (bitmap &&& ((1 <<< slot) - 1))
            if (bitmap >>> slot) &&& 1 = 0 then .ok (off, false, builder)
            else
              match mapDel doc fuel (children.getD idx 0) key (depth + 1) builder with
              | .error e => .error e
              | .ok (newChild, changed, builder2) =>
                if ¬ changed then .ok (off, false, builder2)
                else
                  match mapNodeEmpty builder2 newChild with
                  | .error e => .error e
                  | .ok empty =>
                    if empty then
                      let newBitmap := bitmap &&& (65535 ^^^ (1 <<< slot))
                      let newChildren := children.eraseIdx idx
                      if newChildren.length = 0 then
                        match appendMapLeafNodeSorted builder2 [] with
                        | .error e => .error e
                        | .ok (newOff, builder3) => .ok (newOff, true, builder3)
                      else
                        match appendMapBranchNode builder2 newBitmap newChildren with
                        | .error e => .error e
                        | .ok (newOff, builder3) => .ok (newOff, true, builder3)
                    else
                      match appendMapBranchNode builder2 bitmap
                          (children.set idx newChild) with
                      | .error e => .error e
                      | .ok (newOff, builder3) => .ok (newOff, true, builder3)

/-- Updates a map rooted at `rootOff` inside a builder (`MapSetNode`):
reads go through the builder's buffer as it stands on entry, as in Go. -/
def MapSetNode (builder : Bytes) (rootOff : Nat) (key : Bytes) (val : Value) :
    Except String (Nat × Bool × Bytes) :=
  mapSet builder (maxDepth32 + 2) rootOff key val 0 builder

/-- Deletes a key from a map rooted at `rootOff` (`MapDelNode`). -/
def MapDelNode (builder : Bytes) (rootOff : Nat) (key : Bytes) :
    Except String (Nat × Bool × Bytes) :=
  mapDel builder (maxDepth32 + 2) rootOff key 0 builder

/-- Appends a fresh empty map root (`EmptyMapRoot`). -/
def EmptyMapRoot (builder : Bytes) : Except String (Nat × Bytes) :=
  appendMapLeafNodeSorted builder []

/-! ## The map validity invariant -/

/-- Modelled from the spec: the well-formedness invariant of a map
subtree rooted at `off` (§4) — the shape every root produced by the map
writers satisfies. `m` is the association list the subtree represents: a
leaf holds its parsed entries (whose keys fit a length field and whose
values fit the encoder), and a branch at a depth below the cap
partitions `m` among its children by the 4-bit hash slot at that depth,
with an empty partition exactly at each cleared bitmap bit. -/
inductive mapRep (doc : Bytes) : Nat → Nat → List (Bytes × Value) → Prop
  | leaf (off depth : Nat) (h : NodeHeaderV1) (node : Bytes)
      (entries : List (Bytes × Value))
      (hslice : NodeSliceAtV1 doc off = .ok (h, node))
      (hkt : h.keyType = KeyMap) (hkind : h.kind = NodeLeaf)
      (hparse : ParseMapLeafNodeV1 node = .ok entries)
      (hwf : ∀ kv ∈ entries, kv.1.length < 2 ^ 64 ∧ ValueSized kv.2) :
      mapRep doc off depth entries
  | branch (off depth : Nat) (h : NodeHeaderV1) (node : Bytes)
      (bitmap : Nat) (children : List Nat) (m : List (Bytes × Value))
      (hslice : NodeSliceAtV1 doc off = .ok (h, node))
      (hkt : h.keyType = KeyMap) (hkind : h.kind ≠ NodeLeaf)
      (hparse : ParseMapBranchNodeV1 node = .ok (bitmap, children))
      (hdepth : depth < maxDepth32)
      (hchild : ∀ s, s < 16 → bitmap / 2 ^ s % 2 = 1 →
        mapRep doc (children.getD (popcount16 (bitmap % 2 ^ s)) 0) (depth + 1)
          (m.filter fun kv => decide ((XXH32 kv.1 0 >>> (depth * 4)) &&& hamtMask = s)))
      (hmiss : ∀ s, s < 16 → bitmap / 2 ^ s % 2 = 0 →
        (m.filter fun kv => decide ((XXH32 kv.1 0 >>> (depth * 4)) &&& hamtMask = s)) = [])
      (hbm0 : bitmap ≠ 0)
      (hfull : ∀ s, s < 16 → bitmap / 2 ^ s % 2 = 1 →
        (m.filter fun kv => decide ((XXH32 kv.1 0 >>> (depth * 4)) &&& hamtMask = s)) ≠ []) :
      mapRep doc off depth m

/-- One builder-level update against the buffer, as the update API
exposes them: a raw node append, a map set, a map delete, or an array
set. -/
inductive BuilderOp where
  | node (bytes : Bytes)
  | mset (root : Nat) (key : Bytes) (val : Value)
  | mdel (root : Nat) (key : Bytes)
  | aset (root index : Nat) (val : Value) (length : Nat)

/-- Runs one update operation on the builder buffer, keeping the buffer. -/
def applyOp (builder : Bytes) : BuilderOp → Except String Bytes
  | .node bytes => .ok (AppendNode builder bytes).2
  | .mset root key val =>
    match MapSetNode builder root key val with
    | .error e => .error e
    | .ok (_, _, b2) => .ok b2
  | .mdel root key =>
    match MapDelNode builder root key with
    | .error e => .error e
    | .ok (_, _, b2) => .ok b2
  | .aset root index val length =>
    match arrSet builder root index val length with
    | .error e => .error e
    | .ok (_, b2) => .ok b2

/-- Runs a sequence of update operations left to right. -/
def applyOps (builder : Bytes) : List BuilderOp → Except String Bytes
  | [] => .ok builder
  | op :: ops =>
    match applyOp builder op with
    | .error e => .error e
    | .ok b2 => applyOps b2 ops

theorem leBytes_length (k n : Nat) : (leBytes k n).length = k := by
  induction k generalizing n with
  | zero => rfl
  | succ k ih => simp [leBytes, ih]

theorem leNat_leBytes (k n : Nat) : leNat (leBytes k n) = n % 2 ^ (8 * k) := by
  induction k generalizing n with
  | zero => simp [leBytes, leNat, Nat.mod_one]
  | succ k ih =>
    simp only [leBytes, leNat, ih]
    have h2 : (2 : Nat) ^ (8 * (k + 1)) = 256 * 2 ^ (8 * k) := by ring
    rw [h2, Nat.mod_mul]

theorem leBytes_lt (k n : Nat) : ∀ b ∈ leBytes k n, b < 256 := by
  induction k generalizing n with
  | zero => simp [leBytes]
  | succ k ih =>
    intro b hb
    simp only [leBytes, List.mem_cons] at hb
    rcases hb with h | h
    · omega
    · exact ih _ _ h

theorem leNat_append (a b : Bytes) :
    leNat (a ++ b) = leNat a + 2 ^ (8 * a.length) * leNat b := by
  induction a with
  | nil => simp [leNat]
  | cons x t ih =>
    simp only [List.cons_append, leNat, List.length_cons, List.append_eq]
    rw [ih]
    have h2 : (2 : Nat) ^ (8 * (t.length + 1)) = 256 * 2 ^ (8 * t.length) := by ring
    rw [h2]; ring

theorem leNat_lt (l : Bytes) (h : ∀ b ∈ l, b < 256) : leNat l < 2 ^ (8 * l.length) := by
  induction l with
  | nil => simp [leNat]
  | cons x t ih =>
    have hx : x < 256 := h x (List.mem_cons_self x t)
    have ht := ih (fun b hb => h b (List.mem_cons_of_mem x hb))
    simp only [leNat, List.length_cons]
    have : (2 : Nat) ^ (8 * (t.length + 1)) = 256 * 2 ^ (8 * t.length) := by ring
    omega

theorem readLE_append_of_lt (a b : Bytes) (p k : Nat) (h : p + k ≤ a.length) :
    readLE (a ++ b) p k = readLE a p k := by
  unfold readLE
  rw [List.drop_append_of_le_length (by omega),
    List.take_append_of_le_length (by rw [List.length_drop]; omega)]

theorem bcFuel_congr : ∀ f g n, n ≤ f → n ≤ g → bcFuel f n = bcFuel g n := by
  intro f
  induction f with
  | zero =>
    intro g n hf hg
    have hn : n = 0 := by omega
    cases g <;> simp [bcFuel, hn]
  | succ f ih =>
    intro g n hf hg
    by_cases hn : n = 0
    · cases g <;> simp [bcFuel, hn]
    · cases g with
      | zero => omega
      | succ g =>
        rw [bcFuel, bcFuel, if_neg hn, if_neg hn, ih g (n / 2) (by omega) (by omega)]

theorem bitCount_div2 (n : Nat) : bitCount n = n % 2 + bitCount (n / 2) := by
  by_cases hn : n = 0
  · simp [hn, bitCount, bcFuel]
  · cases n with
    | zero => omega
    | succ m =>
      show bcFuel (m + 1) (m + 1) = _
      rw [bcFuel, if_neg hn]
      unfold bitCount
      rw [bcFuel_congr m ((m + 1) / 2) ((m + 1) / 2) (by omega) (by omega)]

theorem land_mod_two (y m : Nat) : (y &&& m) % 2 = y % 2 * (m % 2) := by
  have h0 : (y &&& m).testBit 0 = (y.testBit 0 && m.testBit 0) := Nat.testBit_and ..
  simp only [Nat.testBit_zero, decide_eq_decide] at h0
  rcases Nat.mod_two_eq_zero_or_one y with hy | hy <;>
    rcases Nat.mod_two_eq_zero_or_one m with hm | hm <;>
    rcases Nat.mod_two_eq_zero_or_one (y &&& m) with ha | ha <;>
    simp [hy, hm, ha] at h0 ⊢

theorem land_split_bit (y m : Nat) :
    y &&& m = (y % 2) * (m % 2) + 2 * (y / 2 &&& m / 2) := by
  have hd : (y &&& m) / 2 = y / 2 &&& m / 2 := Nat.and_div_two
  have hm := land_mod_two y m
  omega

theorem land_split (w y m : Nat) :
    y &&& m = (y % 2 ^ w &&& m % 2 ^ w) + 2 ^ w * (y / 2 ^ w &&& m / 2 ^ w) := by
  induction w generalizing y m with
  | zero => simp [Nat.mod_one]
  | succ w ih =>
    have h1 := land_split_bit y m
    have h2 := ih (y / 2) (m / 2)
    have h3 := land_split_bit (y % 2 ^ (w + 1)) (m % 2 ^ (w + 1))
    have hy1 : y % 2 ^ (w + 1) % 2 = y % 2 := by
      rw [Nat.mod_mod_of_dvd]; exact ⟨2 ^ w, by ring⟩
    have hm1 : m % 2 ^ (w + 1) % 2 = m % 2 := by
      rw [Nat.mod_mod_of_dvd]; exact ⟨2 ^ w, by ring⟩
    have hy2 : y % 2 ^ (w + 1) / 2 = y / 2 % 2 ^ w := by
      rw [pow_succ, Nat.mul_comm, Nat.mod_mul_right_div_self]
    have hm2 : m % 2 ^ (w + 1) / 2 = m / 2 % 2 ^ w := by
      rw [pow_succ, Nat.mul_comm, Nat.mod_mul_right_div_self]
    have hy3 : y / 2 ^ (w + 1) = y / 2 / 2 ^ w := by
      rw [pow_succ, Nat.mul_comm, Nat.div_div_eq_div_mul]
    have hm3 : m / 2 ^ (w + 1) = m / 2 / 2 ^ w := by
      rw [pow_succ, Nat.mul_comm, Nat.div_div_eq_div_mul]
    rw [h1, h2, h3, hy1, hm1, hy2, hm2, hy3, hm3]
    ring

theorem dmap_id (w k x : Nat) (h : x < 2 ^ (w * k)) : dmap (fun d => d) w k x = x := by
  induction k generalizing x with
  | zero => simp at h; simp [dmap, h]
  | succ k ih =>
    have hx : x / 2 ^ w < 2 ^ (w * k) := by
      rw [Nat.div_lt_iff_lt_mul (Nat.pos_pow_of_pos w (by norm_num))]
      calc x < 2 ^ (w * (k + 1)) := h
      _ = 2 ^ (w * k) * 2 ^ w := by rw [← pow_add]; ring_nf
    rw [dmap, ih _ hx]
    have := Nat.mod_add_div x (2 ^ w)
    omega

theorem dmap_lt (g : Nat → Nat) (w k : Nat) (hg : ∀ d, d < 2 ^ w → g d < 2 ^ w) :
    ∀ x, dmap g w k x < 2 ^ (w * k) := by
  induction k with
  | zero => intro x; simp [dmap]
  | succ k ih =>
    intro x
    have h1 := hg (x % 2 ^ w) (Nat.mod_lt _ (Nat.pos_pow_of_pos w (by norm_num)))
    have h2 := ih (x / 2 ^ w)
    have : (2 : Nat) ^ (w * (k + 1)) = 2 ^ w * 2 ^ (w * k) := by
      rw [← pow_add]; ring_nf
    rw [dmap, this]
    calc g (x % 2 ^ w) + 2 ^ w * dmap g w k (x / 2 ^ w)
        < 2 ^ w + 2 ^ w * dmap g w k (x / 2 ^ w) := by omega
      _ = 2 ^ w * (dmap g w k (x / 2 ^ w) + 1) := by ring
      _ ≤ 2 ^ w * 2 ^ (w * k) := Nat.mul_le_mul_left _ (by omega)

theorem dmap_comp (g h : Nat → Nat) (w k : Nat)
    (hh : ∀ d, d < 2 ^ w → h d < 2 ^ w) :
    ∀ x, dmap g w k (dmap h w k x) = dmap (fun d => g (h d)) w k x := by
  induction k with
  | zero => intro x; simp [dmap]
  | succ k ih =>
    intro x
    have hw : 0 < 2 ^ w := Nat.pos_pow_of_pos w (by norm_num)
    have hb := hh (x % 2 ^ w) (Nat.mod_lt _ hw)
    rw [dmap, dmap]
    have h1 : (h (x % 2 ^ w) + 2 ^ w * dmap h w k (x / 2 ^ w)) % 2 ^ w = h (x % 2 ^ w) := by
      rw [Nat.add_mul_mod_self_left, Nat.mod_eq_of_lt hb]
    have h2 : (h (x % 2 ^ w) + 2 ^ w * dmap h w k (x / 2 ^ w)) / 2 ^ w =
        dmap h w k (x / 2 ^ w) := by
      rw [Nat.add_mul_div_left _ _ hw, Nat.div_eq_of_lt hb, Nat.zero_add]
    rw [h1, h2, ih, dmap]

theorem dmap_add (g h : Nat → Nat) (w k : Nat) :
    ∀ x, dmap g w k x + dmap h w k x = dmap (fun d => g d + h d) w k x := by
  induction k with
  | zero => intro x; simp [dmap]
  | succ k ih =>
    intro x
    rw [dmap, dmap, dmap, ← ih]
    ring

theorem dmap_le (g h : Nat → Nat) (w k : Nat) (hle : ∀ d, d < 2 ^ w → h d ≤ g d) :
    ∀ x, dmap h w k x ≤ dmap g w k x := by
  induction k with
  | zero => intro x; simp [dmap]
  | succ k ih =>
    intro x
    have hw : 0 < 2 ^ w := Nat.pos_pow_of_pos w (by norm_num)
    have h1 := hle (x % 2 ^ w) (Nat.mod_lt _ hw)
    have h2 := ih (x / 2 ^ w)
    rw [dmap, dmap]
    have h3 : 2 ^ w * dmap h w k (x / 2 ^ w) ≤ 2 ^ w * dmap g w k (x / 2 ^ w) :=
      Nat.mul_le_mul_left _ h2
    omega

theorem dmap_sub (g h : Nat → Nat) (w k : Nat) (hle : ∀ d, d < 2 ^ w → h d ≤ g d) :
    ∀ x, dmap g w k x - dmap h w k x = dmap (fun d => g d - h d) w k x := by
  induction k with
  | zero => intro x; simp [dmap]
  | succ k ih =>
    intro x
    have hw : 0 < 2 ^ w := Nat.pos_pow_of_pos w (by norm_num)
    have h1 := hle (x % 2 ^ w) (Nat.mod_lt _ hw)
    have h2 := dmap_le g h w k hle (x / 2 ^ w)
    rw [dmap, dmap, dmap, ← ih]
    have h3 : 2 ^ w * dmap h w k (x / 2 ^ w) ≤ 2 ^ w * dmap g w k (x / 2 ^ w) :=
      Nat.mul_le_mul_left _ h2
    have h4 : 2 ^ w * dmap g w k (x / 2 ^ w) - 2 ^ w * dmap h w k (x / 2 ^ w) =
        2 ^ w * (dmap g w k (x / 2 ^ w) - dmap h w k (x / 2 ^ w)) := by
      rw [Nat.mul_sub]
    omega

theorem dmap_double (g : Nat → Nat) (w k : Nat) :
    ∀ x, dmap g w (2 * k) x =
      dmap (fun d => g (d % 2 ^ w) + 2 ^ w * g (d / 2 ^ w)) (2 * w) k x := by
  induction k with
  | zero => intro x; simp [dmap]
  | succ k ih =>
    intro x
    have hw : 0 < 2 ^ w := Nat.pos_pow_of_pos w (by norm_num)
    have hpow : (2 : Nat) ^ (2 * w) = 2 ^ w * 2 ^ w := by rw [← pow_add]; ring_nf
    have e1 : 2 * (k + 1) = (2 * k) + 1 + 1 := by ring
    rw [e1, dmap, dmap, dmap, ih]
    have m1 : x % 2 ^ (2 * w) % 2 ^ w = x % 2 ^ w := by
      rw [Nat.mod_mod_of_dvd _ ⟨2 ^ w, by rw [hpow]⟩]
    have m2 : x % 2 ^ (2 * w) / 2 ^ w = x / 2 ^ w % 2 ^ w := by
      rw [hpow, Nat.mul_comm, Nat.mod_mul_right_div_self]
    have m3 : x / 2 ^ w / 2 ^ w = x / 2 ^ (2 * w) := by
      rw [Nat.div_div_eq_div_mul, ← hpow]
    rw [m1, m2, m3]
    ring

theorem dmap_mask (s w k : Nat) (hsw : s ≤ w) :
    ∀ y, y &&& maskRep s w k = dmap (fun d => d % 2 ^ s) w k y := by
  induction k with
  | zero => intro y; simp [maskRep, dmap]
  | succ k ih =>
    intro y
    have hw : 0 < 2 ^ w := Nat.pos_pow_of_pos w (by norm_num)
    have hslt : 2 ^ s - 1 < 2 ^ w :=
      lt_of_lt_of_le (Nat.sub_lt (Nat.pos_pow_of_pos s (by norm_num)) (by norm_num))
        (Nat.pow_le_pow_right (by norm_num) hsw)
    rw [maskRep, dmap, land_split w]
    have h1 : (2 ^ s - 1 + 2 ^ w * maskRep s w k) % 2 ^ w = 2 ^ s - 1 := by
      rw [Nat.add_mul_mod_self_left, Nat.mod_eq_of_lt hslt]
    have h2 : (2 ^ s - 1 + 2 ^ w * maskRep s w k) / 2 ^ w = maskRep s w k := by
      rw [Nat.add_mul_div_left _ _ hw, Nat.div_eq_of_lt hslt, Nat.zero_add]
    rw [h1, h2, ih, Nat.and_pow_two_sub_one_eq_mod,
      Nat.mod_mod_of_dvd _ (pow_dvd_pow 2 hsw)]

theorem shift_decomp (A R w t : Nat) (ht : t ≤ w) (hA : A < 2 ^ w) :
    (A + 2 ^ w * R) / 2 ^ t =
      (A / 2 ^ t + 2 ^ (w - t) * (R % 2 ^ t)) + 2 ^ w * (R / 2 ^ t) ∧
      A / 2 ^ t + 2 ^ (w - t) * (R % 2 ^ t) < 2 ^ w := by
  have ht2 : 0 < 2 ^ t := Nat.pos_pow_of_pos t (by norm_num)
  have hw : 2 ^ t * 2 ^ (w - t) = 2 ^ w := by rw [← pow_add]; congr 1; omega
  constructor
  · have e1 : 2 ^ w * R = 2 ^ t * (2 ^ (w - t) * R) := by rw [← Nat.mul_assoc, hw]
    rw [e1, Nat.add_mul_div_left _ _ ht2]
    have e2 : R % 2 ^ t + 2 ^ t * (R / 2 ^ t) = R := Nat.mod_add_div R (2 ^ t)
    have e3 : 2 ^ (w - t) * R =
        2 ^ (w - t) * (R % 2 ^ t) + 2 ^ w * (R / 2 ^ t) := by
      conv_lhs => rw [← e2]
      rw [Nat.mul_add, ← Nat.mul_assoc]
      have : 2 ^ (w - t) * 2 ^ t = 2 ^ w := by rw [← pow_add]; congr 1; omega
      rw [this]
    omega
  · have hw2 : 2 ^ (w - t) * 2 ^ t = 2 ^ w := by rw [← pow_add]; congr 1; omega
    have h1 : A / 2 ^ t < 2 ^ (w - t) := by
      rw [Nat.div_lt_iff_lt_mul ht2, hw2]; exact hA
    have h2 : R % 2 ^ t ≤ 2 ^ t - 1 := by
      have := Nat.mod_lt R ht2
      omega
    have h3 : 2 ^ (w - t) * (R % 2 ^ t) ≤ 2 ^ (w - t) * (2 ^ t - 1) :=
      Nat.mul_le_mul_left _ h2
    have h4 : 2 ^ (w - t) * (2 ^ t - 1) = 2 ^ w - 2 ^ (w - t) := by
      rw [Nat.mul_sub, Nat.mul_one, hw2]
    have h5 : 2 ^ (w - t) * (R % 2 ^ t) ≤ 2 ^ w - 2 ^ (w - t) := h4 ▸ h3
    have h6 : 0 < 2 ^ (w - t) := Nat.pos_pow_of_pos _ (by norm_num)
    have h7 : A / 2 ^ t ≤ 2 ^ (w - t) - 1 := by omega
    have h8 : 2 ^ (w - t) ≤ 2 ^ w := Nat.pow_le_pow_right (by norm_num) (by omega)
    calc A / 2 ^ t + 2 ^ (w - t) * (R % 2 ^ t)
        ≤ (2 ^ (w - t) - 1) + (2 ^ w - 2 ^ (w - t)) := Nat.add_le_add h7 h5
      _ < 2 ^ w := by omega

theorem dmap_shift_mask (h : Nat → Nat) (w k t s : Nat)
    (hh : ∀ d, d < 2 ^ w → h d < 2 ^ w) (hst : s + t ≤ w) :
    ∀ x, dmap (fun d => d % 2 ^ s) w k (dmap h w k x / 2 ^ t) =
      dmap (fun d => h d / 2 ^ t % 2 ^ s) w k x := by
  induction k with
  | zero => intro x; simp [dmap]
  | succ k ih =>
    intro x
    have hw : 0 < 2 ^ w := Nat.pos_pow_of_pos w (by norm_num)
    have hA := hh (x % 2 ^ w) (Nat.mod_lt _ hw)
    obtain ⟨hd1, hd2⟩ := shift_decomp (h (x % 2 ^ w)) (dmap h w k (x / 2 ^ w)) w t
      (by omega) hA
    rw [dmap, dmap, hd1]
    have m1 : ((h (x % 2 ^ w) / 2 ^ t + 2 ^ (w - t) * (dmap h w k (x / 2 ^ w) % 2 ^ t)) +
        2 ^ w * (dmap h w k (x / 2 ^ w) / 2 ^ t)) % 2 ^ w =
        h (x % 2 ^ w) / 2 ^ t + 2 ^ (w - t) * (dmap h w k (x / 2 ^ w) % 2 ^ t) := by
      rw [Nat.add_mul_mod_self_left, Nat.mod_eq_of_lt hd2]
    have m2 : ((h (x % 2 ^ w) / 2 ^ t + 2 ^ (w - t) * (dmap h w k (x / 2 ^ w) % 2 ^ t)) +
        2 ^ w * (dmap h w k (x / 2 ^ w) / 2 ^ t)) / 2 ^ w =
        dmap h w k (x / 2 ^ w) / 2 ^ t := by
      rw [Nat.add_mul_div_left _ _ hw, Nat.div_eq_of_lt hd2, Nat.zero_add]
    rw [m1, m2, ih]
    have m3 : (h (x % 2 ^ w) / 2 ^ t + 2 ^ (w - t) * (dmap h w k (x / 2 ^ w) % 2 ^ t)) % 2 ^ s =
        h (x % 2 ^ w) / 2 ^ t % 2 ^ s := by
      have e1 : 2 ^ (w - t) * (dmap h w k (x / 2 ^ w) % 2 ^ t) =
          2 ^ s * (2 ^ (w - t - s) * (dmap h w k (x / 2 ^ w) % 2 ^ t)) := by
        rw [← Nat.mul_assoc, ← pow_add]
        congr 2
        omega
      rw [e1, Nat.add_mul_mod_self_left]
    rw [m3, dmap]

theorem dmap_head_mod (h : Nat → Nat) (w k t : Nat) (ht : t ≤ w) (x : Nat) :
    dmap h w k x % 2 ^ t = 0 ∨
      ∃ d2, d2 < 2 ^ w ∧ dmap h w k x % 2 ^ t = h d2 % 2 ^ t := by
  cases k with
  | zero => left; simp [dmap]
  | succ k =>
    right
    refine ⟨x % 2 ^ w, Nat.mod_lt _ (Nat.pos_pow_of_pos w (by norm_num)), ?_⟩
    rw [dmap]
    have e1 : 2 ^ w * dmap h w k (x / 2 ^ w) =
        2 ^ t * (2 ^ (w - t) * dmap h w k (x / 2 ^ w)) := by
      rw [← Nat.mul_assoc, ← pow_add]
      congr 2
      omega
    rw [e1, Nat.add_mul_mod_self_left]

theorem dmap_add_shift_mask (h : Nat → Nat) (w k t s : Nat)
    (hh : ∀ d, d < 2 ^ w → h d < 2 ^ w) (hst : s + t ≤ w)
    (hb : ∀ d1 d2, d1 < 2 ^ w → d2 < 2 ^ w →
      h d1 + h d1 / 2 ^ t + 2 ^ (w - t) * (h d2 % 2 ^ t) < 2 ^ w) :
    ∀ x, dmap (fun d => d % 2 ^ s) w k (dmap h w k x + dmap h w k x / 2 ^ t) =
      dmap (fun d => (h d + h d / 2 ^ t) % 2 ^ s) w k x := by
  induction k with
  | zero => intro x; simp [dmap]
  | succ k ih =>
    intro x
    have hw : 0 < 2 ^ w := Nat.pos_pow_of_pos w (by norm_num)
    have hA := hh (x % 2 ^ w) (Nat.mod_lt _ hw)
    obtain ⟨hd1, _⟩ := shift_decomp (h (x % 2 ^ w)) (dmap h w k (x / 2 ^ w)) w t
      (by omega) hA
    have hLow : h (x % 2 ^ w) + (h (x % 2 ^ w) / 2 ^ t +
        2 ^ (w - t) * (dmap h w k (x / 2 ^ w) % 2 ^ t)) < 2 ^ w := by
      rcases dmap_head_mod h w k t (by omega) (x / 2 ^ w) with h0 | ⟨d2, hd2w, hd2e⟩
      · rw [h0]
        have := hb (x % 2 ^ w) 0 (Nat.mod_lt _ hw) hw
        have hp : 0 ≤ 2 ^ (w - t) * (h 0 % 2 ^ t) := Nat.zero_le _
        omega
      · rw [hd2e]
        have := hb (x % 2 ^ w) d2 (Nat.mod_lt _ hw) hd2w
        omega
    have hsum : dmap h w (k + 1) x + dmap h w (k + 1) x / 2 ^ t =
        (h (x % 2 ^ w) + (h (x % 2 ^ w) / 2 ^ t +
          2 ^ (w - t) * (dmap h w k (x / 2 ^ w) % 2 ^ t))) +
        2 ^ w * (dmap h w k (x / 2 ^ w) + dmap h w k (x / 2 ^ w) / 2 ^ t) := by
      conv_lhs => rw [dmap]
      rw [hd1]
      ring
    rw [hsum, dmap]
    have m1 : ((h (x % 2 ^ w) + (h (x % 2 ^ w) / 2 ^ t +
        2 ^ (w - t) * (dmap h w k (x / 2 ^ w) % 2 ^ t))) +
        2 ^ w * (dmap h w k (x / 2 ^ w) + dmap h w k (x / 2 ^ w) / 2 ^ t)) % 2 ^ w =
        h (x % 2 ^ w) + (h (x % 2 ^ w) / 2 ^ t +
          2 ^ (w - t) * (dmap h w k (x / 2 ^ w) % 2 ^ t)) := by
      rw [Nat.add_mul_mod_self_left, Nat.mod_eq_of_lt hLow]
    have m2 : ((h (x % 2 ^ w) + (h (x % 2 ^ w) / 2 ^ t +
        2 ^ (w - t) * (dmap h w k (x / 2 ^ w) % 2 ^ t))) +
        2 ^ w * (dmap h w k (x / 2 ^ w) + dmap h w k (x / 2 ^ w) / 2 ^ t)) / 2 ^ w =
        dmap h w k (x / 2 ^ w) + dmap h w k (x / 2 ^ w) / 2 ^ t := by
      rw [Nat.add_mul_div_left _ _ hw, Nat.div_eq_of_lt hLow, Nat.zero_add]
    rw [m1, m2, ih]
    have m3 : (h (x % 2 ^ w) + (h (x % 2 ^ w) / 2 ^ t +
        2 ^ (w - t) * (dmap h w k (x / 2 ^ w) % 2 ^ t))) % 2 ^ s =
        (h (x % 2 ^ w) + h (x % 2 ^ w) / 2 ^ t) % 2 ^ s := by
      have e1 : 2 ^ (w - t) * (dmap h w k (x / 2 ^ w) % 2 ^ t) =
          2 ^ s * (2 ^ (w - t - s) * (dmap h w k (x / 2 ^ w) % 2 ^ t)) := by
        rw [← Nat.mul_assoc, ← pow_add]
        congr 2
        omega
      rw [← Nat.add_assoc, e1, Nat.add_mul_mod_self_left]
    rw [m3, dmap]

theorem dmap_congr (g h : Nat → Nat) (w k : Nat) (he : ∀ d, d < 2 ^ w → g d = h d) :
    ∀ x, dmap g w k x = dmap h w k x := by
  induction k with
  | zero => intro x; simp [dmap]
  | succ k ih =>
    intro x
    rw [dmap, dmap, ih, he _ (Nat.mod_lt _ (Nat.pos_pow_of_pos w (by norm_num)))]

theorem pc1_le (d : Nat) (h : d < 4) : pc1 d ≤ 2 := by interval_cases d <;> decide

theorem pc2_le (d : Nat) (h : d < 16) : pc2 d ≤ 4 := by
  have h1 := pc1_le (d % 4) (Nat.mod_lt _ (by norm_num))
  have h2 := pc1_le (d / 4) (by omega)
  unfold pc2
  omega

theorem pc3_le (d : Nat) (h : d < 256) : pc3 d ≤ 8 := by
  have h1 := pc2_le (d % 16) (Nat.mod_lt _ (by norm_num))
  have h2 := pc2_le (d / 16) (by omega)
  unfold pc3
  omega

theorem halves_transfer (k : Nat) :
    ∀ x, dmap (fun d => d % 2) 2 k (x / 2) = dmap (fun d => d / 2) 2 k x := by
  induction k with
  | zero => intro x; simp [dmap]
  | succ k ih =>
    intro x
    rw [dmap, dmap, show (2 : Nat) ^ 2 = 4 by norm_num]
    have e1 : x / 2 % 4 % 2 = x % 4 / 2 := by omega
    have e2 : x / 2 / 4 = x / 4 / 2 := by omega
    rw [e1, e2, ih (x / 4)]

theorem stage1_eq (x : Nat) (hx : x < 65536) :
    x - (x >>> 1 &&& 0x5555) = dmap pc1 2 8 x := by
  have hs : x >>> 1 = x / 2 := by
    rw [Nat.shiftRight_eq_div_pow]
  have hm : (0x5555 : Nat) = maskRep 1 2 8 := by rfl
  rw [hs, hm, dmap_mask 1 2 8 (by norm_num) (x / 2)]
  have ht : dmap (fun d => d % 2 ^ 1) 2 8 (x / 2) = dmap (fun d => d / 2) 2 8 x := by
    rw [show (2 : Nat) ^ 1 = 2 by norm_num]
    exact halves_transfer 8 x
  rw [ht]
  have hid : x = dmap (fun d => d) 2 8 x := (dmap_id 2 8 x (by norm_num; omega)).symm
  nth_rewrite 1 [hid]
  rw [dmap_sub (fun d => d) (fun d => d / 2) 2 8 (fun d _ => Nat.div_le_self d 2) x]
  exact dmap_congr _ _ 2 8 (fun d _ => rfl) x

theorem pe1_lt (d : Nat) (h : d < 16) : pe1 d < 16 := by
  have h1 := pc1_le (d % 4) (Nat.mod_lt _ (by norm_num))
  have h2 := pc1_le (d / 4) (by omega)
  unfold pe1
  omega

theorem stage2_eq (x : Nat) :
    (dmap pc1 2 8 x &&& 0x3333) + (dmap pc1 2 8 x >>> 2 &&& 0x3333) =
      dmap pc2 4 4 x := by
  have hpe1 : ∀ d, d < 2 ^ 4 → pe1 d < 2 ^ 4 := by
    intro d hd
    norm_num at hd ⊢
    exact pe1_lt d hd
  have hdb : dmap pc1 2 8 x = dmap pe1 4 4 x := by
    have h := dmap_double pc1 2 4 x
    norm_num at h
    rw [h]
    refine dmap_congr _ _ 4 4 (fun d _ => ?_) x
    simp [pe1]
  have hm : (0x3333 : Nat) = maskRep 2 4 4 := by rfl
  have hs : dmap pc1 2 8 x >>> 2 = dmap pc1 2 8 x / 2 ^ 2 := Nat.shiftRight_eq_div_pow _ _
  rw [hm, hs, hdb, dmap_mask 2 4 4 (by norm_num),
    dmap_comp (fun d => d % 2 ^ 2) pe1 4 4 hpe1 x,
    dmap_mask 2 4 4 (by norm_num), dmap_shift_mask pe1 4 4 2 2 hpe1 (by norm_num) x,
    dmap_add]
  refine dmap_congr _ _ 4 4 (fun d hd => ?_) x
  norm_num at hd
  have h1 := pc1_le (d % 4) (Nat.mod_lt _ (by norm_num))
  have h2 := pc1_le (d / 4) (by omega)
  unfold pe1 pc2
  norm_num
  omega

theorem pe2_facts (d : Nat) (h : d < 256) :
    pe2 d < 256 ∧ pe2 d % 16 ≤ 4 ∧ pe2 d / 16 ≤ 4 := by
  have h1 := pc2_le (d % 16) (Nat.mod_lt _ (by norm_num))
  have h2 := pc2_le (d / 16) (by omega)
  unfold pe2
  omega

theorem stage3_eq (x : Nat) :
    (dmap pc2 4 4 x + dmap pc2 4 4 x >>> 4) &&& 0x0F0F = dmap pc3 8 2 x := by
  have hpe2 : ∀ d, d < 2 ^ 8 → pe2 d < 2 ^ 8 := by
    intro d hd
    norm_num at hd ⊢
    exact (pe2_facts d hd).1
  have hdb : dmap pc2 4 4 x = dmap pe2 8 2 x := by
    have h := dmap_double pc2 4 2 x
    norm_num at h
    rw [h]
    refine dmap_congr _ _ 8 2 (fun d _ => ?_) x
    simp [pe2]
  have hm : (0x0F0F : Nat) = maskRep 4 8 2 := by rfl
  have hs : dmap pc2 4 4 x >>> 4 = dmap pc2 4 4 x / 2 ^ 4 := Nat.shiftRight_eq_div_pow _ _
  have hb : ∀ d1 d2, d1 < 2 ^ 8 → d2 < 2 ^ 8 →
      pe2 d1 + pe2 d1 / 2 ^ 4 + 2 ^ (8 - 4) * (pe2 d2 % 2 ^ 4) < 2 ^ 8 := by
    intro d1 d2 hd1 hd2
    norm_num at hd1 hd2 ⊢
    obtain ⟨ha1, ha2, ha3⟩ := pe2_facts d1 hd1
    obtain ⟨hb1, hb2, hb3⟩ := pe2_facts d2 hd2
    omega
  rw [hm, hs, hdb, dmap_mask 4 8 2 (by norm_num),
    dmap_add_shift_mask pe2 8 2 4 4 hpe2 (by norm_num) hb x]
  refine dmap_congr _ _ 8 2 (fun d hd => ?_) x
  norm_num at hd
  obtain ⟨ha1, ha2, ha3⟩ := pe2_facts d hd
  have h1 := pc2_le (d % 16) (Nat.mod_lt _ (by norm_num))
  have h2 := pc2_le (d / 16) (by omega)
  unfold pe2 at ha2 ha3 ⊢
  unfold pc3
  norm_num at ha2 ha3 ⊢
  omega

theorem popcount16_closed (x : Nat) (hx : x < 65536) :
    popcount16 x = pc3 (x % 256) + pc3 (x / 256) := by
  simp only [popcount16]
  rw [stage1_eq x hx, stage2_eq x, stage3_eq x]
  have hA : dmap pc3 8 2 x = pc3 (x % 256) + 256 * pc3 (x / 256 % 256) := by
    norm_num [dmap]
  have hd : x / 256 % 256 = x / 256 := Nat.mod_eq_of_lt (by omega)
  have h1 := pc3_le (x % 256) (Nat.mod_lt _ (by norm_num))
  have h2 := pc3_le (x / 256) (by omega)
  rw [hA, hd]
  have hsr : (pc3 (x % 256) + 256 * pc3 (x / 256)) >>> 8 =
      (pc3 (x % 256) + 256 * pc3 (x / 256)) / 256 := by
    rw [Nat.shiftRight_eq_div_pow]
  have hdiv : (pc3 (x % 256) + 256 * pc3 (x / 256)) / 256 = pc3 (x / 256) := by
    rw [Nat.add_mul_div_left _ _ (by norm_num : (0 : Nat) < 256),
      Nat.div_eq_of_lt (by omega), Nat.zero_add]
  rw [hsr, hdiv]
  have hand : (pc3 (x % 256) + 256 * pc3 (x / 256) + pc3 (x / 256)) &&& 0x1F =
      (pc3 (x % 256) + 256 * pc3 (x / 256) + pc3 (x / 256)) % 32 := by
    rw [show (0x1F : Nat) = 2 ^ 5 - 1 by norm_num, Nat.and_pow_two_sub_one_eq_mod]
  rw [hand]
  have e1 : pc3 (x % 256) + 256 * pc3 (x / 256) + pc3 (x / 256) =
      (pc3 (x % 256) + pc3 (x / 256)) + 32 * (8 * pc3 (x / 256)) := by ring
  rw [e1, Nat.add_mul_mod_self_left, Nat.mod_eq_of_lt (by omega)]

set_option maxRecDepth 10000 in
theorem pc3_eq_bitCount : ∀ b < 256, pc3 b = bitCount b := by decide

theorem bitCount_split (k : Nat) :
    ∀ a b, a < 2 ^ k → bitCount (a + 2 ^ k * b) = bitCount a + bitCount b := by
  induction k with
  | zero =>
    intro a b ha
    have ha0 : a = 0 := by omega
    simp [ha0, bitCount, bcFuel]
  | succ k ih =>
    intro a b ha
    rw [bitCount_div2 (a + 2 ^ (k + 1) * b)]
    have hp : 2 ^ (k + 1) * b = 2 * (2 ^ k * b) := by ring
    have e1 : (a + 2 ^ (k + 1) * b) % 2 = a % 2 := by rw [hp]; omega
    have e2 : (a + 2 ^ (k + 1) * b) / 2 = a / 2 + 2 ^ k * b := by rw [hp]; omega
    rw [e1, e2, ih (a / 2) b (by omega), bitCount_div2 a]
    ring

theorem popcount16_eq_bitCount (x : Nat) (hx : x < 65536) :
    popcount16 x = bitCount x := by
  rw [popcount16_closed x hx,
    pc3_eq_bitCount _ (Nat.mod_lt _ (by norm_num)),
    pc3_eq_bitCount _ (by omega)]
  have h := bitCount_split 8 (x % 256) (x / 256) (by norm_num; omega)
  norm_num at h
  rw [← h]
  congr 1
  omega

/-! ## Scalar round-trip lemmas -/

theorem and_two_pow_div (x i : Nat) :
    x &&& 2 ^ i = if x / 2 ^ i % 2 = 1 then 2 ^ i else 0 := by
  rw [Nat.and_two_pow, Nat.testBit_to_div_mod]
  by_cases h : x / 2 ^ i % 2 = 1 <;> simp [h]

theorem or_sixteen_mul (a b : Nat) (h : b < 16) : 16 * a ||| b = 16 * a + b := by
  have h2 := Nat.mul_add_lt_is_or (i := 4) (b := b) (by norm_num; omega) a
  norm_num at h2
  omega

theorem or_thirtytwo_mul (a b : Nat) (h : b < 32) : 32 * a ||| b = 32 * a + b := by
  have h2 := Nat.mul_add_lt_is_or (i := 5) (b := b) (by norm_num; omega) a
  norm_num at h2
  omega

theorem land_fifteen (x : Nat) : x &&& 15 = x % 16 := by
  have h := Nat.and_pow_two_sub_one_eq_mod x 4
  norm_num at h
  exact h

theorem land_thirtyone (x : Nat) : x &&& 31 = x % 32 := by
  have h := Nat.and_pow_two_sub_one_eq_mod x 5
  norm_num at h
  exact h

theorem land_sixteen (x : Nat) : x &&& 16 = if x / 16 % 2 = 1 then 16 else 0 := by
  have h := and_two_pow_div x 4
  norm_num at h
  exact h

theorem typeFromTag_tag (typ low : Nat) (h : low < 32) :
    TypeFromTag (typ * 32 + low) = typ := by
  unfold TypeFromTag
  rw [Nat.shiftRight_eq_div_pow]
  norm_num
  omega

theorem lowBits_tag (typ low : Nat) (h : low < 32) :
    LowBits (typ * 32 + low) = low := by
  unfold LowBits
  have h2 := land_thirtyone (typ * 32 + low)
  norm_num at h2 ⊢
  omega

theorem lengthBytesNoErr_spec (L : Nat) (h15 : 15 < L) (h64 : L < 2 ^ 64) :
    1 ≤ lengthBytesNoErr L ∧ lengthBytesNoErr L ≤ 8 ∧ L < 2 ^ (8 * lengthBytesNoErr L) := by
  unfold lengthBytesNoErr
  split_ifs <;> norm_num <;> omega

theorem leBytes_take (m : Nat) :
    ∀ k n, m ≤ k → (leBytes k n).take m = leBytes m n := by
  induction m with
  | zero => intro k n _; simp [leBytes]
  | succ m ih =>
    intro k n hm
    cases k with
    | zero => omega
    | succ k => simp [leBytes, ih k (n / 256) (by omega)]

theorem writeLength_packed (typ L : Nat) (h : L ≤ 15) :
    writeLength (typ <<< 5) L = [typ * 32 + (16 + L)] := by
  unfold writeLength
  rw [if_pos h, Nat.shiftLeft_eq]
  congr 1
  have e1 : typ * 2 ^ 5 = 32 * typ := by ring
  rw [e1, or_thirtytwo_mul typ 16 (by norm_num)]
  have e2 : 32 * typ + 16 = 16 * (2 * typ + 1) := by ring
  rw [e2, or_sixteen_mul (2 * typ + 1) L (by omega)]
  ring

theorem writeLength_unpacked (typ L : Nat) (h : 15 < L) :
    writeLength (typ <<< 5) L =
      (typ * 32 + lengthBytesNoErr L) :: leBytes (lengthBytesNoErr L) L := by
  unfold writeLength
  rw [if_neg (by omega)]
  show (typ <<< 5 ||| lengthBytesNoErr L &&& 0x0F) :: leBytes (lengthBytesNoErr L) L = _
  rw [Nat.shiftLeft_eq]
  have hn : lengthBytesNoErr L ≤ 8 := by
    unfold lengthBytesNoErr
    split_ifs <;> norm_num
  congr 1
  have e0 : lengthBytesNoErr L &&& 0x0F = lengthBytesNoErr L := by
    rw [show (0x0F : Nat) = 15 from rfl, land_fifteen]
    omega
  rw [e0]
  have e1 : typ * 2 ^ 5 = 32 * typ := by ring
  rw [e1, or_thirtytwo_mul typ _ (by omega)]
  ring

theorem decodeLength_packed (typ L : Nat) (hL : L ≤ 15) (rest : Bytes) :
    decodeLength (typ * 32 + (16 + L)) rest = .ok (L, 0) := by
  unfold decodeLength
  have h16 : (typ * 32 + (16 + L)) &&& 16 = 16 := by
    rw [land_sixteen, if_pos (by omega)]
  rw [show (0x10 : Nat) = 16 from rfl, h16, if_pos (by norm_num)]
  have h15 : (typ * 32 + (16 + L)) &&& 0x0F = L := by
    rw [show (0x0F : Nat) = 15 from rfl, land_fifteen]
    omega
  rw [h15]

theorem decodeLength_unpacked (typ L : Nat) (hL : 15 < L) (h64 : L < 2 ^ 64)
    (rest : Bytes) :
    decodeLength (typ * 32 + lengthBytesNoErr L)
      (leBytes (lengthBytesNoErr L) L ++ rest) = .ok (L, lengthBytesNoErr L) := by
  obtain ⟨h1, h8, hlt⟩ := lengthBytesNoErr_spec L hL h64
  unfold decodeLength
  have h16 : (typ * 32 + lengthBytesNoErr L) &&& 16 = 0 := by
    rw [land_sixteen, if_neg (by omega)]
  rw [show (0x10 : Nat) = 16 from rfl, h16, if_neg (by norm_num)]
  have h15 : (typ * 32 + lengthBytesNoErr L) &&& 0x0F = lengthBytesNoErr L := by
    rw [show (0x0F : Nat) = 15 from rfl, land_fifteen]
    omega
  simp only [h15]
  rw [if_neg (by omega), if_neg (by simp [leBytes_length])]
  have htake := List.take_left (leBytes (lengthBytesNoErr L) L) rest
  rw [leBytes_length] at htake
  rw [htake, leNat_leBytes, Nat.mod_eq_of_lt hlt, Nat.mod_eq_of_lt (by omega)]

theorem toInt64_emod (v : Int) (h1 : -(2 ^ 63) ≤ v) (h2 : v < 2 ^ 63) :
    toInt64 (v % (2 ^ 64 : Int)).toNat = v := by
  unfold toInt64
  have h3 : 0 ≤ v % (2 ^ 64 : Int) := Int.emod_nonneg v (by norm_num)
  have h4 : v % (2 ^ 64 : Int) < 2 ^ 64 := Int.emod_lt_of_pos v (by norm_num)
  split_ifs with h <;> push_cast <;> omega

theorem offLenBytes_spec (off : Nat) (h32 : off < 2 ^ 32) :
    1 ≤ offLenBytes off ∧ offLenBytes off ≤ 4 ∧ off < 2 ^ (8 * offLenBytes off) := by
  unfold offLenBytes
  split_ifs <;> norm_num <;> omega

theorem decode_encode_sized (v : Value) (hs : ValueSized v) :
    DecodeValue (encodeValueToBuffer v) = .ok (v, (encodeValueToBuffer v).length) := by
  cases v with
  | nil => rfl
  | bit b => cases b <;> rfl
  | i64 w =>
    obtain ⟨h1, h2⟩ := hs
    have hu : (w % (2 ^ 64 : Int)).toNat < 2 ^ 64 := by
      have ha := Int.emod_nonneg w (show (2 ^ 64 : Int) ≠ 0 by norm_num)
      have hb := Int.emod_lt_of_pos w (show (0 : Int) < 2 ^ 64 by norm_num)
      omega
    simp only [encodeValueToBuffer, TagI64, DecodeValue]
    rw [show TypeFromTag 64 = 2 from rfl, show LowBits 64 = 0 from rfl]
    norm_num [TypeNil, TypeBit, TypeI64, leBytes_length]
    rw [List.take_of_length_le (by rw [leBytes_length]), leNat_leBytes]
    norm_num
    have hu2 : (w % (18446744073709551616 : Int)).toNat < 18446744073709551616 := hu
    rw [Nat.mod_eq_of_lt hu2]
    exact toInt64_emod w h1 h2
  | f64 bits =>
    have hu : bits < 2 ^ 64 := hs
    simp only [encodeValueToBuffer, TagF64, DecodeValue]
    rw [show TypeFromTag 96 = 3 from rfl, show LowBits 96 = 0 from rfl]
    norm_num [TypeNil, TypeBit, TypeI64, TypeF64, leBytes_length]
    rw [List.take_of_length_le (by rw [leBytes_length]), leNat_leBytes]
    norm_num
    omega
  | txt s =>
    have h64 : s.length < 2 ^ 64 := hs
    by_cases hL : s.length ≤ 15
    · have henc : encodeValueToBuffer (.txt s) = (4 * 32 + (16 + s.length)) :: s := by
        simp only [encodeValueToBuffer, encodeBytesToBuffer, TypeTxt]
        rw [writeLength_packed 4 s.length hL]
        simp
      rw [henc]
      simp only [DecodeValue]
      rw [typeFromTag_tag 4 (16 + s.length) (by omega),
        decodeLength_packed 4 s.length hL s]
      norm_num [TypeNil, TypeBit, TypeI64, TypeF64, TypeTxt]
      omega
    · have hn := lengthBytesNoErr_spec s.length (by omega) h64
      have henc : encodeValueToBuffer (.txt s) =
          (4 * 32 + lengthBytesNoErr s.length) ::
            (leBytes (lengthBytesNoErr s.length) s.length ++ s) := by
        simp only [encodeValueToBuffer, encodeBytesToBuffer, TypeTxt]
        rw [writeLength_unpacked 4 s.length (by omega)]
        simp
      rw [henc]
      simp only [DecodeValue]
      rw [typeFromTag_tag 4 (lengthBytesNoErr s.length) (by omega),
        decodeLength_unpacked 4 s.length (by omega) h64 s]
      have hdrop := List.drop_left (leBytes (lengthBytesNoErr s.length) s.length) s
      rw [leBytes_length] at hdrop
      norm_num [TypeNil, TypeBit, TypeI64, TypeF64, TypeTxt, leBytes_length, hdrop]
      omega
  | bin s =>
    have h64 : s.length < 2 ^ 64 := hs
    by_cases hL : s.length ≤ 15
    · have henc : encodeValueToBuffer (.bin s) = (5 * 32 + (16 + s.length)) :: s := by
        simp only [encodeValueToBuffer, encodeBytesToBuffer, TypeBin]
        rw [writeLength_packed 5 s.length hL]
        simp
      rw [henc]
      simp only [DecodeValue]
      rw [typeFromTag_tag 5 (16 + s.length) (by omega),
        decodeLength_packed 5 s.length hL s]
      norm_num [TypeNil, TypeBit, TypeI64, TypeF64, TypeTxt, TypeBin]
      omega
    · have hn := lengthBytesNoErr_spec s.length (by omega) h64
      have henc : encodeValueToBuffer (.bin s) =
          (5 * 32 + lengthBytesNoErr s.length) ::
            (leBytes (lengthBytesNoErr s.length) s.length ++ s) := by
        simp only [encodeValueToBuffer, encodeBytesToBuffer, TypeBin]
        rw [writeLength_unpacked 5 s.length (by omega)]
        simp
      rw [henc]
      simp only [DecodeValue]
      rw [typeFromTag_tag 5 (lengthBytesNoErr s.length) (by omega),
        decodeLength_unpacked 5 s.length (by omega) h64 s]
      have hdrop := List.drop_left (leBytes (lengthBytesNoErr s.length) s.length) s
      rw [leBytes_length] at hdrop
      norm_num [TypeNil, TypeBit, TypeI64, TypeF64, TypeTxt, TypeBin, leBytes_length, hdrop]
      omega
  | arr off =>
    have h32 : off < 2 ^ 32 := hs
    obtain ⟨hm1, hm4, hmb⟩ := offLenBytes_spec off h32
    have henc : encodeValueToBuffer (.arr off) =
        (6 * 32 + (16 + offLenBytes off)) :: leBytes (offLenBytes off) off := by
      simp only [encodeValueToBuffer, encodeOffsetToBuffer, TypeArr]
      rw [writeLength_packed 6 (offLenBytes off) (by omega),
        leBytes_take (offLenBytes off) 4 off (by omega)]
      simp
    rw [henc]
    simp only [DecodeValue]
    rw [typeFromTag_tag 6 (16 + offLenBytes off) (by omega),
      decodeLength_packed 6 (offLenBytes off) (by omega) (leBytes (offLenBytes off) off)]
    norm_num [TypeNil, TypeBit, TypeI64, TypeF64, TypeTxt, TypeBin, TypeArr, leBytes_length]
    rw [List.take_of_length_le (by rw [leBytes_length]), leNat_leBytes,
      Nat.mod_eq_of_lt hmb, Nat.mod_eq_of_lt (by omega)]
    rw [if_neg (by omega)]
    norm_num
    omega
  | map off =>
    have h32 : off < 2 ^ 32 := hs
    obtain ⟨hm1, hm4, hmb⟩ := offLenBytes_spec off h32
    have henc : encodeValueToBuffer (.map off) =
        (7 * 32 + (16 + offLenBytes off)) :: leBytes (offLenBytes off) off := by
      simp only [encodeValueToBuffer, encodeOffsetToBuffer, TypeMap]
      rw [writeLength_packed 7 (offLenBytes off) (by omega),
        leBytes_take (offLenBytes off) 4 off (by omega)]
      simp
    rw [henc]
    simp only [DecodeValue]
    rw [typeFromTag_tag 7 (16 + offLenBytes off) (by omega),
      decodeLength_packed 7 (offLenBytes off) (by omega) (leBytes (offLenBytes off) off)]
    norm_num [TypeNil, TypeBit, TypeI64, TypeF64, TypeTxt, TypeBin, TypeArr, TypeMap,
      leBytes_length]
    rw [List.take_of_length_le (by rw [leBytes_length]), leNat_leBytes,
      Nat.mod_eq_of_lt hmb, Nat.mod_eq_of_lt (by omega)]
    rw [if_neg (by omega)]
    norm_num
    omega

/-- C3: for every `Value` of a non-container kind (Nil, Bool, I64, F64,
Text, Bin) whose payload fits the Go machine widths, encoding it with
`encodeValueToBuffer` and decoding the result with `DecodeValue` succeeds,
yields the same value, and the consumed byte count equals the length of the
encoded bytes. -/
theorem C3_scalar_roundtrip (v : Value) (hnc : NonContainer v) (hsz : ScalarSized v) :
    DecodeValue (encodeValueToBuffer v) = .ok (v, (encodeValueToBuffer v).length) := by
  apply decode_encode_sized
  cases v <;> simp_all [NonContainer, ScalarSized, ValueSized]

/-- Witness for C3 at the concrete value `Text "hi"`. -/
theorem C3_scalar_roundtrip_witness :
    NonContainer (Value.txt [104, 105]) ∧ ScalarSized (Value.txt [104, 105]) ∧
      DecodeValue (encodeValueToBuffer (Value.txt [104, 105])) =
        .ok (Value.txt [104, 105], 3) :=
  ⟨by trivial, by norm_num [ScalarSized],
    C3_scalar_roundtrip (Value.txt [104, 105]) (by trivial) (by norm_num [ScalarSized])⟩

set_option maxRecDepth 100000 in
/-- C9: `XXH32` matches the canonical seeded xxh32 bit-for-bit on every
`(buffer, seed)` pair of the canonical xxhash sanity vector table
(lengths 0, 1, 14 and 222 of the sanity buffer, with seed 0 and with seed
prime32). -/
theorem C9_xxh32_vectors :
    XXH32 (sanityBuffer 0) 0 = 0x02CC5D05 ∧
    XXH32 (sanityBuffer 0) 2654435761 = 0x36B78AE7 ∧
    XXH32 (sanityBuffer 1) 0 = 0xCF65B03E ∧
    XXH32 (sanityBuffer 1) 2654435761 = 0xB4545AA4 ∧
    XXH32 (sanityBuffer 14) 0 = 0x1208E7E2 ∧
    XXH32 (sanityBuffer 14) 2654435761 = 0x6AF1D1FE ∧
    XXH32 (sanityBuffer 222) 0 = 0x5BD11DBD ∧
    XXH32 (sanityBuffer 222) 2654435761 = 0x58803C5F := by
  decide

/-- C2: a document built by appending a trailer to a magic-led payload is
exactly 8 bytes longer; `ParseTrailer` recovers the root and prev-root
from it; and on every document it accepts, `ParseTrailer` reads the root
from the last 8 bytes and the prev-root from the last 4, as u32 LE. -/
theorem C2_trailer_framing (b : Bytes) (t : Trailer) (hm : b.take 4 = HeaderMagic)
    (hr : t.RootOffset < 2 ^ 32) (hp : t.PrevRootOffset < 2 ^ 32) :
    (AppendTrailer b t).length = b.length + 8 ∧
    ParseTrailer (AppendTrailer b t) = .ok t ∧
    (∀ d tr, ParseTrailer d = .ok tr →
      12 ≤ d.length ∧ d.take 4 = HeaderMagic ∧
      tr.RootOffset = readLE d (d.length - 8) 4 ∧
      tr.PrevRootOffset = readLE d (d.length - 4) 4) := by
  have hb4 : 4 ≤ b.length := by
    have := congrArg List.length hm
    simp [HeaderMagic] at this
    have hle := List.length_take 4 b
    omega
  have hlen : (AppendTrailer b t).length = b.length + 8 := by
    simp [AppendTrailer, leBytes_length]
  refine ⟨hlen, ?_, ?_⟩
  · unfold ParseTrailer
    rw [if_neg (by rw [hlen]; simp [HeaderMagic, TrailerSize]; omega)]
    have htk : (AppendTrailer b t).take 4 = HeaderMagic := by
      unfold AppendTrailer
      rw [List.take_append_of_le_length (by omega)]
      exact hm
    rw [if_neg (by rw [htk]; simp)]
    have hdrop : ∀ p, p = b.length →
        (AppendTrailer b t).drop p = leBytes 4 t.RootOffset ++ leBytes 4 t.PrevRootOffset := by
      intro p hp2
      unfold AppendTrailer
      rw [hp2]
      have := List.drop_left b (leBytes 4 t.RootOffset ++ leBytes 4 t.PrevRootOffset)
      exact this
    have e1 : readLE (AppendTrailer b t) ((AppendTrailer b t).length - TrailerSize) 4 =
        t.RootOffset := by
      unfold readLE
      rw [show (AppendTrailer b t).length - TrailerSize = b.length by
        rw [hlen]; simp [TrailerSize]]
      rw [hdrop b.length rfl, List.take_append_of_le_length (by rw [leBytes_length]),
        List.take_of_length_le (by rw [leBytes_length]), leNat_leBytes]
      norm_num
      omega
    have e2 : readLE (AppendTrailer b t) ((AppendTrailer b t).length - TrailerSize + 4) 4 =
        t.PrevRootOffset := by
      unfold readLE
      rw [show (AppendTrailer b t).length - TrailerSize + 4 = b.length + 4 by
        rw [hlen]; simp [TrailerSize]]
      rw [show (AppendTrailer b t).drop (b.length + 4) =
          ((AppendTrailer b t).drop b.length).drop 4 by rw [List.drop_drop, Nat.add_comm]]
      rw [hdrop b.length rfl, List.drop_append_of_le_length (by rw [leBytes_length]),
        show (leBytes 4 t.RootOffset).drop 4 = [] by
          rw [List.drop_of_length_le (by rw [leBytes_length])]]
      rw [List.nil_append, List.take_of_length_le (by rw [leBytes_length]), leNat_leBytes]
      norm_num
      omega
    rw [e1, e2]
  · intro d tr htr
    unfold ParseTrailer at htr
    by_cases h1 : d.length < HeaderMagic.length + TrailerSize
    · rw [if_pos h1] at htr; cases htr
    · rw [if_neg h1] at htr
      by_cases h2 : d.take 4 ≠ HeaderMagic
      · rw [if_pos h2] at htr; cases htr
      · rw [if_neg h2] at htr
        simp only [Except.ok.injEq] at htr
        subst htr
        push_neg at h2
        refine ⟨by simp [HeaderMagic, TrailerSize] at h1; omega, h2, rfl, ?_⟩
        show readLE d (d.length - TrailerSize + 4) 4 = _
        congr 1
        simp [HeaderMagic, TrailerSize] at h1
        simp [TrailerSize]
        omega

/-- Witness for C2 at a concrete 4-byte payload and trailer. -/
theorem C2_trailer_framing_witness :
    HeaderMagic.take 4 = HeaderMagic ∧ (4 : Nat) < 2 ^ 32 ∧ (0 : Nat) < 2 ^ 32 ∧
      ((AppendTrailer HeaderMagic ⟨4, 0⟩).length = HeaderMagic.length + 8 ∧
        ParseTrailer (AppendTrailer HeaderMagic ⟨4, 0⟩) = .ok ⟨4, 0⟩) := by
  have h := C2_trailer_framing HeaderMagic ⟨4, 0⟩ (by decide) (by norm_num) (by norm_num)
  exact ⟨by decide, by norm_num, by norm_num, h.1, h.2.1⟩

/-- C7 counterexample: `scalarRootedDoc` is a valid document whose root
offset addresses a non-container (nil) value record, yet `DetectDocType`
returns `DocTree` for it, not `DocScalar`: the code returns `DocTree`
for every document it accepts and never distinguishes scalar roots. -/
theorem C7_detect_scalar_counterexample :
    DecodeValueAt scalarRootedDoc 4 = .ok .nil ∧
    ParseTrailer scalarRootedDoc = .ok ⟨4, 0⟩ ∧
    DetectDocType scalarRootedDoc = .ok DocTree ∧
    DetectDocType scalarRootedDoc ≠ .ok DocScalar := by
  refine ⟨rfl, rfl, rfl, ?_⟩
  intro h
  rw [show DetectDocType scalarRootedDoc = .ok DocTree from rfl] at h
  injection h with h2
  cases h2

/-- C7 (amended): `DetectDocType` classifies every document it accepts as
`DocTree` — including scalar-rooted ones — and errors on malformed
framing: a document shorter than magic + trailer or without the leading
magic is rejected, and a trailer-valid document whose root offset does
not address a parseable in-bounds node is rejected with that error. -/
theorem C7_detect_doc_type (b : Bytes) :
    (∀ d, DetectDocType b = .ok d → d = DocTree) ∧
    (b.length < HeaderMagic.length + TrailerSize ∨ b.take 4 ≠ HeaderMagic →
      ∃ e, DetectDocType b = .error e) ∧
    (∀ tr, ParseTrailer b = .ok tr →
      ∀ e, NodeSliceAt b tr.RootOffset = .error e → DetectDocType b = .error e) := by
  refine ⟨?_, ?_, ?_⟩
  · intro d h
    unfold DetectDocType at h
    split at h
    · cases h
    · split at h
      · cases h
      · split at h
        · cases h
        · split at h
          · cases h
          · injection h with h2
            exact h2.symm
  · intro hbad
    by_cases hs : b.length < HeaderMagic.length + TrailerSize
    · exact ⟨"document too short", by unfold DetectDocType; rw [if_pos hs]⟩
    · have hm : b.take 4 ≠ HeaderMagic := by
        rcases hbad with h | h
        · exact absurd h hs
        · exact h
      exact ⟨"missing TRON header magic", by
        unfold DetectDocType; rw [if_neg hs, if_pos hm]⟩
  · intro tr htr e hnode
    have hs : ¬ b.length < HeaderMagic.length + TrailerSize := by
      unfold ParseTrailer at htr
      by_cases h : b.length < HeaderMagic.length + TrailerSize
      · rw [if_pos h] at htr; cases htr
      · exact h
    have hm : ¬ b.take 4 ≠ HeaderMagic := by
      unfold ParseTrailer at htr
      rw [if_neg hs] at htr
      by_cases h : b.take 4 ≠ HeaderMagic
      · rw [if_pos h] at htr; cases htr
      · exact h
    unfold DetectDocType
    rw [if_neg hs, if_neg hm]
    simp only [htr, hnode]

/-- Witness for C7 at concrete documents: a trailer-valid document whose
root offset is out of range is rejected with the node error, and the
empty document is rejected as too short. -/
theorem C7_detect_doc_type_witness :
    DetectDocType (HeaderMagic ++ (leBytes 4 12 ++ leBytes 4 0)) =
      .error "node offset out of range" ∧
    ∃ e, DetectDocType [] = .error e :=
  ⟨(C7_detect_doc_type (HeaderMagic ++ (leBytes 4 12 ++ leBytes 4 0))).2.2 ⟨12, 0⟩ rfl
      "node offset out of range" rfl,
    (C7_detect_doc_type []).2.1 (Or.inl (by decide))⟩

/-- C6 counterexample: on a valid array document of logical length 1, a
set at index equal to the length does NOT extend the array — the code
rejects every index at or past the stored length with an
index-out-of-range error, contrary to the claimed extend-by-one. -/
theorem C6_set_at_length_counterexample :
    arrayRootLength singletonArrayDoc 5 = .ok 1 ∧
    ArrSetDocument singletonArrayDoc 1 Value.nil = .error "array index out of range" := by
  exact ⟨rfl, rfl⟩

/-- C6 (amended): for an array document of stored length L, a set at any
index at or past L — including index = L — fails with an
index-out-of-range error, and `ArrGet` fails for every index not in
`[0, L)`. -/
theorem C6_array_index_bounds :
    (∀ doc index v rootOff L builder,
      arrayDocumentBase doc = .ok (rootOff, L, builder) → L ≤ index →
        ArrSetDocument doc index v = .error "array index out of range") ∧
    (∀ doc off index L, arrayRootLength doc off = .ok L → L ≤ index →
      ArrGet doc off index = .error "array index out of range") := by
  constructor
  · intro doc index v rootOff L builder hbase hidx
    unfold ArrSetDocument
    simp only [hbase]
    rw [if_pos hidx]
  · intro doc off index L hlen hidx
    unfold ArrGet
    simp only [hlen]
    rw [if_pos hidx]

/-- Witness for C6 on the concrete length-1 array document: both the set
and the get at index 1 are rejected. -/
theorem C6_array_index_bounds_witness :
    ArrSetDocument singletonArrayDoc 1 Value.nil = .error "array index out of range" ∧
    ArrGet singletonArrayDoc 5 1 = .error "array index out of range" :=
  ⟨C6_array_index_bounds.1 singletonArrayDoc 1 Value.nil 5 1 (singletonArrayDoc.take 18) rfl
      (by decide),
    C6_array_index_bounds.2 singletonArrayDoc 5 1 1 rfl (by decide)⟩

/-- C10: `ArrAppendDocument` with an empty value list returns the input
document byte slice itself — no builder, no node appends, the trailer
untouched: append of zero values is the identity on documents. -/
theorem C10_append_nothing_identity (doc : Bytes) : ArrAppendDocument doc [] = .ok doc := rfl

/-! ## Decoder stability and sizing lemmas -/

theorem decodeLength_append (tag : Nat) (b ext : Bytes) (L n : Nat)
    (h : decodeLength tag b = .ok (L, n)) :
    decodeLength tag (b ++ ext) = .ok (L, n) := by
  simp only [decodeLength] at h ⊢
  by_cases h1 : tag &&& 0x10 ≠ 0
  · rw [if_pos h1] at h ⊢; exact h
  · rw [if_neg h1] at h ⊢
    by_cases h2 : tag &&& 0x0F < 1 ∨ tag &&& 0x0F > 8
    · rw [if_pos h2] at h; cases h
    · rw [if_neg h2] at h ⊢
      by_cases h3 : b.length < tag &&& 0x0F
      · rw [if_pos h3] at h; cases h
      · rw [if_neg h3] at h
        rw [if_neg (by simp; omega : ¬ (b ++ ext).length < tag &&& 0x0F)]
        rw [List.take_append_of_le_length (by omega)]
        exact h

theorem DecodeValue_append (b ext : Bytes) (v : Value) (n : Nat)
    (h : DecodeValue b = .ok (v, n)) : DecodeValue (b ++ ext) = .ok (v, n) := by
  match b with
  | [] => simp [DecodeValue] at h
  | tag :: rest =>
    rw [show (tag :: rest) ++ ext = tag :: (rest ++ ext) from rfl]
    simp only [DecodeValue] at h ⊢
    by_cases c1 : TypeFromTag tag = TypeNil
    · rw [if_pos c1] at h ⊢
      by_cases d1 : LowBits tag ≠ 0
      · rw [if_pos d1] at h; cases h
      · rw [if_neg d1] at h ⊢; exact h
    · rw [if_neg c1] at h ⊢
      by_cases c2 : TypeFromTag tag = TypeBit
      · rw [if_pos c2] at h ⊢
        by_cases d2 : tag &&& 0x1E ≠ 0
        · rw [if_pos d2] at h; cases h
        · rw [if_neg d2] at h ⊢; exact h
      · rw [if_neg c2] at h ⊢
        by_cases c3 : TypeFromTag tag = TypeI64
        · rw [if_pos c3] at h ⊢
          by_cases d3 : LowBits tag ≠ 0
          · rw [if_pos d3] at h; cases h
          · rw [if_neg d3] at h ⊢
            by_cases e3 : rest.length < 8
            · rw [if_pos e3] at h; cases h
            · rw [if_neg e3] at h
              rw [if_neg (by simp; omega : ¬ (rest ++ ext).length < 8)]
              rw [List.take_append_of_le_length (by omega)]
              exact h
        · rw [if_neg c3] at h ⊢
          by_cases c4 : TypeFromTag tag = TypeF64
          · rw [if_pos c4] at h ⊢
            by_cases d4 : LowBits tag ≠ 0
            · rw [if_pos d4] at h; cases h
            · rw [if_neg d4] at h ⊢
              by_cases e4 : rest.length < 8
              · rw [if_pos e4] at h; cases h
              · rw [if_neg e4] at h
                rw [if_neg (by simp; omega : ¬ (rest ++ ext).length < 8)]
                rw [List.take_append_of_le_length (by omega)]
                exact h
          · rw [if_neg c4] at h ⊢
            by_cases c5 : TypeFromTag tag ≤ 7
            · rw [if_pos c5] at h ⊢
              cases hdl : decodeLength tag rest with
              | error e => rw [hdl] at h; cases h
              | ok Ln =>
                obtain ⟨L, m⟩ := Ln
                simp only [hdl] at h
                simp only [decodeLength_append tag rest ext L m hdl]
                by_cases e5 : rest.length < m + L
                · rw [if_pos e5] at h; cases h
                · rw [if_neg e5] at h
                  rw [if_neg (by simp; omega : ¬ (rest ++ ext).length < m + L)]
                  have hpay : ((rest ++ ext).drop m).take L = (rest.drop m).take L := by
                    rw [List.drop_append_of_le_length (by omega),
                      List.take_append_of_le_length (by simp; omega)]
                  rw [hpay]
                  exact h
            · rw [if_neg c5] at h; cases h

theorem toInt64_range (u : Nat) : -(2 ^ 63) ≤ toInt64 u ∧ toInt64 u < 2 ^ 63 := by
  unfold toInt64
  have h : u % 2 ^ 64 < 2 ^ 64 := Nat.mod_lt _ (by norm_num)
  split_ifs with hc <;> constructor <;> push_cast <;> omega

theorem decode_sized (b : Bytes) (v : Value) (n : Nat) (hb : b.length < 2 ^ 64)
    (h : DecodeValue b = .ok (v, n)) : ValueSized v := by
  match b with
  | [] => simp [DecodeValue] at h
  | tag :: rest =>
    simp only [DecodeValue] at h
    by_cases c1 : TypeFromTag tag = TypeNil
    · rw [if_pos c1] at h
      by_cases d1 : LowBits tag ≠ 0
      · rw [if_pos d1] at h; cases h
      · rw [if_neg d1] at h
        injection h with h2
        cases h2
        trivial
    · rw [if_neg c1] at h
      by_cases c2 : TypeFromTag tag = TypeBit
      · rw [if_pos c2] at h
        by_cases d2 : tag &&& 0x1E ≠ 0
        · rw [if_pos d2] at h; cases h
        · rw [if_neg d2] at h
          injection h with h2
          cases h2
          trivial
      · rw [if_neg c2] at h
        by_cases c3 : TypeFromTag tag = TypeI64
        · rw [if_pos c3] at h
          by_cases d3 : LowBits tag ≠ 0
          · rw [if_pos d3] at h; cases h
          · rw [if_neg d3] at h
            by_cases e3 : rest.length < 8
            · rw [if_pos e3] at h; cases h
            · rw [if_neg e3] at h
              injection h with h2
              cases h2
              exact toInt64_range _
        · rw [if_neg c3] at h
          by_cases c4 : TypeFromTag tag = TypeF64
          · rw [if_pos c4] at h
            by_cases d4 : LowBits tag ≠ 0
            · rw [if_pos d4] at h; cases h
            · rw [if_neg d4] at h
              by_cases e4 : rest.length < 8
              · rw [if_pos e4] at h; cases h
              · rw [if_neg e4] at h
                injection h with h2
                cases h2
                exact Nat.mod_lt _ (by norm_num)
          · rw [if_neg c4] at h
            by_cases c5 : TypeFromTag tag ≤ 7
            · rw [if_pos c5] at h
              cases hdl : decodeLength tag rest with
              | error e => rw [hdl] at h; cases h
              | ok Ln =>
                obtain ⟨L, m⟩ := Ln
                simp only [hdl] at h
                by_cases e5 : rest.length < m + L
                · rw [if_pos e5] at h; cases h
                · rw [if_neg e5] at h
                  have hpl : ((rest.drop m).take L).length < 2 ^ 64 := by
                    have := List.length_take L (rest.drop m)
                    simp at hb ⊢
                    omega
                  by_cases t1 : TypeFromTag tag = TypeTxt
                  · rw [if_pos t1] at h
                    injection h with h2
                    cases h2
                    exact hpl
                  · rw [if_neg t1] at h
                    by_cases t2 : TypeFromTag tag = TypeBin
                    · rw [if_pos t2] at h
                      injection h with h2
                      cases h2
                      exact hpl
                    · rw [if_neg t2] at h
                      by_cases t3 : L = 0 ∨ L > 4
                      · rw [if_pos t3] at h; cases h
                      · rw [if_neg t3] at h
                        by_cases t4 : TypeFromTag tag = TypeArr
                        · rw [if_pos t4] at h
                          injection h with h2
                          cases h2
                          exact Nat.mod_lt _ (by norm_num)
                        · rw [if_neg t4] at h
                          injection h with h2
                          cases h2
                          exact Nat.mod_lt _ (by norm_num)
            · rw [if_neg c5] at h; cases h

theorem valueEqual_iff (a b : Value) : valueEqual a b = true ↔ a = b := by
  cases a <;> cases b <;> simp [valueEqual]

theorem valueEqual_refl (a : Value) : valueEqual a a = true := (valueEqual_iff a a).2 rfl

/-! ## Flags-header writer/parser roundtrip lemmas -/

theorem land_one_mod (x : Nat) : x &&& 1 = x % 2 := Nat.and_one_is_mod x

theorem land_clear2 (x : Nat) (hx : x < 2 ^ 32) : x &&& (2 ^ 32 - 4) = 4 * (x / 4) := by
  have h := land_split 2 x (2 ^ 32 - 4)
  rw [show (2 ^ 32 - 4) % 2 ^ 2 = 0 by norm_num,
    show (2 ^ 32 - 4) / 2 ^ 2 = 2 ^ 30 - 1 by norm_num, Nat.and_zero,
    Nat.and_pow_two_sub_one_eq_mod,
    Nat.mod_eq_of_lt (by omega : x / 2 ^ 2 < 2 ^ 30)] at h
  omega

theorem or_two_pow_mul (k a b : Nat) (h : b < 2 ^ k) : 2 ^ k * a ||| b = 2 ^ k * a + b := by
  have h2 := Nat.mul_add_lt_is_or (i := k) (b := b) h a
  omega

theorem flagsV1_eq (L pad kind keyT : Nat) (hk : kind ≤ 1) (ht : keyT ≤ 1)
    (hm : (8 + L + pad) % 4 = 0) (hlen : 8 + L + pad < 2 ^ 32) :
    ((8 + L + pad) % 2 ^ 32) ||| (kind &&& 1) ||| ((keyT &&& 1) <<< 1) =
      8 + L + pad + kind + 2 * keyT := by
  have hkk : kind &&& 1 = kind := by rw [land_one_mod]; omega
  have htt : keyT &&& 1 = keyT := by rw [land_one_mod]; omega
  rw [hkk, htt, Nat.mod_eq_of_lt hlen, Nat.shiftLeft_eq, Nat.lor_assoc]
  have h1 : kind ||| keyT * 2 ^ 1 = kind + 2 * keyT := by
    rw [Nat.lor_comm, show keyT * 2 ^ 1 = 2 ^ 1 * keyT by ring,
      or_two_pow_mul 1 keyT kind (by omega)]
    ring
  rw [h1, show 8 + L + pad = 2 ^ 2 * ((8 + L + pad) / 4) by omega,
    or_two_pow_mul 2 _ _ (by omega)]
  omega

theorem appendNodeV1_parse (builder : Bytes) (kind keyT count : Nat) (body : Bytes)
    (hk : kind ≤ 1) (ht : keyT ≤ 1) (hcount : count < 2 ^ 32)
    (hlen : 8 + body.length + (4 - (8 + body.length) % 4) % 4 < 2 ^ 32) :
    ∃ node : Bytes,
      appendNodeV1 builder kind keyT count body = (builder.length, builder ++ node) ∧
      node.length = 8 + body.length + (4 - (8 + body.length) % 4) % 4 ∧
      node.drop 8 = body ++ List.replicate ((4 - (8 + body.length) % 4) % 4) 0 ∧
      (∀ ext,
        ParseNodeHeaderV1 (node ++ ext) =
          .ok ⟨kind, keyT, 8 + body.length + (4 - (8 + body.length) % 4) % 4, count⟩) ∧
      ∀ ext,
        NodeSliceAtV1 (builder ++ node ++ ext) builder.length =
          .ok (⟨kind, keyT, 8 + body.length + (4 - (8 + body.length) % 4) % 4, count⟩, node) := by
  have hmod : (8 + body.length + (4 - (8 + body.length) % 4) % 4) % 4 = 0 := by omega
  have hF : 8 + body.length + (4 - (8 + body.length) % 4) % 4 + kind + 2 * keyT < 2 ^ 32 := by
    omega
  have hnl : (leBytes 4 (8 + body.length + (4 - (8 + body.length) % 4) % 4 + kind +
      2 * keyT) ++ (leBytes 4 count ++ (body ++
        List.replicate ((4 - (8 + body.length) % 4) % 4) 0))).length =
      8 + body.length + (4 - (8 + body.length) % 4) % 4 := by
    simp [leBytes_length]
    omega
  have hparse : ∀ ext, ParseNodeHeaderV1 ((leBytes 4 (8 + body.length +
      (4 - (8 + body.length) % 4) % 4 + kind + 2 * keyT) ++ (leBytes 4 count ++ (body ++
        List.replicate ((4 - (8 + body.length) % 4) % 4) 0))) ++ ext) =
      .ok ⟨kind, keyT, 8 + body.length + (4 - (8 + body.length) % 4) % 4, count⟩ := by
    intro ext
    unfold ParseNodeHeaderV1
    rw [if_neg (by simp [leBytes_length]; omega)]
    have hrd0 : readLE ((leBytes 4 (8 + body.length + (4 - (8 + body.length) % 4) % 4 +
        kind + 2 * keyT) ++ (leBytes 4 count ++ (body ++
          List.replicate ((4 - (8 + body.length) % 4) % 4) 0))) ++ ext) 0 4 =
        8 + body.length + (4 - (8 + body.length) % 4) % 4 + kind + 2 * keyT := by
      rw [List.append_assoc, readLE_append_of_lt _ _ 0 4 (by rw [leBytes_length])]
      unfold readLE
      rw [List.drop_zero, List.take_of_length_le (by rw [leBytes_length]), leNat_leBytes]
      norm_num
      omega
    have hrd4 : readLE ((leBytes 4 (8 + body.length + (4 - (8 + body.length) % 4) % 4 +
        kind + 2 * keyT) ++ (leBytes 4 count ++ (body ++
          List.replicate ((4 - (8 + body.length) % 4) % 4) 0))) ++ ext) 4 4 = count := by
      rw [show (leBytes 4 (8 + body.length + (4 - (8 + body.length) % 4) % 4 + kind +
          2 * keyT) ++ (leBytes 4 count ++ (body ++
            List.replicate ((4 - (8 + body.length) % 4) % 4) 0))) ++ ext =
        (leBytes 4 (8 + body.length + (4 - (8 + body.length) % 4) % 4 + kind + 2 * keyT) ++
          leBytes 4 count) ++ ((body ++
            List.replicate ((4 - (8 + body.length) % 4) % 4) 0) ++ ext) by
          simp [List.append_assoc]]
      rw [readLE_append_of_lt _ _ 4 4 (by simp [leBytes_length])]
      unfold readLE
      rw [List.drop_left' (leBytes_length 4 _),
        List.take_of_length_le (by rw [leBytes_length]), leNat_leBytes]
      norm_num
      omega
    rw [hrd0]
    have hclear : (8 + body.length + (4 - (8 + body.length) % 4) % 4 + kind + 2 * keyT) &&&
        (2 ^ 32 - 4) = 8 + body.length + (4 - (8 + body.length) % 4) % 4 := by
      rw [land_clear2 _ hF]
      omega
    rw [hclear]
    rw [if_neg (by omega)]
    have hb0 : (8 + body.length + (4 - (8 + body.length) % 4) % 4 + kind + 2 * keyT) &&& 1 =
        kind := by
      rw [land_one_mod]
      omega
    have hb1 : ((8 + body.length + (4 - (8 + body.length) % 4) % 4 + kind + 2 * keyT) >>> 1)
        &&& 1 = keyT := by
      rw [land_one_mod, Nat.shiftRight_eq_div_pow,
        show (2 : Nat) ^ 1 = 2 from rfl]
      omega
    rw [hrd4, hb0, hb1]
  refine ⟨leBytes 4 (8 + body.length + (4 - (8 + body.length) % 4) % 4 + kind + 2 * keyT) ++
    (leBytes 4 count ++ (body ++ List.replicate ((4 - (8 + body.length) % 4) % 4) 0)), ?_, hnl,
    ?_, hparse, ?_⟩
  · simp only [appendNodeV1, AppendNode]
    rw [flagsV1_eq body.length ((4 - (8 + body.length) % 4) % 4) kind keyT hk ht hmod hlen,
      Nat.mod_eq_of_lt hcount]
    simp [List.append_assoc]
  · rw [show (8 : Nat) = 4 + 4 by norm_num, ← List.drop_drop]
    rw [List.drop_left' (leBytes_length 4 _), List.drop_left' (leBytes_length 4 _)]
  · intro ext
    unfold NodeSliceAtV1
    rw [if_neg (by
      simp only [List.length_append, leBytes_length, List.length_replicate, ge_iff_le,
        not_le]
      omega)]
    rw [show builder ++ (leBytes 4 (8 + body.length + (4 - (8 + body.length) % 4) % 4 + kind +
        2 * keyT) ++ (leBytes 4 count ++ (body ++
          List.replicate ((4 - (8 + body.length) % 4) % 4) 0))) ++ ext =
      builder ++ ((leBytes 4 (8 + body.length + (4 - (8 + body.length) % 4) % 4 + kind +
        2 * keyT) ++ (leBytes 4 count ++ (body ++
          List.replicate ((4 - (8 + body.length) % 4) % 4) 0))) ++ ext) by
        simp [List.append_assoc]]
    rw [List.drop_left]
    simp only [hparse ext]
    rw [if_neg (by
      simp only [List.length_append, leBytes_length, List.length_replicate, gt_iff_lt,
        not_lt]
      omega)]
    have htake := List.take_left
      (leBytes 4 (8 + body.length + (4 - (8 + body.length) % 4) % 4 + kind + 2 * keyT) ++
        (leBytes 4 count ++ (body ++ List.replicate ((4 - (8 + body.length) % 4) % 4) 0))) ext
    rw [hnl] at htake
    rw [htake]

theorem flatten_leBytes4_length (l : List Nat) :
    ((l.map fun c => leBytes 4 c).flatten).length = 4 * l.length := by
  induction l with
  | nil => simp
  | cons c cs ih => simp [ih, leBytes_length]; ring

theorem readLE_u32list (l : List Nat) (hc : ∀ c ∈ l, c < 2 ^ 32) :
    ∀ (X : Bytes) (p : Nat) (suf : Bytes),
      X.drop p = ((l.map fun c => leBytes 4 c).flatten ++ suf) →
      (List.range l.length).map (fun i => readLE X (p + 4 * i) 4) = l := by
  induction l with
  | nil => intro X p suf _; simp
  | cons c cs ih =>
    intro X p suf hdrop
    simp only [List.map_cons, List.flatten_cons, List.append_assoc] at hdrop
    rw [show (c :: cs).length = cs.length + 1 from rfl, List.range_succ_eq_map,
      List.map_cons, List.map_map]
    have hhead : readLE X (p + 4 * 0) 4 = c := by
      unfold readLE
      rw [Nat.mul_zero, Nat.add_zero, hdrop,
        List.take_append_of_le_length (by rw [leBytes_length]),
        List.take_of_length_le (by rw [leBytes_length]), leNat_leBytes]
      norm_num
      exact hc c (by simp)
    have hdrop2 : X.drop (p + 4) = ((cs.map fun c => leBytes 4 c).flatten ++ suf) := by
      rw [← List.drop_drop, hdrop, List.drop_left' (leBytes_length 4 c)]
    have htail := ih (fun x hx => hc x (by simp [hx])) X (p + 4) suf hdrop2
    have hfun : (List.range cs.length).map ((fun i => readLE X (p + 4 * i) 4) ∘ Nat.succ) =
        (List.range cs.length).map (fun i => readLE X (p + 4 + 4 * i) 4) := by
      apply List.map_congr_left
      intro i _
      simp only [Function.comp]
      congr 1
      omega
    rw [hhead, hfun, htail]

theorem appendMapBranchNode_parse (builder : Bytes) (bitmap : Nat) (children : List Nat)
    (hbm : bitmap < 2 ^ 16) (hpc : children.length = popcount16 bitmap)
    (hch : ∀ c ∈ children, c < 2 ^ 32)
    (hlen : 12 + 4 * children.length < 2 ^ 32) :
    ∃ node : Bytes,
      appendMapBranchNode builder bitmap children = .ok (builder.length, builder ++ node) ∧
      node.length = 12 + 4 * children.length ∧
      (∀ ext,
        NodeSliceAtV1 (builder ++ node ++ ext) builder.length =
          .ok (⟨NodeBranch, KeyMap, 12 + 4 * children.length, children.length⟩, node)) ∧
      ParseMapBranchNodeV1 node = .ok (bitmap, children) := by
  have hbody : (leBytes 2 bitmap ++ [0, 0] ++
      ((children.map fun c => leBytes 4 c).flatten)).length = 4 + 4 * children.length := by
    rw [List.length_append, List.length_append, leBytes_length, flatten_leBytes4_length]
    norm_num
  obtain ⟨node, ha, hlen2, hdrop, hhdr, hslice⟩ :=
    appendNodeV1_parse builder NodeBranch KeyMap children.length
      (leBytes 2 bitmap ++ [0, 0] ++ ((children.map fun c => leBytes 4 c).flatten))
      (by norm_num [NodeBranch]) (by norm_num [KeyMap]) (by omega)
      (by rw [hbody]; omega)
  rw [hbody] at hlen2 hhdr hslice hdrop
  have hpad : (4 - (8 + (4 + 4 * children.length)) % 4) % 4 = 0 := by omega
  rw [hpad] at hlen2 hhdr hslice hdrop
  simp only [List.replicate_zero, List.append_nil] at hdrop
  have hlen3 : node.length = 12 + 4 * children.length := by rw [hlen2]; ring_nf
  have hhdr2 : ∀ ext, ParseNodeHeaderV1 (node ++ ext) =
      .ok ⟨NodeBranch, KeyMap, 12 + 4 * children.length, children.length⟩ := by
    intro ext
    rw [hhdr ext]
    congr 2
    omega
  have hslice2 : ∀ ext, NodeSliceAtV1 (builder ++ node ++ ext) builder.length =
      .ok (⟨NodeBranch, KeyMap, 12 + 4 * children.length, children.length⟩, node) := by
    intro ext
    rw [hslice ext]
    congr 3
    omega
  refine ⟨node, ?_, hlen3, hslice2, ?_⟩
  · unfold appendMapBranchNode
    rw [if_neg (by omega)]
    rw [ha]
  · unfold ParseMapBranchNodeV1
    have hp := hhdr2 []
    rw [List.append_nil] at hp
    simp only [hp]
    rw [if_neg (by simp [KeyMap, NodeBranch])]
    rw [if_neg (by rw [hlen3]; omega)]
    have hrd8 : readLE node 8 2 = bitmap := by
      unfold readLE
      rw [hdrop]
      rw [List.append_assoc, List.take_append_of_le_length (by rw [leBytes_length]),
        List.take_of_length_le (by rw [leBytes_length]), leNat_leBytes]
      norm_num
      exact hbm
    have hrd10 : readLE node 10 2 = 0 := by
      unfold readLE
      rw [show (10 : Nat) = 8 + 2 by norm_num, ← List.drop_drop, hdrop]
      rw [List.append_assoc, List.drop_left' (leBytes_length 2 bitmap)]
      rfl
    rw [hrd8, hrd10]
    rw [if_neg (by omega)]
    rw [if_neg (by omega)]
    rw [if_neg (by omega)]
    have hread := readLE_u32list children hch node 12
      ([] : Bytes) (by
        rw [show (12 : Nat) = 8 + 4 by norm_num, ← List.drop_drop, hdrop,
          List.drop_left' (by simp [leBytes_length] :
            (leBytes 2 bitmap ++ [0, 0]).length = 4), List.append_nil])
    rw [hread]

theorem readLeafEntries_spec (X : Bytes) :
    ∀ (entries : List (Bytes × Value)) (p : Nat) (suf : Bytes),
      (∀ kv ∈ entries, ValueSized kv.2 ∧ kv.1.length < 2 ^ 64) →
      X.drop p = ((entries.map fun kv =>
        encodeBytesToBuffer TypeTxt kv.1 ++ encodeValueToBuffer kv.2).flatten ++ suf) →
      readLeafEntries X entries.length p = .ok entries := by
  intro entries
  induction entries with
  | nil => intro p suf _ _; rfl
  | cons kv es ih =>
    intro p suf hwf hdrop
    obtain ⟨k, v⟩ := kv
    simp only [List.map_cons, List.flatten_cons, List.append_assoc] at hdrop
    have hks : (k.length : Nat) < 2 ^ 64 := (hwf (k, v) (by simp)).2
    have hvs : ValueSized v := (hwf (k, v) (by simp)).1
    have henc : encodeBytesToBuffer TypeTxt k = encodeValueToBuffer (Value.txt k) := rfl
    have hdec1 : DecodeValue (X.drop p) =
        .ok (Value.txt k, (encodeValueToBuffer (Value.txt k)).length) := by
      rw [hdrop, henc]
      exact DecodeValue_append _ _ _ _ (decode_encode_sized (Value.txt k) hks)
    have hdrop2 : X.drop (p + (encodeValueToBuffer (Value.txt k)).length) =
        encodeValueToBuffer v ++
          ((es.map fun kv =>
            encodeBytesToBuffer TypeTxt kv.1 ++ encodeValueToBuffer kv.2).flatten ++ suf) := by
      rw [← List.drop_drop, hdrop, henc, List.drop_left]
    have hdec2 : DecodeValue (X.drop (p + (encodeValueToBuffer (Value.txt k)).length)) =
        .ok (v, (encodeValueToBuffer v).length) := by
      rw [hdrop2]
      exact DecodeValue_append _ _ _ _ (decode_encode_sized v hvs)
    have hdrop3 : X.drop (p + (encodeValueToBuffer (Value.txt k)).length +
        (encodeValueToBuffer v).length) =
        ((es.map fun kv =>
          encodeBytesToBuffer TypeTxt kv.1 ++ encodeValueToBuffer kv.2).flatten ++ suf) := by
      rw [← List.drop_drop, hdrop2, List.drop_left]
    have hrec := ih (p + (encodeValueToBuffer (Value.txt k)).length +
        (encodeValueToBuffer v).length) suf (fun x hx => hwf x (by simp [hx])) hdrop3
    show readLeafEntries X (es.length + 1) p = .ok ((k, v) :: es)
    unfold readLeafEntries
    simp only [hdec1, hdec2, hrec]

theorem appendMapLeafNodeSorted_parse (builder : Bytes) (entries : List (Bytes × Value))
    (hwf : ∀ kv ∈ entries, ValueSized kv.2 ∧ kv.1.length < 2 ^ 64)
    (hsorted : sortedUniqueKeys entries = true)
    (hcount : entries.length < 2 ^ 32)
    (hlen : 12 + ((entries.map fun kv =>
      encodeBytesToBuffer TypeTxt kv.1 ++ encodeValueToBuffer kv.2).flatten).length < 2 ^ 32) :
    ∃ node : Bytes,
      appendMapLeafNodeSorted builder entries = .ok (builder.length, builder ++ node) ∧
      8 ≤ node.length ∧ node.length < 2 ^ 32 ∧
      (∀ ext,
        NodeSliceAtV1 (builder ++ node ++ ext) builder.length =
          .ok (⟨NodeLeaf, KeyMap, node.length, entries.length⟩, node)) ∧
      ParseMapLeafNodeV1 node = .ok entries := by
  obtain ⟨node, ha, hlen2, hdrop, hhdr, hslice⟩ :=
    appendNodeV1_parse builder NodeLeaf KeyMap entries.length
      ((entries.map fun kv =>
        encodeBytesToBuffer TypeTxt kv.1 ++ encodeValueToBuffer kv.2).flatten)
      (by norm_num [NodeLeaf]) (by norm_num [KeyMap]) hcount (by omega)
  have hhdr2 : ∀ ext, ParseNodeHeaderV1 (node ++ ext) =
      .ok ⟨NodeLeaf, KeyMap, node.length, entries.length⟩ := by
    intro ext
    rw [hhdr ext, hlen2]
  have hslice2 : ∀ ext, NodeSliceAtV1 (builder ++ node ++ ext) builder.length =
      .ok (⟨NodeLeaf, KeyMap, node.length, entries.length⟩, node) := by
    intro ext
    rw [hslice ext, hlen2]
  refine ⟨node, by rw [← ha]; rfl, by omega, by omega, hslice2, ?_⟩
  unfold ParseMapLeafNodeV1
  have hp := hhdr2 []
  rw [List.append_nil] at hp
  simp only [hp]
  rw [if_neg (by simp [KeyMap, NodeLeaf])]
  rw [if_neg (by omega)]
  have hread := readLeafEntries_spec node entries 8
    (List.replicate ((4 - (8 + ((entries.map fun kv =>
      encodeBytesToBuffer TypeTxt kv.1 ++ encodeValueToBuffer kv.2).flatten).length) % 4) % 4) 0)
    hwf hdrop
  simp only [hread]
  rw [if_pos hsorted]

/-! ## Read stability under buffer extension, and append-only writers -/

theorem ParseNodeHeaderV1_facts (b : Bytes) (h : NodeHeaderV1)
    (hp : ParseNodeHeaderV1 b = .ok h) : 8 ≤ b.length ∧ 8 ≤ h.nodeLen := by
  unfold ParseNodeHeaderV1 at hp
  by_cases h1 : b.length < 8
  · rw [if_pos h1] at hp; cases hp
  · rw [if_neg h1] at hp
    by_cases h2 : readLE b 0 4 &&& (2 ^ 32 - 4) < 8
    · rw [if_pos h2] at hp; cases hp
    · rw [if_neg h2] at hp
      injection hp with hp2
      subst hp2
      refine ⟨by omega, ?_⟩
      show 8 ≤ readLE b 0 4 &&& (2 ^ 32 - 4)
      omega

theorem ParseNodeHeaderV1_append (b ext : Bytes) (h : NodeHeaderV1) (hb : 8 ≤ b.length)
    (hp : ParseNodeHeaderV1 b = .ok h) : ParseNodeHeaderV1 (b ++ ext) = .ok h := by
  unfold ParseNodeHeaderV1 at hp ⊢
  rw [if_neg (by omega : ¬ b.length < 8)] at hp
  rw [if_neg (by simp; omega)]
  rw [readLE_append_of_lt b ext 0 4 (by omega), readLE_append_of_lt b ext 4 4 (by omega)]
  exact hp

theorem NodeSliceAtV1_facts (doc : Bytes) (off : Nat) (h : NodeHeaderV1) (node : Bytes)
    (hs : NodeSliceAtV1 doc off = .ok (h, node)) :
    off < doc.length ∧ off + h.nodeLen ≤ doc.length ∧
      ParseNodeHeaderV1 (doc.drop off) = .ok h ∧ node = (doc.drop off).take h.nodeLen ∧
      node.length = h.nodeLen ∧ 8 ≤ h.nodeLen := by
  unfold NodeSliceAtV1 at hs
  by_cases h1 : off ≥ doc.length
  · rw [if_pos h1] at hs; cases hs
  · rw [if_neg h1] at hs
    cases hp : ParseNodeHeaderV1 (doc.drop off) with
    | error e => rw [hp] at hs; cases hs
    | ok h2 =>
      simp only [hp] at hs
      by_cases h3 : off + h2.nodeLen > doc.length
      · rw [if_pos h3] at hs; cases hs
      · rw [if_neg h3] at hs
        injection hs with hs2
        cases hs2
        obtain ⟨hf1, hf2⟩ := ParseNodeHeaderV1_facts _ _ hp
        refine ⟨by omega, by omega, rfl, rfl, ?_, hf2⟩
        simp
        omega

theorem NodeSliceAtV1_append (doc ext : Bytes) (off : Nat) (h : NodeHeaderV1) (node : Bytes)
    (hs : NodeSliceAtV1 doc off = .ok (h, node)) :
    NodeSliceAtV1 (doc ++ ext) off = .ok (h, node) := by
  obtain ⟨h1, h2, h3, h4, h5, h6⟩ := NodeSliceAtV1_facts doc off h node hs
  unfold NodeSliceAtV1
  rw [if_neg (by simp; omega)]
  rw [List.drop_append_of_le_length (by omega)]
  rw [ParseNodeHeaderV1_append (doc.drop off) ext h (by simp; omega) h3]
  simp only []
  rw [if_neg (by simp; omega)]
  rw [List.take_append_of_le_length (by simp; omega), ← h4]

theorem mapGet_append (doc ext : Bytes) (key : Bytes) (r : Option Value) :
    ∀ fuel off depth, mapGet doc fuel off key depth = .ok r →
      mapGet (doc ++ ext) fuel off key depth = .ok r := by
  intro fuel
  induction fuel with
  | zero => intro off depth h; cases h
  | succ fuel ih =>
    intro off depth h
    simp only [mapGet] at h ⊢
    cases hns : NodeSliceAtV1 doc off with
    | error e => rw [hns] at h; cases h
    | ok pair =>
      obtain ⟨h', node⟩ := pair
      simp only [hns] at h
      simp only [NodeSliceAtV1_append doc ext off h' node hns]
      by_cases hkt : h'.keyType ≠ KeyMap
      · rw [if_pos hkt] at h; cases h
      · rw [if_neg hkt] at h ⊢
        by_cases hkind : h'.kind = NodeLeaf
        · rw [if_pos hkind] at h ⊢
          cases hleaf : ParseMapLeafNodeV1 node with
          | error e => rw [hleaf] at h; cases h
          | ok entries =>
            simp only [hleaf] at h ⊢
            exact h
        · rw [if_neg hkind] at h ⊢
          cases hbr : ParseMapBranchNodeV1 node with
          | error e => rw [hbr] at h; cases h
          | ok p =>
            obtain ⟨bm, children⟩ := p
            simp only [hbr] at h ⊢
            by_cases hbit : (bm >>> ((XXH32 key 0 >>> (depth * 4)) &&& hamtMask)) &&& 1 = 0
            · rw [if_pos hbit] at h ⊢; exact h
            · rw [if_neg hbit] at h ⊢
              exact ih _ _ h

theorem mapGet_fuel_mono (doc : Bytes) (key : Bytes) (r : Option Value) :
    ∀ fuel fuel2 off depth, fuel ≤ fuel2 → mapGet doc fuel off key depth = .ok r →
      mapGet doc fuel2 off key depth = .ok r := by
  intro fuel
  induction fuel with
  | zero => intro fuel2 off depth _ h; cases h
  | succ fuel ih =>
    intro fuel2 off depth hle h
    obtain ⟨fuel2', rfl⟩ : ∃ k, fuel2 = k + 1 := ⟨fuel2 - 1, by omega⟩
    simp only [mapGet] at h ⊢
    cases hns : NodeSliceAtV1 doc off with
    | error e => rw [hns] at h; cases h
    | ok pair =>
      obtain ⟨h', node⟩ := pair
      simp only [hns] at h ⊢
      by_cases hkt : h'.keyType ≠ KeyMap
      · rw [if_pos hkt] at h; cases h
      · rw [if_neg hkt] at h ⊢
        by_cases hkind : h'.kind = NodeLeaf
        · rw [if_pos hkind] at h ⊢
          exact h
        · rw [if_neg hkind] at h ⊢
          cases hbr : ParseMapBranchNodeV1 node with
          | error e => rw [hbr] at h; cases h
          | ok p =>
            obtain ⟨bm, children⟩ := p
            simp only [hbr] at h ⊢
            by_cases hbit : (bm >>> ((XXH32 key 0 >>> (depth * 4)) &&& hamtMask)) &&& 1 = 0
            · rw [if_pos hbit] at h ⊢; exact h
            · rw [if_neg hbit] at h ⊢
              exact ih _ _ _ (by omega) h

theorem appendNodeV1_grows (builder : Bytes) (kind keyT count : Nat) (body : Bytes) :
    ∃ ext : Bytes, appendNodeV1 builder kind keyT count body = (builder.length, builder ++ ext) ∧
      8 ≤ ext.length := by
  refine ⟨_, rfl, ?_⟩
  simp [leBytes_length]
  omega

theorem appendMapLeafNodeSorted_grows (builder : Bytes) (entries : List (Bytes × Value)) :
    ∃ ext : Bytes,
      appendMapLeafNodeSorted builder entries = .ok (builder.length, builder ++ ext) ∧
      8 ≤ ext.length := by
  obtain ⟨ext, he, hl⟩ := appendNodeV1_grows builder NodeLeaf KeyMap entries.length
    ((entries.map fun kv => encodeBytesToBuffer TypeTxt kv.1 ++ encodeValueToBuffer kv.2).flatten)
  exact ⟨ext, by unfold appendMapLeafNodeSorted; rw [he], hl⟩

theorem appendMapBranchNode_grows (builder : Bytes) (bitmap : Nat) (children : List Nat)
    (r : Nat) (b2 : Bytes) (h : appendMapBranchNode builder bitmap children = .ok (r, b2)) :
    r = builder.length ∧ ∃ ext : Bytes, b2 = builder ++ ext ∧ 8 ≤ ext.length := by
  unfold appendMapBranchNode at h
  by_cases h1 : children.length ≠ popcount16 bitmap
  · rw [if_pos h1] at h; cases h
  · rw [if_neg h1] at h
    obtain ⟨ext, he, hl⟩ := appendNodeV1_grows builder NodeBranch KeyMap children.length
      (leBytes 2 bitmap ++ [0, 0] ++ ((children.map fun c => leBytes 4 c).flatten))
    rw [he] at h
    injection h with h2
    have hr : r = builder.length := (congrArg Prod.fst h2).symm
    have hb : b2 = builder ++ ext := (congrArg Prod.snd h2).symm
    exact ⟨hr, ext, hb, hl⟩

theorem encodeMapNode_grows :
    ∀ (fuel : Nat) (n : mapNode) (builder : Bytes) (r : Nat) (b2 : Bytes),
      encodeMapNode fuel builder n = .ok (r, b2) →
      ∃ ext : Bytes, b2 = builder ++ ext ∧ 8 ≤ ext.length := by
  intro fuel
  induction fuel with
  | zero => intro n builder r b2 h; cases h
  | succ fuel ih =>
    intro n builder r b2 h
    cases n with
    | leaf entries =>
      simp only [encodeMapNode] at h
      obtain ⟨ext, he, hl⟩ := appendMapLeafNodeSorted_grows builder
        (entries.map fun e => (e.Key, e.Val))
      rw [he] at h
      injection h with h2
      exact ⟨ext, (congrArg Prod.snd h2).symm, hl⟩
    | branch bitmap children =>
      simp only [encodeMapNode] at h
      have hfold : ∀ (cs : List mapNode) (acc : List Nat) (b0 : Bytes) (offs : List Nat)
          (bout : Bytes),
          cs.foldlM
            (fun (acc : List Nat × Bytes) child =>
              (match encodeMapNode fuel acc.2 child with
                | .error e => .error e
                | .ok (off, b2) => .ok (acc.1 ++ [off], b2) :
                  Except String (List Nat × Bytes)))
            (acc, b0) = .ok (offs, bout) →
          ∃ ext : Bytes, bout = b0 ++ ext := by
        intro cs
        induction cs with
        | nil =>
          intro acc b0 offs bout hf
          simp only [List.foldlM_nil] at hf
          injection hf with hf2
          exact ⟨[], by cases hf2; rw [List.append_nil]⟩
        | cons c cs ihc =>
          intro acc b0 offs bout hf
          simp only [List.foldlM_cons] at hf
          cases hc : encodeMapNode fuel b0 c with
          | error e => rw [hc] at hf; cases hf
          | ok p =>
            obtain ⟨off1, b1⟩ := p
            rw [hc] at hf
            simp only [Except.bind] at hf
            obtain ⟨e1, he1, _⟩ := ih c b0 off1 b1 hc
            obtain ⟨e2, he2⟩ := ihc (acc ++ [off1]) b1 offs bout hf
            exact ⟨e1 ++ e2, by rw [he2, he1, List.append_assoc]⟩
      cases hf : (children.foldlM
          (fun (acc : List Nat × Bytes) child =>
            (match encodeMapNode fuel acc.2 child with
              | .error e => .error e
              | .ok (off, b2) => .ok (acc.1 ++ [off], b2) :
                Except String (List Nat × Bytes)))
          (([] : List Nat), builder)) with
      | error e => rw [hf] at h; cases h
      | ok p =>
        obtain ⟨offs, builder2⟩ := p
        rw [hf] at h
        simp only [] at h
        obtain ⟨e1, he1⟩ := hfold children [] builder offs builder2 hf
        obtain ⟨hr, e2, he2, hl2⟩ := appendMapBranchNode_grows builder2 bitmap offs r b2 h
        exact ⟨e1 ++ e2, by rw [he2, he1, List.append_assoc], by simp; omega⟩

theorem mapSet_grows (doc : Bytes) (key : Bytes) (val : Value) :
    ∀ fuel off depth builder r ch b2,
      mapSet doc fuel off key val depth builder = .ok (r, ch, b2) →
      (∃ ext : Bytes, b2 = builder ++ ext) ∧
      (ch = false → b2 = builder ∧ r = off) ∧
      (ch = true → ∃ ext : Bytes, b2 = builder ++ ext ∧ 8 ≤ ext.length) := by
  intro fuel
  induction fuel with
  | zero => intro off depth builder r ch b2 h; cases h
  | succ fuel ih =>
    intro off depth builder r ch b2 h
    simp only [mapSet] at h
    by_cases hd : depth > maxDepth32
    · rw [if_pos hd] at h; cases h
    · rw [if_neg hd] at h
      cases hns : NodeSliceAtV1 doc off with
      | error e => rw [hns] at h; cases h
      | ok pair =>
        obtain ⟨h', node⟩ := pair
        simp only [hns] at h
        by_cases hkt : h'.keyType ≠ KeyMap
        · rw [if_pos hkt] at h; cases h
        · rw [if_neg hkt] at h
          by_cases hkind : h'.kind = NodeLeaf
          · rw [if_pos hkind] at h
            cases hleaf : ParseMapLeafNodeV1 node with
            | error e => rw [hleaf] at h; cases h
            | ok entries =>
              simp only [hleaf] at h
              cases hfind : entries.find? (fun kv => kv.1 == key) with
              | some kv =>
                simp only [hfind] at h
                by_cases heq : valueEqual kv.2 val = true
                · rw [if_pos heq] at h
                  injection h with h2
                  obtain ⟨hr, hcb⟩ := Prod.mk.injEq .. ▸ h2
                  injection hcb with hc hb
                  subst hr hc hb
                  exact ⟨⟨[], by rw [List.append_nil]⟩, fun _ => ⟨rfl, rfl⟩,
                    fun hcc => by cases hcc⟩
                · rw [if_neg heq] at h
                  cases henc : encodeMapNode (maxDepth32 + 2) builder
                      (buildMapNodeFromEntries
                        (entries.map fun e => if e.1 == key then (e.1, val) else e) depth) with
                  | error e => rw [henc] at h; cases h
                  | ok p =>
                    obtain ⟨newOff, builder2⟩ := p
                    simp only [henc] at h
                    injection h with h2
                    obtain ⟨hr, hcb⟩ := Prod.mk.injEq .. ▸ h2
                    injection hcb with hc hb
                    subst hr hc hb
                    obtain ⟨ext, he, hl⟩ := encodeMapNode_grows _ _ _ _ _ henc
                    refine ⟨⟨ext, he⟩, ?_, ?_⟩
                    · intro hcc; cases hcc
                    · intro _; exact ⟨ext, he, hl⟩
              | none =>
                simp only [hfind] at h
                cases henc : encodeMapNode (maxDepth32 + 2) builder
                    (buildMapNodeFromEntries (entries ++ [(key, val)]) depth) with
                | error e => rw [henc] at h; cases h
                | ok p =>
                  obtain ⟨newOff, builder2⟩ := p
                  simp only [henc] at h
                  injection h with h2
                  obtain ⟨hr, hcb⟩ := Prod.mk.injEq .. ▸ h2
                  injection hcb with hc hb
                  subst hr hc hb
                  obtain ⟨ext, he, hl⟩ := encodeMapNode_grows _ _ _ _ _ henc
                  refine ⟨⟨ext, he⟩, ?_, ?_⟩
                  · intro hcc; cases hcc
                  · intro _; exact ⟨ext, he, hl⟩
          · rw [if_neg hkind] at h
            cases hbr : ParseMapBranchNodeV1 node with
            | error e => rw [hbr] at h; cases h
            | ok p =>
              obtain ⟨bm, children⟩ := p
              simp only [hbr] at h
              by_cases hbit : (bm >>> ((XXH32 key 0 >>> (depth * 4)) &&& hamtMask)) &&& 1 = 1
              · rw [if_pos hbit] at h
                cases hrec : mapSet doc fuel
                    (children.getD (popcount16 (bm &&&
                      ((1 <<< ((XXH32 key 0 >>> (depth * 4)) &&& hamtMask)) - 1))) 0)
                    key val (depth + 1) builder with
                | error e => rw [hrec] at h; cases h
                | ok p2 =>
                  obtain ⟨newChild, changed, builder2⟩ := p2
                  simp only [hrec] at h
                  obtain ⟨⟨ext1, he1⟩, hfalse, htrue⟩ := ih _ _ _ _ _ _ hrec
                  by_cases hch : ¬ changed = true
                  · rw [if_pos hch] at h
                    injection h with h2
                    obtain ⟨hr, hcb⟩ := Prod.mk.injEq .. ▸ h2
                    injection hcb with hc hb
                    subst hr hc hb
                    have hbu := hfalse (by simpa using hch)
                    refine ⟨⟨[], by rw [hbu.1, List.append_nil]⟩, ?_, ?_⟩
                    · intro _; exact ⟨hbu.1, rfl⟩
                    · intro hcc; cases hcc
                  · rw [if_neg hch] at h
                    cases happ : appendMapBranchNode builder2 bm
                        (children.set (popcount16 (bm &&&
                          ((1 <<< ((XXH32 key 0 >>> (depth * 4)) &&& hamtMask)) - 1)))
                          newChild) with
                    | error e => rw [happ] at h; cases h
                    | ok p3 =>
                      obtain ⟨newOff, builder3⟩ := p3
                      simp only [happ] at h
                      injection h with h2
                      obtain ⟨hr, hcb⟩ := Prod.mk.injEq .. ▸ h2
                      injection hcb with hc hb
                      subst hr hc hb
                      obtain ⟨_, ext2, he2, hl2⟩ := appendMapBranchNode_grows _ _ _ _ _ happ
                      refine ⟨⟨ext1 ++ ext2, by rw [he2, he1, List.append_assoc]⟩, ?_, ?_⟩
                      · intro hcc; cases hcc
                      · intro _
                        exact ⟨ext1 ++ ext2, by rw [he2, he1, List.append_assoc],
                          by simp; omega⟩
              · rw [if_neg hbit] at h
                cases henc : encodeMapNode (maxDepth32 + 2) builder
                    (buildMapNodeFromEntries [(key, val)] (depth + 1)) with
                | error e => rw [henc] at h; cases h
                | ok p2 =>
                  obtain ⟨newChild, builder2⟩ := p2
                  simp only [henc] at h
                  cases happ : appendMapBranchNode builder2
                      (bm ||| (1 <<< ((XXH32 key 0 >>> (depth * 4)) &&& hamtMask)))
                      (children.take (popcount16 (bm &&&
                          ((1 <<< ((XXH32 key 0 >>> (depth * 4)) &&& hamtMask)) - 1))) ++
                        [newChild] ++
                        children.drop (popcount16 (bm &&&
                          ((1 <<< ((XXH32 key 0 >>> (depth * 4)) &&& hamtMask)) - 1)))) with
                  | error e => rw [happ] at h; cases h
                  | ok p3 =>
                    obtain ⟨newOff, builder3⟩ := p3
                    simp only [happ] at h
                    injection h with h2
                    obtain ⟨hr, hcb⟩ := Prod.mk.injEq .. ▸ h2
                    injection hcb with hc hb
                    subst hr hc hb
                    obtain ⟨ext1, he1, _⟩ := encodeMapNode_grows _ _ _ _ _ henc
                    obtain ⟨_, ext2, he2, hl2⟩ := appendMapBranchNode_grows _ _ _ _ _ happ
                    refine ⟨⟨ext1 ++ ext2, by rw [he2, he1, List.append_assoc]⟩, ?_, ?_⟩
                    · intro hcc; cases hcc
                    · intro _
                      exact ⟨ext1 ++ ext2, by rw [he2, he1, List.append_assoc],
                        by simp; omega⟩

/-! ## Byte-order and sorting lemmas -/

theorem bytesCompare_cases (a b : Bytes) :
    bytesCompare a b = -1 ∨ bytesCompare a b = 0 ∨ bytesCompare a b = 1 := by
  induction a generalizing b with
  | nil => cases b <;> simp [bytesCompare]
  | cons x xs ih =>
    cases b with
    | nil => simp [bytesCompare]
    | cons y ys =>
      by_cases hxy : x = y
      · simpa [bytesCompare, hxy] using ih ys
      · by_cases hlt : x < y <;> simp [bytesCompare, hxy, hlt]

theorem bytesCompare_eq_zero_iff (a b : Bytes) : bytesCompare a b = 0 ↔ a = b := by
  induction a generalizing b with
  | nil => cases b <;> simp [bytesCompare]
  | cons x xs ih =>
    cases b with
    | nil => simp [bytesCompare]
    | cons y ys =>
      by_cases hxy : x = y
      · simpa [bytesCompare, hxy] using ih ys
      · by_cases hlt : x < y <;> simp [bytesCompare, hxy, hlt]

theorem bytesCompare_neg (a b : Bytes) : bytesCompare a b = -bytesCompare b a := by
  induction a generalizing b with
  | nil => cases b <;> simp [bytesCompare]
  | cons x xs ih =>
    cases b with
    | nil => simp [bytesCompare]
    | cons y ys =>
      by_cases hxy : x = y
      · simpa [bytesCompare, hxy] using ih ys
      · have hyx : ¬ y = x := fun hc => hxy hc.symm
        by_cases hlt : x < y
        · have : ¬ y < x := by omega
          simp [bytesCompare, hxy, hlt, hyx, this]
        · have : y < x := by omega
          simp [bytesCompare, hxy, hlt, hyx, this]

theorem bytesCompare_trans (a b c : Bytes) (hab : bytesCompare a b < 0)
    (hbc : bytesCompare b c < 0) : bytesCompare a c < 0 := by
  induction a generalizing b c with
  | nil =>
    cases b with
    | nil => simp [bytesCompare] at hab
    | cons y ys =>
      cases c with
      | nil => simp [bytesCompare] at hbc
      | cons z zs => simp [bytesCompare]
  | cons x xs ih =>
    cases b with
    | nil => simp [bytesCompare] at hab
    | cons y ys =>
      cases c with
      | nil => simp [bytesCompare] at hbc
      | cons z zs =>
        simp only [bytesCompare] at hab hbc ⊢
        by_cases hxy : x = y
        · subst hxy
          rw [if_pos rfl] at hab
          by_cases hyz : x = z
          · subst hyz
            rw [if_pos rfl] at hbc ⊢
            exact ih ys zs hab hbc
          · rw [if_neg hyz] at hbc ⊢
            exact hbc
        · rw [if_neg hxy] at hab
          by_cases hlt : x < y
          · rw [if_pos hlt] at hab
            by_cases hyz : y = z
            · subst hyz
              rw [if_neg hxy, if_pos hlt]
              norm_num
            · rw [if_neg hyz] at hbc
              by_cases hlt2 : y < z
              · have hxz : x < z := by omega
                rw [if_neg (by omega : ¬ x = z), if_pos hxz]
                norm_num
              · rw [if_neg hlt2] at hbc
                norm_num at hbc
          · rw [if_neg hlt] at hab
            norm_num at hab

theorem mem_insertEntry (e x : mapEntry) (l : List mapEntry) :
    x ∈ insertEntry e l ↔ x = e ∨ x ∈ l := by
  induction l with
  | nil => simp [insertEntry]
  | cons y ys ih =>
    by_cases hc : bytesCompare e.Key y.Key < 0
    · simp [insertEntry, hc]
    · simp [insertEntry, hc, ih]
      tauto

theorem mem_sortEntries (x : mapEntry) (l : List mapEntry) :
    x ∈ sortEntries l ↔ x ∈ l := by
  induction l with
  | nil => simp [sortEntries]
  | cons y ys ih => simp [sortEntries, mem_insertEntry, ih]

theorem sortedKeys_tail (y : mapEntry) (ys : List mapEntry)
    (hs : sortedUniqueKeys ((y :: ys).map fun x => (x.Key, x.Val)) = true) :
    sortedUniqueKeys (ys.map fun x => (x.Key, x.Val)) = true := by
  cases ys with
  | nil => rfl
  | cons z zs =>
    have h : (decide (bytesCompare y.Key z.Key < 0) &&
        sortedUniqueKeys ((z :: zs).map fun x => (x.Key, x.Val))) = true := hs
    rw [Bool.and_eq_true] at h
    exact h.2

theorem sortedKeys_head_lt (z w : mapEntry) (zs : List mapEntry) (hw : w ∈ zs)
    (hs : sortedUniqueKeys ((z :: zs).map fun x => (x.Key, x.Val)) = true) :
    bytesCompare z.Key w.Key < 0 := by
  induction zs generalizing z with
  | nil => cases hw
  | cons u us ih =>
    have h : (decide (bytesCompare z.Key u.Key < 0) &&
        sortedUniqueKeys ((u :: us).map fun x => (x.Key, x.Val))) = true := hs
    rw [Bool.and_eq_true, decide_eq_true_iff] at h
    rw [List.mem_cons] at hw
    rcases hw with hw | hw
    · subst hw; exact h.1
    · exact bytesCompare_trans _ _ _ h.1 (ih u hw h.2)

theorem sortedUniqueKeys_insert (e : mapEntry) (l : List mapEntry)
    (hs : sortedUniqueKeys (l.map fun x => (x.Key, x.Val)) = true)
    (hne : ∀ x ∈ l, bytesCompare e.Key x.Key ≠ 0) :
    sortedUniqueKeys ((insertEntry e l).map fun x => (x.Key, x.Val)) = true := by
  induction l with
  | nil => rfl
  | cons y ys ih =>
    by_cases hc : bytesCompare e.Key y.Key < 0
    · simp only [insertEntry, if_pos hc, List.map_cons]
      show (decide (bytesCompare e.Key y.Key < 0) &&
        sortedUniqueKeys ((y :: ys).map fun x => (x.Key, x.Val))) = true
      rw [Bool.and_eq_true, decide_eq_true_iff]
      exact ⟨hc, hs⟩
    · have hey : 0 < bytesCompare e.Key y.Key := by
        have h0 := hne y (by simp)
        rcases bytesCompare_cases e.Key y.Key with h | h | h <;> omega
      have hye : bytesCompare y.Key e.Key < 0 := by
        have := bytesCompare_neg y.Key e.Key
        omega
      simp only [insertEntry, if_neg hc]
      have hrec := ih (sortedKeys_tail y ys hs) (fun x hx => hne x (by simp [hx]))
      cases hins : insertEntry e ys with
      | nil => rfl
      | cons w ws =>
        rw [hins] at hrec
        simp only [List.map_cons]
        show (decide (bytesCompare y.Key w.Key < 0) &&
          sortedUniqueKeys ((w :: ws).map fun x => (x.Key, x.Val))) = true
        rw [Bool.and_eq_true, decide_eq_true_iff]
        refine ⟨?_, hrec⟩
        have hw : w = e ∨ w ∈ ys := by
          have hmem : w ∈ insertEntry e ys := by rw [hins]; simp
          exact (mem_insertEntry e w ys).1 hmem
        rcases hw with hw | hw
        · subst hw; exact hye
        · exact sortedKeys_head_lt y w ys hw hs

theorem sortedUniqueKeys_sortEntries (l : List mapEntry)
    (hpair : l.Pairwise fun a b => a.Key ≠ b.Key) :
    sortedUniqueKeys ((sortEntries l).map fun x => (x.Key, x.Val)) = true := by
  induction l with
  | nil => rfl
  | cons x xs ih =>
    rw [List.pairwise_cons] at hpair
    apply sortedUniqueKeys_insert x (sortEntries xs) (ih hpair.2)
    intro y hy h0
    rw [mem_sortEntries] at hy
    exact hpair.1 y hy ((bytesCompare_eq_zero_iff _ _).1 h0)

/-! ## Bitmap arithmetic for the HAMT branch bitmaps -/

theorem shiftr_and_one (bm s : Nat) : (bm >>> s) &&& 1 = bm / 2 ^ s % 2 := by
  rw [Nat.shiftRight_eq_div_pow, Nat.and_one_is_mod]

theorem and_shiftl_sub_one (bm s : Nat) : bm &&& ((1 <<< s) - 1) = bm % 2 ^ s := by
  rw [Nat.one_shiftLeft, Nat.and_pow_two_sub_one_eq_mod]

theorem cnt_succ (bm t : Nat) :
    bitCount (bm % 2 ^ (t + 1)) = bitCount (bm % 2 ^ t) + bm / 2 ^ t % 2 := by
  rw [Nat.mod_pow_succ, bitCount_split t _ _ (Nat.mod_lt _ (Nat.pos_pow_of_pos t (by norm_num)))]
  rcases Nat.mod_two_eq_zero_or_one (bm / 2 ^ t) with h | h <;> rw [h] <;> rfl

theorem cnt_mono (bm s t : Nat) (h : s ≤ t) :
    bitCount (bm % 2 ^ s) ≤ bitCount (bm % 2 ^ t) := by
  induction t with
  | zero =>
    have : s = 0 := by omega
    subst this
    exact le_refl _
  | succ t ih =>
    by_cases hst : s = t + 1
    · subst hst; exact le_refl _
    · have hle : s ≤ t := by omega
      have := cnt_succ bm t
      have := ih hle
      omega

theorem cnt_strict (bm s t : Nat) (hst : s < t) (hbit : bm / 2 ^ s % 2 = 1) :
    bitCount (bm % 2 ^ s) < bitCount (bm % 2 ^ t) := by
  have h1 := cnt_succ bm s
  have h2 := cnt_mono bm (s + 1) t hst
  omega

theorem bit_decomp (bm s : Nat) :
    bm = bm % 2 ^ s + 2 ^ s * (bm / 2 ^ s % 2) + 2 ^ (s + 1) * (bm / 2 ^ (s + 1)) := by
  have h1 : bm % 2 ^ (s + 1) = bm % 2 ^ s + 2 ^ s * (bm / 2 ^ s % 2) := Nat.mod_pow_succ
  have h2 := Nat.div_add_mod bm (2 ^ (s + 1))
  omega

theorem add_pow_div (bm s : Nat) (h : bm / 2 ^ s % 2 = 0) (t : Nat) :
    (bm + 2 ^ s) / 2 ^ t % 2 = if t = s then 1 else bm / 2 ^ t % 2 := by
  by_cases hts : t = s
  · subst hts
    rw [if_pos rfl, Nat.add_div_right _ (Nat.pos_pow_of_pos t (by norm_num))]
    omega
  · rw [if_neg hts]
    rcases Nat.lt_or_ge t s with hlt | hge
    · have hpow : (2 : Nat) ^ s = 2 ^ (s - t) * 2 ^ t := by
        rw [← pow_add]; congr 1; omega
      rw [hpow, Nat.add_mul_div_right _ _ (Nat.pos_pow_of_pos t (by norm_num))]
      have heven : (2 : Nat) ^ (s - t) = 2 * 2 ^ (s - t - 1) := by
        rw [← pow_succ']; congr 1; omega
      omega
    · have hgt : s < t := by omega
      have hm := Nat.mod_pow_succ (x := bm) (b := 2) (k := s)
      rw [h, Nat.mul_zero, Nat.add_zero] at hm
      have hmlt : bm % 2 ^ s < 2 ^ s := Nat.mod_lt _ (Nat.pos_pow_of_pos s (by norm_num))
      have hlo : bm % 2 ^ (s + 1) < 2 ^ s := by omega
      have hdm : 2 ^ (s + 1) * (bm / 2 ^ (s + 1)) + bm % 2 ^ (s + 1) = bm :=
        Nat.div_add_mod bm (2 ^ (s + 1))
      have hss : (2 : Nat) ^ (s + 1) = 2 * 2 ^ s := by rw [pow_succ]; ring
      have hkey : (bm + 2 ^ s) / 2 ^ (s + 1) = bm / 2 ^ (s + 1) := by
        have hsplit : bm + 2 ^ s =
            2 ^ (s + 1) * (bm / 2 ^ (s + 1)) + (bm % 2 ^ (s + 1) + 2 ^ s) := by omega
        rw [hsplit, Nat.mul_add_div (Nat.pos_pow_of_pos (s + 1) (by norm_num)),
          Nat.div_eq_of_lt (show bm % 2 ^ (s + 1) + 2 ^ s < 2 ^ (s + 1) by omega),
          Nat.add_zero]
      have hpow : (2 : Nat) ^ t = 2 ^ (s + 1) * 2 ^ (t - s - 1) := by
        rw [← pow_add]; congr 1; omega
      rw [hpow, ← Nat.div_div_eq_div_mul, ← Nat.div_div_eq_div_mul, hkey]

theorem add_pow_cnt (bm s : Nat) (h : bm / 2 ^ s % 2 = 0) (t : Nat) :
    bitCount ((bm + 2 ^ s) % 2 ^ t) =
      bitCount (bm % 2 ^ t) + if s < t then 1 else 0 := by
  induction t with
  | zero => simp [Nat.mod_one]
  | succ t ih =>
    rw [cnt_succ, cnt_succ, ih, add_pow_div bm s h t]
    by_cases hts : t = s
    · subst hts
      rw [if_pos rfl]
      split_ifs <;> omega
    · rw [if_neg hts]
      split_ifs <;> omega

theorem lor_insert (bm s : Nat) (h : bm / 2 ^ s % 2 = 0) :
    bm ||| (1 <<< s) = bm + 2 ^ s := by
  rw [Nat.one_shiftLeft]
  have hd := bit_decomp bm s
  rw [h, Nat.mul_zero, Nat.add_zero] at hd
  have hlo : bm % 2 ^ s < 2 ^ s := Nat.mod_lt _ (Nat.pos_pow_of_pos s (by norm_num))
  have hss : (2 : Nat) ^ (s + 1) = 2 * 2 ^ s := by rw [pow_succ]; ring
  have h1 : 2 ^ (s + 1) * (bm / 2 ^ (s + 1)) + bm % 2 ^ s =
      2 ^ (s + 1) * (bm / 2 ^ (s + 1)) ||| bm % 2 ^ s :=
    Nat.mul_add_lt_is_or (by omega) _
  have h2 : 2 ^ s ||| bm % 2 ^ s = 2 ^ s + bm % 2 ^ s := by
    have h0 := Nat.mul_add_lt_is_or hlo 1
    rw [Nat.mul_one] at h0
    exact h0.symm
  have h3 : 2 ^ (s + 1) * (bm / 2 ^ (s + 1)) + (2 ^ s + bm % 2 ^ s) =
      2 ^ (s + 1) * (bm / 2 ^ (s + 1)) ||| (2 ^ s + bm % 2 ^ s) :=
    Nat.mul_add_lt_is_or (by omega) _
  calc bm ||| 2 ^ s
      = (2 ^ (s + 1) * (bm / 2 ^ (s + 1)) ||| bm % 2 ^ s) ||| 2 ^ s := by
        rw [← h1]; congr 1; omega
    _ = 2 ^ (s + 1) * (bm / 2 ^ (s + 1)) ||| (bm % 2 ^ s ||| 2 ^ s) := Nat.lor_assoc _ _ _
    _ = 2 ^ (s + 1) * (bm / 2 ^ (s + 1)) ||| (2 ^ s + bm % 2 ^ s) := by
        rw [Nat.lor_comm (bm % 2 ^ s) (2 ^ s), h2]
    _ = 2 ^ (s + 1) * (bm / 2 ^ (s + 1)) + (2 ^ s + bm % 2 ^ s) := (h3).symm
    _ = bm + 2 ^ s := by omega

theorem add_pow_lt (bm s n : Nat) (hbm : bm < 2 ^ n) (hs : s < n)
    (h : bm / 2 ^ s % 2 = 0) : bm + 2 ^ s < 2 ^ n := by
  have hd := bit_decomp bm s
  rw [h, Nat.mul_zero, Nat.add_zero] at hd
  have hpow : (2 : Nat) ^ n = 2 ^ (s + 1) * 2 ^ (n - s - 1) := by
    rw [← pow_add]; congr 1; omega
  have hhi : bm / 2 ^ (s + 1) < 2 ^ (n - s - 1) := by
    by_contra hc
    push_neg at hc
    have := Nat.mul_le_mul_left (2 ^ (s + 1)) hc
    omega
  have hlo : bm % 2 ^ s < 2 ^ s := Nat.mod_lt _ (Nat.pos_pow_of_pos s (by norm_num))
  have hss : (2 : Nat) ^ (s + 1) = 2 * 2 ^ s := by rw [pow_succ]; ring
  have hmono := Nat.mul_le_mul_left (2 ^ (s + 1))
    (show bm / 2 ^ (s + 1) + 1 ≤ 2 ^ (n - s - 1) by omega)
  have hmul : 2 ^ (s + 1) * (bm / 2 ^ (s + 1) + 1) =
      2 ^ (s + 1) * (bm / 2 ^ (s + 1)) + 2 ^ (s + 1) := by ring
  omega

theorem land_mask_sub (bm s : Nat) (hbm : bm < 65536) (hs : s < 16)
    (h : bm / 2 ^ s % 2 = 1) : bm &&& (65535 ^^^ (1 <<< s)) = bm - 2 ^ s := by
  have h2s : 2 ^ s ≤ bm := by
    by_contra hc
    push_neg at hc
    rw [Nat.div_eq_of_lt hc] at h
    simp at h
  have hCb : (bm - 2 ^ s) + 2 ^ s = bm := by omega
  have hCbit : (bm - 2 ^ s) / 2 ^ s % 2 = 0 := by
    have hstep : ((bm - 2 ^ s) + 2 ^ s) / 2 ^ s = (bm - 2 ^ s) / 2 ^ s + 1 :=
      Nat.add_div_right _ (Nat.pos_pow_of_pos s (by norm_num))
    rw [hCb] at hstep
    omega
  have hbits := add_pow_div (bm - 2 ^ s) s hCbit
  apply Nat.eq_of_testBit_eq
  intro j
  rw [Nat.testBit_land, Nat.testBit_xor, Nat.one_shiftLeft, Nat.testBit_two_pow,
    show (65535 : Nat) = 2 ^ 16 - 1 by norm_num, Nat.testBit_two_pow_sub_one]
  by_cases hj16 : j < 16
  · by_cases hjs : j = s
    · subst hjs
      rw [Nat.testBit_to_div_mod (x := bm - 2 ^ j)]
      simp [hj16, hCbit]
    · have hv := hbits j
      rw [hCb, if_neg hjs] at hv
      rw [Nat.testBit_to_div_mod (x := bm), Nat.testBit_to_div_mod (x := bm - 2 ^ s), hv]
      have hsj : ¬ s = j := fun hc => hjs hc.symm
      simp [hj16, hsj]
  · have hb16 : bm < 2 ^ j := by
      calc bm < 65536 := hbm
        _ = 2 ^ 16 := by norm_num
        _ ≤ 2 ^ j := Nat.pow_le_pow_right (by norm_num) (by omega)
    have hd1 : bm / 2 ^ j = 0 := Nat.div_eq_of_lt hb16
    have hd2 : (bm - 2 ^ s) / 2 ^ j = 0 :=
      Nat.div_eq_of_lt (lt_of_le_of_lt (Nat.sub_le bm (2 ^ s)) hb16)
    rw [Nat.testBit_to_div_mod (x := bm), Nat.testBit_to_div_mod (x := bm - 2 ^ s), hd1, hd2]
    simp [hj16]

/-! ## Constructed branch bitmaps: slots, bits, and child indices -/

theorem rangeFilterOr (q : Nat → Bool) (n : Nat) :
    (((List.range n).filter q).foldl (fun bm s => bm ||| (1 <<< s)) 0 < 2 ^ n) ∧
    (∀ s, (((List.range n).filter q).foldl (fun bm s => bm ||| (1 <<< s)) 0) / 2 ^ s % 2
        = if s < n ∧ q s then 1 else 0) ∧
    (∀ s, bitCount ((((List.range n).filter q).foldl (fun bm s => bm ||| (1 <<< s)) 0) % 2 ^ s)
        = (((List.range n).filter q).filter (fun x => decide (x < s))).length) := by
  induction n with
  | zero =>
    refine ⟨by simp, fun s => by simp, fun s => by simp; rfl⟩
  | succ n ih =>
    obtain ⟨ih1, ih2, ih3⟩ := ih
    rw [List.range_succ, List.filter_append]
    by_cases hq : q n = true
    · rw [show List.filter q [n] = [n] by simp [hq], List.foldl_append]
      have hbit : (((List.range n).filter q).foldl (fun bm s => bm ||| (1 <<< s)) 0)
          / 2 ^ n % 2 = 0 := by
        rw [Nat.div_eq_of_lt ih1]
      have hfold : ((((List.range n).filter q).foldl (fun bm s => bm ||| (1 <<< s)) 0)
          ||| (1 <<< n)) = (((List.range n).filter q).foldl (fun bm s => bm ||| (1 <<< s)) 0) +
            2 ^ n := lor_insert _ n hbit
      refine ⟨?_, ?_, ?_⟩
      · show (((List.range n).filter q).foldl (fun bm s => bm ||| (1 <<< s)) 0) |||
          (1 <<< n) < 2 ^ (n + 1)
        rw [hfold]
        have hp : (2 : Nat) ^ (n + 1) = 2 * 2 ^ n := by rw [pow_succ]; ring
        omega
      · intro s
        show ((((List.range n).filter q).foldl (fun bm s => bm ||| (1 <<< s)) 0) ||| (1 <<< n))
            / 2 ^ s % 2 = _
        rw [hfold, add_pow_div _ n hbit s, ih2 s]
        by_cases hsn : s = n
        · subst hsn
          rw [if_pos rfl, if_pos ⟨by omega, hq⟩]
        · rw [if_neg hsn]
          by_cases hlt : s < n ∧ q s = true
          · rw [if_pos hlt, if_pos ⟨by omega, hlt.2⟩]
          · rw [if_neg hlt, if_neg (by
              intro hc
              exact hlt ⟨by omega, hc.2⟩)]
      · intro s
        show bitCount (((((List.range n).filter q).foldl (fun bm s => bm ||| (1 <<< s)) 0) |||
            (1 <<< n)) % 2 ^ s) = _
        rw [hfold, add_pow_cnt _ n hbit s, ih3 s, List.filter_append]
        by_cases hns : n < s
        · rw [if_pos hns, show List.filter (fun x => decide (x < s)) [n] = [n] by simp [hns]]
          simp
        · rw [if_neg hns, show List.filter (fun x => decide (x < s)) [n] = [] by simp [hns]]
          simp
    · have hq' : q n = false := by simpa using hq
      rw [show List.filter q [n] = [] by simp [hq'], List.append_nil]
      refine ⟨?_, ?_, ih3⟩
      · calc ((List.range n).filter q).foldl (fun bm s => bm ||| (1 <<< s)) 0 < 2 ^ n := ih1
          _ ≤ 2 ^ (n + 1) := Nat.pow_le_pow_right (by norm_num) (by omega)
      · intro s
        rw [ih2 s]
        by_cases hlt : s < n ∧ q s = true
        · rw [if_pos hlt, if_pos ⟨by omega, hlt.2⟩]
        · rw [if_neg hlt, if_neg (by
            intro hc
            rcases hc with ⟨hc1, hc2⟩
            by_cases hsn : s = n
            · subst hsn
              rw [hq'] at hc2
              cases hc2
            · exact hlt ⟨by omega, hc2⟩)]

theorem rangeFilter_getD (q : Nat → Bool) (n : Nat) :
    ∀ s, s < n → q s = true → ∀ d : Nat,
      ((List.range n).filter q).getD
        (((List.range n).filter q).filter (fun x => decide (x < s))).length d = s := by
  induction n with
  | zero => intro s hs; omega
  | succ n ih =>
    intro s hs hq d
    rw [List.range_succ, List.filter_append]
    by_cases hsn : s = n
    · subst hsn
      rw [show List.filter q [s] = [s] by simp [hq]]
      rw [List.filter_append, show List.filter (fun x => decide (x < s)) [s] = [] by simp]
      rw [List.append_nil]
      have hall : ((List.range s).filter q).filter (fun x => decide (x < s)) =
          (List.range s).filter q := by
        apply List.filter_eq_self.mpr
        intro a ha
        have := List.mem_range.mp (List.mem_of_mem_filter ha)
        simp
        omega
      rw [hall, List.getD_append_right _ _ _ _ (le_refl _), Nat.sub_self]
      rfl
    · have hsn' : s < n := by omega
      have hempty : List.filter (fun x => decide (x < s)) (List.filter q [n]) = [] := by
        by_cases hqn : q n = true
        · rw [show List.filter q [n] = [n] by simp [hqn]]
          simp
          omega
        · rw [show List.filter q [n] = [] by simp [Bool.eq_false_iff.mpr hqn]]
          rfl
      rw [List.filter_append, hempty, List.append_nil]
      have hmem : s ∈ (List.range n).filter q :=
        List.mem_filter.mpr ⟨List.mem_range.mpr hsn', hq⟩
      have hidx : (((List.range n).filter q).filter (fun x => decide (x < s))).length <
          ((List.range n).filter q).length :=
        List.length_filter_lt_length_iff_exists.mpr ⟨s, hmem, by simp⟩
      rw [List.getD_append _ _ _ _ hidx]
      exact ih s hsn' hq d

/-! ## Lookup lemmas -/

theorem find?_filter_eq {α : Type} (p q2 : α → Bool) (l : List α)
    (himp : ∀ x, p x = true → q2 x = true) :
    (l.filter q2).find? p = l.find? p := by
  induction l with
  | nil => rfl
  | cons x xs ih =>
    by_cases hq : q2 x = true
    · rw [List.filter_cons_of_pos hq]
      by_cases hp : p x = true
      · rw [List.find?_cons_of_pos _ hp, List.find?_cons_of_pos _ hp]
      · rw [List.find?_cons_of_neg _ hp, List.find?_cons_of_neg _ hp, ih]
    · rw [List.filter_cons_of_neg (by simpa using hq), ih,
        List.find?_cons_of_neg _ (fun hp => hq (himp x hp))]

theorem find?_pairs_map (l : List mapEntry) (key : Bytes) :
    (l.map fun e => (e.Key, e.Val)).find? (fun kv => kv.1 == key) =
      (l.find? (fun e => e.Key == key)).map fun e => (e.Key, e.Val) := by
  induction l with
  | nil => rfl
  | cons x xs ih =>
    rw [List.map_cons]
    cases hp : x.Key == key with
    | true =>
      simp only [List.find?_cons, hp]
      rfl
    | false =>
      simp only [List.find?_cons, hp]
      exact ih

theorem find?_key_unique (l : List mapEntry) (key : Bytes) (e : mapEntry)
    (hpair : l.Pairwise fun a b => a.Key ≠ b.Key) (he : e ∈ l) (hk : e.Key = key) :
    l.find? (fun x => x.Key == key) = some e := by
  induction l with
  | nil => cases he
  | cons x xs ih =>
    rw [List.pairwise_cons] at hpair
    rw [List.mem_cons] at he
    rcases he with he | he
    · subst he
      rw [List.find?_cons_of_pos _ (by simp [hk])]
    · have hne : x.Key ≠ key := by
        rw [← hk]
        exact hpair.1 e he
      rw [List.find?_cons_of_neg _ (by simp [hne])]
      exact ih hpair.2 he

theorem sortedKeys_pairwise (l : List mapEntry)
    (hs : sortedUniqueKeys (l.map fun x => (x.Key, x.Val)) = true) :
    l.Pairwise fun a b => a.Key ≠ b.Key := by
  induction l with
  | nil => exact List.Pairwise.nil
  | cons y ys ih =>
    rw [List.pairwise_cons]
    refine ⟨fun b hb hc => ?_, ih (sortedKeys_tail y ys hs)⟩
    have hlt := sortedKeys_head_lt y b ys hb hs
    rw [hc, (bytesCompare_eq_zero_iff b.Key b.Key).mpr rfl] at hlt
    omega

theorem find?_sortEntries (l : List mapEntry) (key : Bytes)
    (hpair : l.Pairwise fun a b => a.Key ≠ b.Key) :
    (sortEntries l).find? (fun x => x.Key == key) = l.find? (fun x => x.Key == key) := by
  cases hfind : l.find? (fun x => x.Key == key) with
  | none =>
    rw [List.find?_eq_none] at hfind ⊢
    intro x hx
    exact hfind x ((mem_sortEntries x l).mp hx)
  | some e =>
    have he : e ∈ l := List.mem_of_find?_eq_some hfind
    have hk : e.Key = key := by
      have := List.find?_some hfind
      simpa using this
    exact find?_key_unique (sortEntries l) key e
      (sortedKeys_pairwise _ (sortedUniqueKeys_sortEntries l hpair))
      ((mem_sortEntries e l).mpr he) hk

theorem mapRep_doclen (doc : Bytes) (off depth : Nat) (m : List (Bytes × Value))
    (hrep : mapRep doc off depth m) : 8 ≤ doc.length := by
  cases hrep with
  | leaf off depth h node entries hslice =>
    have hf := NodeSliceAtV1_facts doc off h node hslice
    omega
  | branch off depth h node bitmap children m hslice =>
    have hf := NodeSliceAtV1_facts doc off h node hslice
    omega

theorem mapRep_append (doc ext : Bytes) (off depth : Nat) (m : List (Bytes × Value))
    (hrep : mapRep doc off depth m) : mapRep (doc ++ ext) off depth m := by
  induction hrep with
  | leaf off depth h node entries hslice hkt hkind hparse hwf =>
    exact .leaf off depth h node entries (NodeSliceAtV1_append doc ext off h node hslice)
      hkt hkind hparse hwf
  | branch off depth h node bitmap children m hslice hkt hkind hparse hdepth hchild hmiss
      hbm0 hfull ih =>
    exact .branch off depth h node bitmap children m
      (NodeSliceAtV1_append doc ext off h node hslice) hkt hkind hparse hdepth ih hmiss
      hbm0 hfull

theorem slot_lt_16 (x depth : Nat) : (x >>> (depth * 4)) &&& hamtMask < 16 := by
  have h := Nat.and_le_right (n := x >>> (depth * 4)) (m := hamtMask)
  unfold hamtMask at h ⊢
  omega

theorem mapRep_get (doc : Bytes) (off depth : Nat) (m : List (Bytes × Value))
    (hrep : mapRep doc off depth m) :
    ∀ gfuel key, 1 ≤ gfuel → 8 ≤ gfuel + depth →
      mapGet doc gfuel off key depth =
        .ok ((m.find? fun kv => kv.1 == key).map fun kv => kv.2) := by
  induction hrep with
  | leaf off depth h node entries hslice hkt hkind hparse hwf =>
    intro gfuel key h1 h8
    obtain ⟨g, rfl⟩ : ∃ g, gfuel = g + 1 := ⟨gfuel - 1, by omega⟩
    simp only [mapGet, hslice]
    rw [if_neg (by simp [hkt]), if_pos hkind]
    simp only [hparse]
    cases hf : entries.find? fun kv => kv.1 == key <;> simp [hf]
  | branch off depth h node bitmap children m hslice hkt hkind hparse hdepth hchild hmiss
      hbm0 hfull ih =>
    intro gfuel key h1 h8
    obtain ⟨g, rfl⟩ : ∃ g, gfuel = g + 1 := ⟨gfuel - 1, by omega⟩
    simp only [mapGet, hslice]
    rw [if_neg (by simp [hkt]), if_neg hkind]
    simp only [hparse]
    have hslot : (XXH32 key 0 >>> (depth * 4)) &&& hamtMask < 16 := slot_lt_16 _ _
    by_cases hbit : (bitmap >>> ((XXH32 key 0 >>> (depth * 4)) &&& hamtMask)) &&& 1 = 0
    · rw [if_pos hbit]
      rw [shiftr_and_one] at hbit
      have hempty := hmiss _ hslot hbit
      have hnone : (m.find? fun kv => kv.1 == key) = none := by
        rw [List.find?_eq_none]
        intro kv hkv hkey
        have hkeq : kv.1 = key := eq_of_beq hkey
        have hmemf : kv ∈ m.filter fun kv => decide ((XXH32 kv.1 0 >>> (depth * 4)) &&&
            hamtMask = (XXH32 key 0 >>> (depth * 4)) &&& hamtMask) :=
          List.mem_filter.mpr ⟨hkv, by simp [hkeq]⟩
        rw [hempty] at hmemf
        cases hmemf
      rw [hnone]
      rfl
    · rw [if_neg hbit]
      rw [shiftr_and_one] at hbit
      have hbit1 : bitmap / 2 ^ ((XXH32 key 0 >>> (depth * 4)) &&& hamtMask) % 2 = 1 := by
        omega
      rw [and_shiftl_sub_one]
      have hmd : maxDepth32 = 7 := rfl
      have hrec := ih _ hslot hbit1 g key (by omega) (by omega)
      rw [hrec, find?_filter_eq (fun kv => kv.1 == key) _ m (fun kv hkv => by
        have hkeq : kv.1 = key := eq_of_beq hkv
        simp [hkeq])]

/-! ## Encoder facts feeding the build/encode round trip -/

theorem buildMapNode_nil (f depth : Nat) : buildMapNode f [] depth = .leaf [] := by
  cases f <;> rfl

theorem buildMapNode_single (f depth : Nat) (e : mapEntry) :
    buildMapNode f [e] depth = .leaf [e] := by
  cases f <;> rfl

theorem buildMapNode_two_zero (depth : Nat) (e1 e2 : mapEntry) (rest : List mapEntry) :
    buildMapNode 0 (e1 :: e2 :: rest) depth = .leaf (sortEntries (e1 :: e2 :: rest)) := rfl

theorem buildMapNode_two_succ (f depth : Nat) (e1 e2 : mapEntry) (rest : List mapEntry) :
    buildMapNode (f + 1) (e1 :: e2 :: rest) depth =
      if depth ≥ maxDepth32 then .leaf (sortEntries (e1 :: e2 :: rest))
      else
        mapNode.branch
          (((List.range hamtSlots).filter fun s =>
              (e1 :: e2 :: rest).any fun e => slotOf e depth = s).foldl
            (fun bm s => bm ||| (1 <<< s)) 0)
          (((List.range hamtSlots).filter fun s =>
              (e1 :: e2 :: rest).any fun e => slotOf e depth = s).map fun s =>
            buildMapNode f ((e1 :: e2 :: rest).filter fun e => slotOf e depth = s)
              (depth + 1)) := rfl

theorem writeLength_len_ge (pfx L : Nat) : 1 ≤ (writeLength pfx L).length := by
  unfold writeLength
  split_ifs <;> simp

theorem flatten_length_ge {α : Type} (f : α → Bytes) (l : List α)
    (h : ∀ x ∈ l, 1 ≤ (f x).length) : l.length ≤ ((l.map f).flatten).length := by
  induction l with
  | nil => simp
  | cons x xs ih =>
    rw [List.map_cons, List.flatten_cons, List.length_append, List.length_cons]
    have h1 := h x (by simp)
    have h2 := ih fun y hy => h y (by simp [hy])
    omega

theorem appendMapLeafNodeSorted_len (builder : Bytes) (entries : List (Bytes × Value))
    (off : Nat) (b2 : Bytes)
    (h : appendMapLeafNodeSorted builder entries = .ok (off, b2)) :
    ((entries.map fun kv => encodeBytesToBuffer TypeTxt kv.1 ++
      encodeValueToBuffer kv.2).flatten).length + 8 ≤ b2.length ∧
    builder.length + 8 ≤ b2.length := by
  unfold appendMapLeafNodeSorted appendNodeV1 AppendNode at h
  injection h with h2
  have hb := congrArg Prod.snd h2
  simp only at hb
  rw [← hb]
  simp [leBytes_length]
  omega

theorem leaf_rep (builder : Bytes) (entries : List (Bytes × Value)) (off : Nat) (b2 : Bytes)
    (depth : Nat)
    (h : appendMapLeafNodeSorted builder entries = .ok (off, b2))
    (hwf : ∀ kv ∈ entries, kv.1.length < 2 ^ 64 ∧ ValueSized kv.2)
    (hsorted : sortedUniqueKeys entries = true)
    (hsz : b2.length + 4 < 2 ^ 32) :
    off = builder.length ∧ (∃ node, b2 = builder ++ node ∧ 8 ≤ node.length) ∧
      ∀ ext, mapRep (b2 ++ ext) off depth entries := by
  obtain ⟨hflat, hb8⟩ := appendMapLeafNodeSorted_len builder entries off b2 h
  have hcnt : entries.length < 2 ^ 32 := by
    have h1 := flatten_length_ge
      (fun kv => encodeBytesToBuffer TypeTxt kv.1 ++ encodeValueToBuffer kv.2) entries
      (fun kv _ => by
        rw [List.length_append]
        have := writeLength_len_ge (TypeTxt <<< 5) kv.1.length
        unfold encodeBytesToBuffer
        rw [List.length_append]
        omega)
    omega
  obtain ⟨node, ha, h8, hlt, hslice, hparse⟩ := appendMapLeafNodeSorted_parse builder entries
    (fun kv hkv => ⟨(hwf kv hkv).2, (hwf kv hkv).1⟩) hsorted hcnt (by omega)
  rw [ha] at h
  injection h with h2
  have hoff : off = builder.length := (congrArg Prod.fst h2).symm
  have hb2 : b2 = builder ++ node := (congrArg Prod.snd h2).symm
  refine ⟨hoff, ⟨node, hb2, h8⟩, fun ext => ?_⟩
  refine mapRep.leaf off depth ⟨NodeLeaf, KeyMap, node.length, entries.length⟩ node entries
    ?_ rfl rfl hparse hwf
  rw [hb2, hoff, List.append_assoc]
  rw [← List.append_assoc]
  exact hslice ext

theorem encodeFold_grows (f : Nat) :
    ∀ (cs : List mapNode) (acc : List Nat) (b0 : Bytes) (offs : List Nat) (bout : Bytes),
      cs.foldlM
        (fun (acc : List Nat × Bytes) child =>
          (match encodeMapNode f acc.2 child with
            | .error e => .error e
            | .ok (off, b2) => .ok (acc.1 ++ [off], b2) :
              Except String (List Nat × Bytes)))
        (acc, b0) = .ok (offs, bout) →
      ∃ ext : Bytes, bout = b0 ++ ext := by
  intro cs
  induction cs with
  | nil =>
    intro acc b0 offs bout hf
    simp only [List.foldlM_nil] at hf
    injection hf with hf2
    exact ⟨[], by cases hf2; rw [List.append_nil]⟩
  | cons c cs ihc =>
    intro acc b0 offs bout hf
    simp only [List.foldlM_cons] at hf
    cases hc : encodeMapNode f b0 c with
    | error e => rw [hc] at hf; cases hf
    | ok p =>
      obtain ⟨off1, b1⟩ := p
      rw [hc] at hf
      simp only [Except.bind] at hf
      obtain ⟨e1, he1, _⟩ := encodeMapNode_grows f c b0 off1 b1 hc
      obtain ⟨e2, he2⟩ := ihc (acc ++ [off1]) b1 offs bout hf
      exact ⟨e1 ++ e2, by rw [he2, he1, List.append_assoc]⟩

theorem encodeMapNode_off_lt (f : Nat) (n : mapNode) (builder : Bytes) (off : Nat)
    (b2 : Bytes) (h : encodeMapNode f builder n = .ok (off, b2)) :
    builder.length ≤ off ∧ off + 8 ≤ b2.length := by
  cases f with
  | zero => cases h
  | succ f =>
    cases n with
    | leaf entries =>
      simp only [encodeMapNode] at h
      obtain ⟨ext, he, hl⟩ := appendMapLeafNodeSorted_grows builder
        (entries.map fun e => (e.Key, e.Val))
      rw [he] at h
      injection h with h2
      have hoff : off = builder.length := (congrArg Prod.fst h2).symm
      have hb2 : b2 = builder ++ ext := (congrArg Prod.snd h2).symm
      rw [hoff, hb2]
      simp
      omega
    | branch bitmap children =>
      simp only [encodeMapNode] at h
      cases hf : (children.foldlM
          (fun (acc : List Nat × Bytes) child =>
            (match encodeMapNode f acc.2 child with
              | .error e => .error e
              | .ok (off, b2) => .ok (acc.1 ++ [off], b2) :
                Except String (List Nat × Bytes)))
          (([] : List Nat), builder)) with
      | error e => rw [hf] at h; cases h
      | ok p =>
        obtain ⟨offs, builder2⟩ := p
        rw [hf] at h
        simp only [] at h
        obtain ⟨e1, he1⟩ := encodeFold_grows f children [] builder offs builder2 hf
        obtain ⟨hr, e2, he2, hl2⟩ := appendMapBranchNode_grows builder2 bitmap offs off b2 h
        rw [hr, he2, he1]
        simp
        omega

/-! ## Leaf and child-sequence round trips for the builder -/

theorem leafList_rep (g : Nat) (builder : Bytes) (off : Nat) (b2 : Bytes) (depth : Nat)
    (L : List mapEntry)
    (h : encodeMapNode (g + 1) builder (.leaf L) = .ok (off, b2))
    (hwf : ∀ e ∈ L, e.Key.length < 2 ^ 64 ∧ ValueSized e.Val)
    (hsorted : sortedUniqueKeys (L.map fun e => (e.Key, e.Val)) = true)
    (hsz : b2.length + 4 < 2 ^ 32) :
    builder.length ≤ off ∧ off + 8 ≤ b2.length ∧ (∃ E, b2 = builder ++ E) ∧
      ∃ m, (∀ ext2, mapRep (b2 ++ ext2) off depth m) ∧
        m.Pairwise (fun a b => a.1 ≠ b.1) ∧
        (∀ kv, kv ∈ m ↔ kv ∈ L.map fun e => (e.Key, e.Val)) := by
  rw [show encodeMapNode (g + 1) builder (.leaf L) =
    appendMapLeafNodeSorted builder (L.map fun e => (e.Key, e.Val)) from rfl] at h
  have hwf2 : ∀ kv ∈ (L.map fun e => (e.Key, e.Val)), kv.1.length < 2 ^ 64 ∧
      ValueSized kv.2 := by
    intro kv hkv
    rw [List.mem_map] at hkv
    obtain ⟨e, he, rfl⟩ := hkv
    exact ⟨(hwf e he).1, (hwf e he).2⟩
  have hpwP : (L.map fun e => (e.Key, e.Val)).Pairwise (fun a b => a.1 ≠ b.1) := by
    rw [List.pairwise_map]
    exact sortedKeys_pairwise L hsorted
  generalize hW : (L.map fun e => (e.Key, e.Val)) = LP at h hsorted hwf2 hpwP
  obtain ⟨hoff, ⟨node, hb2, h8⟩, hrep⟩ :=
    leaf_rep builder LP off b2 depth h hwf2 hsorted hsz
  have hgoal1 : builder.length ≤ off := by omega
  have hgoal2 : off + 8 ≤ b2.length := by
    rw [hb2, hoff, List.length_append]
    omega
  refine ⟨hgoal1, hgoal2, ⟨node, hb2⟩, LP, hrep, hpwP, fun kv => Iff.rfl⟩

theorem encodeFold_rep (f depth : Nat) (el : List mapEntry) :
    ∀ (ss : List Nat) (acc : List Nat) (builder : Bytes) (offs : List Nat) (bout : Bytes),
      ((ss.map fun s => buildMapNode f (el.filter fun e => slotOf e depth = s)
          (depth + 1)).foldlM
        (fun (acc : List Nat × Bytes) child =>
          (match encodeMapNode (f + 1) acc.2 child with
            | .error e => .error e
            | .ok (off, b2) => .ok (acc.1 ++ [off], b2) :
              Except String (List Nat × Bytes)))
        (acc, builder)) = .ok (offs, bout) →
      (∀ s ∈ ss, ∀ b0 off2 b3,
        encodeMapNode (f + 1) b0 (buildMapNode f (el.filter fun e => slotOf e depth = s)
          (depth + 1)) = .ok (off2, b3) →
        b3.length + 4 < 2 ^ 32 →
        ∃ m, (∀ ext2, mapRep (b3 ++ ext2) off2 (depth + 1) m) ∧
          m.Pairwise (fun a b => a.1 ≠ b.1) ∧
          (∀ kv, kv ∈ m ↔ kv ∈ (el.filter fun e => slotOf e depth = s).map
            fun e => (e.Key, e.Val))) →
      bout.length + 4 < 2 ^ 32 →
      ∃ os : List Nat, ∃ ms : List (List (Bytes × Value)),
        offs = acc ++ os ∧ os.length = ss.length ∧ ms.length = ss.length ∧
        (∃ E, bout = builder ++ E) ∧
        (∀ c ∈ os, builder.length ≤ c ∧ c + 8 ≤ bout.length) ∧
        (∀ i, i < ss.length →
          (∀ ext2, mapRep (bout ++ ext2) (os.getD i 0) (depth + 1) (ms.getD i [])) ∧
          (ms.getD i []).Pairwise (fun a b => a.1 ≠ b.1) ∧
          (∀ kv, kv ∈ ms.getD i [] ↔
            kv ∈ (el.filter fun e => slotOf e depth = (ss.getD i 0)).map
              fun e => (e.Key, e.Val))) := by
  intro ss
  induction ss with
  | nil =>
    intro acc builder offs bout hf hIH hsz
    simp only [List.map_nil, List.foldlM_nil] at hf
    injection hf with hf2
    have hoffs : acc = offs := congrArg Prod.fst hf2
    have hbout : builder = bout := congrArg Prod.snd hf2
    refine ⟨[], [], ?_, rfl, rfl, ?_, ?_, ?_⟩
    · rw [List.append_nil, hoffs]
    · exact ⟨[], by rw [List.append_nil, hbout]⟩
    · intro c hc
      cases hc
    · intro i hi
      simp at hi
  | cons s ss ihs =>
    intro acc builder offs bout hf hIH hsz
    simp only [List.map_cons, List.foldlM_cons] at hf
    cases hc : encodeMapNode (f + 1) builder
        (buildMapNode f (el.filter fun e => slotOf e depth = s) (depth + 1)) with
    | error e => rw [hc] at hf; cases hf
    | ok p =>
      obtain ⟨o1, b1⟩ := p
      rw [hc] at hf
      simp only [Except.bind] at hf
      obtain ⟨os, ms, hoffs, hoslen, hmslen, ⟨E, hE⟩, hrange, hpt⟩ :=
        ihs (acc ++ [o1]) b1 offs bout hf (fun s2 hs2 => hIH s2 (by simp [hs2])) hsz
      have hb1le : b1.length ≤ bout.length := by rw [hE]; simp
      have hb3sz : b1.length + 4 < 2 ^ 32 := by omega
      obtain ⟨m1, hrep1, hpw1, hmem1⟩ := hIH s (by simp) builder o1 b1 hc hb3sz
      obtain ⟨ho1a, ho1b⟩ := encodeMapNode_off_lt (f + 1) _ builder o1 b1 hc
      obtain ⟨e1, he1, _⟩ := encodeMapNode_grows (f + 1) _ builder o1 b1 hc
      refine ⟨o1 :: os, m1 :: ms, ?_, by simp [hoslen], by simp [hmslen], ?_, ?_, ?_⟩
      · rw [hoffs, List.append_assoc]
        rfl
      · exact ⟨e1 ++ E, by rw [hE, he1, List.append_assoc]⟩
      · intro c hcm
        rcases List.mem_cons.mp hcm with hh | hh
        · subst hh
          exact ⟨ho1a, by omega⟩
        · have hr := hrange c hh
          have hble : builder.length ≤ b1.length := by rw [he1]; simp
          exact ⟨by omega, hr.2⟩
      · intro i hi
        cases i with
        | zero =>
          rw [List.getD_cons_zero, List.getD_cons_zero, List.getD_cons_zero]
          obtain ⟨e2, he2⟩ := encodeFold_grows (f + 1) _ (acc ++ [o1]) b1 offs bout hf
          refine ⟨fun ext2 => ?_, hpw1, hmem1⟩
          rw [he2, List.append_assoc]
          exact hrep1 (e2 ++ ext2)
        | succ j =>
          have hj : j < ss.length := by simpa using hi
          have hp := hpt j hj
          rw [List.getD_cons_succ, List.getD_cons_succ, List.getD_cons_succ]
          exact hp

theorem flatten_filter_pure (p : (Bytes × Value) → Nat) :
    ∀ (ss : List Nat) (ms : List (List (Bytes × Value))), ms.length = ss.length →
      (∀ i, i < ss.length → ∀ kv ∈ ms.getD i [], p kv = ss.getD i 0) →
      ss.Pairwise (fun a b => a ≠ b) →
      (∀ t, (∀ i, i < ss.length → ss.getD i 0 ≠ t) →
        ms.flatten.filter (fun kv => decide (p kv = t)) = []) ∧
      (∀ i, i < ss.length →
        ms.flatten.filter (fun kv => decide (p kv = ss.getD i 0)) = ms.getD i []) := by
  intro ss
  induction ss with
  | nil =>
    intro ms hlen hpure hpw
    have hms : ms = [] := List.length_eq_zero.mp hlen
    subst hms
    exact ⟨fun t ht => rfl, fun i hi => by simp at hi⟩
  | cons s ss ih =>
    intro ms hlen hpure hpw
    cases ms with
    | nil => simp at hlen
    | cons m ms =>
      rw [List.length_cons, List.length_cons] at hlen
      have hlen' : ms.length = ss.length := by omega
      rw [List.pairwise_cons] at hpw
      have hpure0 : ∀ kv ∈ m, p kv = s := fun kv hkv => hpure 0 (by simp) kv hkv
      have hpure' : ∀ i, i < ss.length → ∀ kv ∈ ms.getD i [], p kv = ss.getD i 0 :=
        fun i hi kv hkv => hpure (i + 1) (by simp; omega) kv hkv
      obtain ⟨ihA, ihB⟩ := ih ms hlen' hpure' hpw.2
      constructor
      · intro t ht
        rw [List.flatten_cons, List.filter_append]
        have h1 : m.filter (fun kv => decide (p kv = t)) = [] := by
          rw [List.filter_eq_nil_iff]
          intro kv hkv
          have := hpure0 kv hkv
          have hst : s ≠ t := ht 0 (by simp)
          simp [this, hst]
        have h2 := ihA t (fun i hi => ht (i + 1) (by simp; omega))
        rw [h1, h2]
        rfl
      · intro i hi
        cases i with
        | zero =>
          rw [List.getD_cons_zero, List.getD_cons_zero, List.flatten_cons,
            List.filter_append]
          have h1 : m.filter (fun kv => decide (p kv = s)) = m := by
            rw [List.filter_eq_self]
            intro kv hkv
            simp [hpure0 kv hkv]
          have h2 : ms.flatten.filter (fun kv => decide (p kv = s)) = [] := by
            apply ihA
            intro j hj hc
            have hmem : ss.getD j 0 ∈ ss := by
              rw [List.getD_eq_getElem ss 0 hj]
              exact List.getElem_mem hj
            exact hpw.1 _ hmem hc.symm
          rw [h1, h2, List.append_nil]
        | succ j =>
          have hj : j < ss.length := by simpa using hi
          rw [List.getD_cons_succ, List.getD_cons_succ, List.flatten_cons,
            List.filter_append]
          have h1 : m.filter (fun kv => decide (p kv = ss.getD j 0)) = [] := by
            rw [List.filter_eq_nil_iff]
            intro kv hkv
            have hps := hpure0 kv hkv
            have hmem : ss.getD j 0 ∈ ss := by
              rw [List.getD_eq_getElem ss 0 hj]
              exact List.getElem_mem hj
            have hne := hpw.1 _ hmem
            simp only [hps, decide_eq_true_eq]
            exact hne
          rw [h1, ihB j hj]
          rfl

theorem sortedLeaf_rep (g : Nat) (builder : Bytes) (off : Nat) (b2 : Bytes) (depth : Nat)
    (el : List mapEntry)
    (h : encodeMapNode (g + 1) builder (.leaf (sortEntries el)) = .ok (off, b2))
    (hwf : ∀ e ∈ el, e.Key.length < 2 ^ 64 ∧ ValueSized e.Val ∧ e.Hash = XXH32 e.Key 0)
    (hpair : el.Pairwise fun a b => a.Key ≠ b.Key)
    (hsz : b2.length + 4 < 2 ^ 32) :
    builder.length ≤ off ∧ off + 8 ≤ b2.length ∧ (∃ E, b2 = builder ++ E) ∧
      ∃ m, (∀ ext2, mapRep (b2 ++ ext2) off depth m) ∧
        m.Pairwise (fun a b => a.1 ≠ b.1) ∧
        (∀ kv, kv ∈ m ↔ kv ∈ el.map fun e => (e.Key, e.Val)) := by
  generalize hL : sortEntries el = L at h
  obtain ⟨g1, g2, gE, m, hrep, hpw, hmem⟩ := leafList_rep g builder off b2 depth L h
    (fun e he => by
      have heS : e ∈ el := by
        rw [← mem_sortEntries e el, hL]
        exact he
      exact ⟨(hwf e heS).1, (hwf e heS).2.1⟩)
    (by rw [← hL]; exact sortedUniqueKeys_sortEntries el hpair) hsz
  refine ⟨g1, g2, gE, m, hrep, hpw, fun kv => ?_⟩
  rw [hmem kv]
  constructor
  · intro hx
    rw [List.mem_map] at hx ⊢
    obtain ⟨e, he, rfl⟩ := hx
    have heS : e ∈ el := by
      rw [← mem_sortEntries e el, hL]
      exact he
    exact ⟨e, heS, rfl⟩
  · intro hx
    rw [List.mem_map] at hx ⊢
    obtain ⟨e, he, rfl⟩ := hx
    have heL : e ∈ L := by
      rw [← hL, mem_sortEntries e el]
      exact he
    exact ⟨e, heL, rfl⟩

/-- The builder's HAMT construction round-trips: a successful
`encodeMapNode` of a `buildMapNode` tree yields a well-formed map
subtree representing exactly the built entries. -/
theorem encodeMapNode_rep :
    ∀ (f : Nat) (el : List mapEntry) (depth : Nat) (builder : Bytes) (off : Nat) (b2 : Bytes),
      encodeMapNode (f + 1) builder (buildMapNode f el depth) = .ok (off, b2) →
      (∀ e ∈ el, e.Key.length < 2 ^ 64 ∧ ValueSized e.Val ∧ e.Hash = XXH32 e.Key 0) →
      el.Pairwise (fun a b => a.Key ≠ b.Key) →
      maxDepth32 ≤ depth + f →
      b2.length + 4 < 2 ^ 32 →
      builder.length ≤ off ∧ off + 8 ≤ b2.length ∧ (∃ E, b2 = builder ++ E) ∧
        ∃ m, (∀ ext2, mapRep (b2 ++ ext2) off depth m) ∧
          m.Pairwise (fun a b => a.1 ≠ b.1) ∧
          (∀ kv, kv ∈ m ↔ kv ∈ el.map fun e => (e.Key, e.Val)) := by
  intro f
  induction f with
  | zero =>
    intro el depth builder off b2 h hwf hpair hdep hsz
    cases el with
    | nil =>
      rw [buildMapNode_nil] at h
      exact leafList_rep 0 builder off b2 depth [] h (fun e he => by cases he) rfl hsz
    | cons e1 tl =>
      cases tl with
      | nil =>
        rw [buildMapNode_single] at h
        exact leafList_rep 0 builder off b2 depth [e1] h
          (fun e he => by
            rw [List.mem_singleton] at he
            subst he
            exact ⟨(hwf e (by simp)).1, (hwf e (by simp)).2.1⟩)
          rfl hsz
      | cons e2 rest =>
        rw [buildMapNode_two_zero] at h
        exact sortedLeaf_rep 0 builder off b2 depth (e1 :: e2 :: rest) h hwf hpair hsz
  | succ f ihf =>
    intro el depth builder off b2 h hwf hpair hdep hsz
    cases el with
    | nil =>
      rw [buildMapNode_nil] at h
      exact leafList_rep (f + 1) builder off b2 depth [] h (fun e he => by cases he) rfl hsz
    | cons e1 tl =>
      cases tl with
      | nil =>
        rw [buildMapNode_single] at h
        exact leafList_rep (f + 1) builder off b2 depth [e1] h
          (fun e he => by
            rw [List.mem_singleton] at he
            subst he
            exact ⟨(hwf e (by simp)).1, (hwf e (by simp)).2.1⟩)
          rfl hsz
      | cons e2 rest =>
        rw [buildMapNode_two_succ] at h
        by_cases hdd : depth ≥ maxDepth32
        · rw [if_pos hdd] at h
          exact sortedLeaf_rep (f + 1) builder off b2 depth (e1 :: e2 :: rest) h hwf hpair hsz
        · rw [if_neg hdd] at h
          rw [show hamtSlots = 16 from rfl] at h
          generalize hEL : (e1 :: e2 :: rest : List mapEntry) = el3 at h hwf hpair
          generalize hQ : (fun s : Nat => el3.any fun e => slotOf e depth = s) = q at h
          generalize hS : (List.range 16).filter q = slots at h
          simp only [encodeMapNode] at h
          cases hfold : ((slots.map fun s => buildMapNode f
              (el3.filter fun e => slotOf e depth = s) (depth + 1)).foldlM
            (fun (acc : List Nat × Bytes) child =>
              (match encodeMapNode (f + 1) acc.2 child with
                | .error e => .error e
                | .ok (off, b2) => .ok (acc.1 ++ [off], b2) :
                  Except String (List Nat × Bytes)))
            (([] : List Nat), builder)) with
          | error e => rw [hfold] at h; cases h
          | ok p =>
            obtain ⟨offs, builder2⟩ := p
            rw [hfold] at h
            simp only [] at h
            obtain ⟨hgrowB, e2b, he2b, hl2b⟩ :=
              appendMapBranchNode_grows builder2 _ offs off b2 h
            have hble : builder2.length ≤ b2.length := by rw [he2b]; simp
            have hb2szB : builder2.length + 4 < 2 ^ 32 := by omega
            have hIH : ∀ s ∈ slots, ∀ b0 off2 b3,
                encodeMapNode (f + 1) b0 (buildMapNode f
                  (el3.filter fun e => slotOf e depth = s) (depth + 1)) = .ok (off2, b3) →
                b3.length + 4 < 2 ^ 32 →
                ∃ m, (∀ ext2, mapRep (b3 ++ ext2) off2 (depth + 1) m) ∧
                  m.Pairwise (fun a b => a.1 ≠ b.1) ∧
                  (∀ kv, kv ∈ m ↔ kv ∈ (el3.filter fun e => slotOf e depth = s).map
                    fun e => (e.Key, e.Val)) := by
              intro s _hs b0 off2 b3 henc hb3
              obtain ⟨_, _, _, m, hrepm, hpwm, hmemm⟩ :=
                ihf (el3.filter fun e => slotOf e depth = s) (depth + 1) b0 off2 b3 henc
                  (fun e he => hwf e (List.mem_of_mem_filter he))
                  (hpair.filter _)
                  (by omega) hb3
              exact ⟨m, hrepm, hpwm, hmemm⟩
            obtain ⟨os, ms, hoffs, hoslen, hmslen, ⟨E, hBE⟩, hrange, hpt⟩ :=
              encodeFold_rep f depth el3 slots [] builder offs builder2 hfold hIH hb2szB
            rw [List.nil_append] at hoffs
            subst hoffs
            obtain ⟨hc1, hc2, hc3⟩ := rangeFilterOr q 16
            rw [hS] at hc1 hc2 hc3
            have hgetD := rangeFilter_getD q 16
            rw [hS] at hgetD
            have h65 : (2 : Nat) ^ 16 = 65536 := by norm_num
            have hslmem : ∀ s, s ∈ slots ↔ (s < 16 ∧ q s = true) := by
              intro s
              rw [← hS, List.mem_filter, List.mem_range]
            have hslq : ∀ s ∈ slots, q s = true := fun s hs => ((hslmem s).mp hs).2
            have hslpw : slots.Pairwise (fun a b => a ≠ b) := by
              rw [← hS]
              exact ((List.pairwise_lt_range 16).filter q).imp Nat.ne_of_lt
            have hsllen : slots.length ≤ 16 := by
              rw [← hS]
              calc ((List.range 16).filter q).length ≤ (List.range 16).length :=
                    List.length_filter_le _ _
                _ = 16 := List.length_range 16
            have hpureP : ∀ i, i < slots.length → ∀ kv ∈ ms.getD i [],
                ((XXH32 kv.1 0 >>> (depth * 4)) &&& hamtMask) = slots.getD i 0 := by
              intro i hi kv hkv
              have hm := ((hpt i hi).2.2 kv).mp hkv
              rw [List.mem_map] at hm
              obtain ⟨e, hef, rfl⟩ := hm
              have hslot : slotOf e depth = slots.getD i 0 := by
                have hf2 := (List.mem_filter.mp hef).2
                simpa using hf2
              have hee : e ∈ el3 := List.mem_of_mem_filter hef
              have hhash := (hwf e hee).2.2
              show (XXH32 e.Key 0 >>> (depth * 4)) &&& hamtMask = _
              rw [← hhash]
              exact hslot
            obtain ⟨hffA, hffB⟩ := flatten_filter_pure
              (fun kv => (XXH32 kv.1 0 >>> (depth * 4)) &&& hamtMask) slots ms hmslen
              hpureP hslpw
            have hpc : offs.length = popcount16
                (slots.foldl (fun bm s => bm ||| (1 <<< s)) 0) := by
              have h3 := hc3 16
              rw [Nat.mod_eq_of_lt hc1] at h3
              rw [popcount16_eq_bitCount _ (by omega), h3,
                List.filter_eq_self.mpr (fun a ha => by
                  have := ((hslmem a).mp ha).1
                  simpa using this)]
              exact hoslen
            obtain ⟨node, happ, hnlen, hsliceN, hparseBr⟩ :=
              appendMapBranchNode_parse builder2
                (slots.foldl (fun bm s => bm ||| (1 <<< s)) 0) offs hc1 hpc
                (fun c hc => by
                  have := hrange c hc
                  omega)
                (by omega)
            rw [happ] at h
            injection h with h2
            have hoffv : builder2.length = off := congrArg Prod.fst h2
            have hb2v : builder2 ++ node = b2 := congrArg Prod.snd h2
            refine ⟨?_, ?_, ?_, ms.flatten, ?_, ?_, ?_⟩
            · rw [← hoffv, hBE]
              simp
            · rw [← hoffv, ← hb2v, List.length_append, hnlen]
              omega
            · exact ⟨E ++ node, by rw [← hb2v, hBE, List.append_assoc]⟩
            · intro ext2
              refine mapRep.branch off depth
                ⟨NodeBranch, KeyMap, 12 + 4 * offs.length, offs.length⟩ node
                (slots.foldl (fun bm s => bm ||| (1 <<< s)) 0) offs ms.flatten
                ?_ rfl ?_ hparseBr (by omega) ?_ ?_ ?_ ?_
              · rw [← hb2v, ← hoffv, List.append_assoc]
                rw [← List.append_assoc]
                exact hsliceN ext2
              · show NodeBranch ≠ NodeLeaf
                decide
              · intro s hs16 hbit
                have hq : q s = true := by
                  by_cases hqs : q s = true
                  · exact hqs
                  · exfalso
                    have hv := hc2 s
                    rw [hbit, if_neg (fun hc => hqs hc.2)] at hv
                    omega
                have hsin : s ∈ slots := (hslmem s).mpr ⟨hs16, hq⟩
                have hmlt : (slots.foldl (fun bm s => bm ||| (1 <<< s)) 0) % 2 ^ s < 65536 := by
                  have := Nat.mod_le ((slots.foldl (fun bm s => bm ||| (1 <<< s)) 0)) (2 ^ s)
                  omega
                have hidx : popcount16
                    ((slots.foldl (fun bm s => bm ||| (1 <<< s)) 0) % 2 ^ s) =
                    (slots.filter (fun x => decide (x < s))).length := by
                  rw [popcount16_eq_bitCount _ hmlt]
                  exact hc3 s
                have hklen : (slots.filter (fun x => decide (x < s))).length < slots.length :=
                  List.length_filter_lt_length_iff_exists.mpr ⟨s, hsin, by simp⟩
                have hgd : slots.getD ((slots.filter (fun x => decide (x < s))).length) 0 = s :=
                  hgetD s hs16 hq 0
                have hpti := hpt ((slots.filter (fun x => decide (x < s))).length) hklen
                have hfk := hffB ((slots.filter (fun x => decide (x < s))).length) hklen
                rw [hgd] at hfk
                rw [hidx, hfk]
                rw [← hb2v, List.append_assoc]
                exact hpti.1 (node ++ ext2)
              · intro s hs16 hbit
                have hq : q s = false := by
                  by_cases hqs : q s = true
                  · exfalso
                    have hv := hc2 s
                    rw [hbit, if_pos ⟨hs16, hqs⟩] at hv
                    omega
                  · exact Bool.eq_false_iff.mpr hqs
                apply hffA s
                intro i hi hc
                have hmem : slots.getD i 0 ∈ slots := by
                  rw [List.getD_eq_getElem slots 0 hi]
                  exact List.getElem_mem hi
                have := hslq _ hmem
                rw [hc, hq] at this
                cases this
              · intro h0
                have hs0 : slotOf e1 depth < 16 := slot_lt_16 e1.Hash depth
                have hq0 : q (slotOf e1 depth) = true := by
                  rw [← hQ]
                  simp only [List.any_eq_true]
                  exact ⟨e1, by rw [← hEL]; simp, by simp⟩
                have hv := hc2 (slotOf e1 depth)
                rw [h0, if_pos ⟨hs0, hq0⟩] at hv
                simp at hv
              · intro s hs16 hbit
                have hq : q s = true := by
                  by_cases hqs : q s = true
                  · exact hqs
                  · exfalso
                    have hv := hc2 s
                    rw [hbit, if_neg (fun hc => hqs hc.2)] at hv
                    omega
                have hsin : s ∈ slots := (hslmem s).mpr ⟨hs16, hq⟩
                have hklen : (slots.filter (fun x => decide (x < s))).length < slots.length :=
                  List.length_filter_lt_length_iff_exists.mpr ⟨s, hsin, by simp⟩
                have hgd : slots.getD ((slots.filter (fun x => decide (x < s))).length) 0 = s :=
                  hgetD s hs16 hq 0
                have hfk := hffB ((slots.filter (fun x => decide (x < s))).length) hklen
                rw [hgd] at hfk
                rw [hfk]
                rw [← hQ] at hq
                simp only [List.any_eq_true, decide_eq_true_eq] at hq
                obtain ⟨e, he, hse⟩ := hq
                have hmk := (hpt ((slots.filter (fun x => decide (x < s))).length) hklen).2.2
                  (e.Key, e.Val)
                intro hnil
                rw [hnil] at hmk
                have hmem0 : (e.Key, e.Val) ∈ ([] : List (Bytes × Value)) := hmk.mpr (by
                  rw [List.mem_map]
                  refine ⟨e, ?_, rfl⟩
                  rw [List.mem_filter]
                  exact ⟨he, by rw [hgd]; simp [hse]⟩)
                cases hmem0
            · rw [List.pairwise_flatten]
              constructor
              · intro l hl
                rw [List.mem_iff_getElem] at hl
                obtain ⟨i, hi, rfl⟩ := hl
                have hp := (hpt i (by omega)).2.1
                rw [List.getD_eq_getElem ms [] hi] at hp
                exact hp
              · rw [List.pairwise_iff_getElem]
                intro i j hi hj hij x hx y hy
                have hpx := hpureP i (by omega) x (by
                  rw [List.getD_eq_getElem ms [] hi]
                  exact hx)
                have hpy := hpureP j (by omega) y (by
                  rw [List.getD_eq_getElem ms [] hj]
                  exact hy)
                have hss : slots.getD i 0 ≠ slots.getD j 0 := by
                  have hpw2 := List.pairwise_iff_getElem.mp hslpw i j (by omega) (by omega) hij
                  rw [← List.getD_eq_getElem slots 0 (show i < slots.length by omega),
                    ← List.getD_eq_getElem slots 0 (show j < slots.length by omega)] at hpw2
                  exact hpw2
                intro hkeq
                rw [hkeq] at hpx
                exact hss (by rw [← hpx, ← hpy])
            · intro kv
              rw [List.mem_flatten]
              constructor
              · rintro ⟨l, hl, hkv⟩
                rw [List.mem_iff_getElem] at hl
                obtain ⟨i, hi, rfl⟩ := hl
                have hmi := (hpt i (by omega)).2.2 kv
                rw [List.getD_eq_getElem ms [] hi] at hmi
                have hm := hmi.mp hkv
                rw [List.mem_map] at hm ⊢
                obtain ⟨e, hef, rfl⟩ := hm
                exact ⟨e, List.mem_of_mem_filter hef, rfl⟩
              · intro hkv
                rw [List.mem_map] at hkv
                obtain ⟨e, he, rfl⟩ := hkv
                have hs16 : slotOf e depth < 16 := slot_lt_16 e.Hash depth
                have hq : q (slotOf e depth) = true := by
                  rw [← hQ]
                  simp only [List.any_eq_true]
                  exact ⟨e, he, by simp⟩
                have hsin : slotOf e depth ∈ slots := (hslmem _).mpr ⟨hs16, hq⟩
                rw [List.mem_iff_getElem] at hsin
                obtain ⟨k, hk, hsk⟩ := hsin
                have hmk := (hpt k hk).2.2 (e.Key, e.Val)
                have hin : (e.Key, e.Val) ∈ (el3.filter fun e2 =>
                    slotOf e2 depth = slots.getD k 0).map fun e2 => (e2.Key, e2.Val) := by
                  rw [List.mem_map]
                  refine ⟨e, ?_, rfl⟩
                  rw [List.mem_filter]
                  refine ⟨he, ?_⟩
                  rw [List.getD_eq_getElem slots 0 hk, hsk]
                  simp
                refine ⟨ms.getD k [], ?_, hmk.mpr hin⟩
                rw [List.getD_eq_getElem ms [] (by omega)]
                exact List.getElem_mem (by omega)

/-! ## Facts for the update paths -/

theorem readLE_lt (b : Bytes) (p k : Nat) : readLE b p k < 2 ^ (8 * k) := by
  unfold readLE
  exact Nat.mod_lt _ (Nat.pos_pow_of_pos _ (by norm_num))

theorem ParseMapBranchNodeV1_facts (b : Bytes) (bitmap : Nat) (children : List Nat)
    (h : ParseMapBranchNodeV1 b = .ok (bitmap, children)) :
    bitmap < 2 ^ 16 ∧ children.length = popcount16 bitmap ∧ ∀ c ∈ children, c < 2 ^ 32 := by
  unfold ParseMapBranchNodeV1 at h
  cases hp : ParseNodeHeaderV1 b with
  | error e => rw [hp] at h; cases h
  | ok hd =>
    rw [hp] at h
    simp only [] at h
    by_cases h1 : hd.keyType ≠ KeyMap ∨ hd.kind ≠ NodeBranch
    · rw [if_pos h1] at h; cases h
    · rw [if_neg h1] at h
      by_cases h2 : b.length < hd.nodeLen
      · rw [if_pos h2] at h; cases h
      · rw [if_neg h2] at h
        by_cases h3 : readLE b 10 2 ≠ 0
        · rw [if_pos h3] at h; cases h
        · rw [if_neg h3] at h
          by_cases h4 : hd.entryCount ≠ popcount16 (readLE b 8 2)
          · rw [if_pos h4] at h; cases h
          · rw [if_neg h4] at h
            by_cases h5 : hd.nodeLen < 12 + 4 * hd.entryCount
            · rw [if_pos h5] at h; cases h
            · rw [if_neg h5] at h
              injection h with h6
              have hbm : readLE b 8 2 = bitmap := congrArg Prod.fst h6
              have hch : (List.range hd.entryCount).map (fun i => readLE b (12 + 4 * i) 4) =
                  children := congrArg Prod.snd h6
              push_neg at h4
              refine ⟨?_, ?_, ?_⟩
              · rw [← hbm]
                have := readLE_lt b 8 2
                norm_num at this ⊢
                omega
              · rw [← hch, ← hbm, List.length_map, List.length_range]
                exact h4
              · intro c hc
                rw [← hch, List.mem_map] at hc
                obtain ⟨i, _, rfl⟩ := hc
                have := readLE_lt b (12 + 4 * i) 4
                norm_num at this ⊢
                omega

theorem cnt_le (bm : Nat) : ∀ t, bitCount (bm % 2 ^ t) ≤ t := by
  intro t
  induction t with
  | zero =>
    simp [Nat.mod_one]
    rfl
  | succ t ih =>
    have h := cnt_succ bm t
    have h2 : bm / 2 ^ t % 2 ≤ 1 := by omega
    omega

theorem popcount16_le (bm : Nat) (h : bm < 2 ^ 16) : popcount16 bm ≤ 16 := by
  rw [popcount16_eq_bitCount _ (by omega), ← Nat.mod_eq_of_lt h]
  exact cnt_le bm 16

theorem getD_set_eq (l : List Nat) (i : Nat) (x d : Nat) (h : i < l.length) :
    (l.set i x).getD i d = x := by
  rw [List.getD_eq_getElem?_getD, List.getElem?_set]
  rw [if_pos rfl, if_pos h]
  rfl

theorem getD_set_ne (l : List Nat) (i j : Nat) (x d : Nat) (h : i ≠ j) :
    (l.set i x).getD j d = l.getD j d := by
  rw [List.getD_eq_getElem?_getD, List.getElem?_set_ne h, ← List.getD_eq_getElem?_getD]

theorem getD_insert_lt (l : List Nat) (i j : Nat) (x d : Nat) (hj : j < i)
    (hi : i ≤ l.length) :
    (l.take i ++ [x] ++ l.drop i).getD j d = l.getD j d := by
  rw [List.getD_eq_getElem?_getD, List.append_assoc, List.getElem?_append,
    if_pos (by rw [List.length_take]; omega), List.getElem?_take, if_pos hj,
    ← List.getD_eq_getElem?_getD]

theorem getD_insert_eq (l : List Nat) (i : Nat) (x d : Nat) (hi : i ≤ l.length) :
    (l.take i ++ [x] ++ l.drop i).getD i d = x := by
  rw [List.getD_eq_getElem?_getD, List.append_assoc, List.getElem?_append,
    if_neg (by rw [List.length_take]; omega)]
  rw [List.length_take, Nat.min_eq_left hi, Nat.sub_self, List.singleton_append,
    List.getElem?_cons_zero]
  rfl

theorem getD_insert_gt (l : List Nat) (i j : Nat) (x d : Nat) (hj : i ≤ j)
    (hi : i ≤ l.length) :
    (l.take i ++ [x] ++ l.drop i).getD (j + 1) d = l.getD j d := by
  rw [List.getD_eq_getElem?_getD, List.append_assoc, List.getElem?_append,
    if_neg (by rw [List.length_take]; omega)]
  rw [List.length_take, Nat.min_eq_left hi,
    show j + 1 - i = (j - i) + 1 by omega, List.singleton_append,
    List.getElem?_cons_succ, List.getElem?_drop,
    show i + (j - i) = j by omega, ← List.getD_eq_getElem?_getD]

theorem getD_erase_lt (l : List Nat) (i j : Nat) (d : Nat) (hj : j < i) :
    (l.eraseIdx i).getD j d = l.getD j d := by
  rw [List.getD_eq_getElem?_getD, List.getElem?_eraseIdx, if_pos hj,
    ← List.getD_eq_getElem?_getD]

theorem getD_erase_ge (l : List Nat) (i j : Nat) (d : Nat) (hj : i ≤ j) :
    (l.eraseIdx i).getD j d = l.getD (j + 1) d := by
  rw [List.getD_eq_getElem?_getD, List.getElem?_eraseIdx, if_neg (by omega),
    ← List.getD_eq_getElem?_getD]

theorem find?_append_none {α : Type} (p : α → Bool) (l1 l2 : List α)
    (h : l1.find? p = none) : (l1 ++ l2).find? p = l2.find? p := by
  rw [List.find?_append, h, Option.none_or]

theorem mapRep_off (doc : Bytes) (off depth : Nat) (m : List (Bytes × Value))
    (hrep : mapRep doc off depth m) : off + 8 ≤ doc.length := by
  cases hrep with
  | leaf off depth h node entries hslice =>
    have hf := NodeSliceAtV1_facts doc off h node hslice
    omega
  | branch off depth h node bitmap children m hslice =>
    have hf := NodeSliceAtV1_facts doc off h node hslice
    omega

theorem encodeFromEntries_rep (builder : Bytes) (entries : List (Bytes × Value)) (depth : Nat)
    (off : Nat) (b2 : Bytes)
    (h : encodeMapNode (maxDepth32 + 2) builder (buildMapNodeFromEntries entries depth) =
      .ok (off, b2))
    (hwf : ∀ kv ∈ entries, kv.1.length < 2 ^ 64 ∧ ValueSized kv.2)
    (hpair : entries.Pairwise (fun a b => a.1 ≠ b.1))
    (hsz : b2.length + 4 < 2 ^ 32) :
    builder.length ≤ off ∧ off + 8 ≤ b2.length ∧ (∃ E, b2 = builder ++ E) ∧
      ∃ m2, (∀ ext2, mapRep (b2 ++ ext2) off depth m2) ∧
        m2.Pairwise (fun a b => a.1 ≠ b.1) ∧
        (∀ kv, kv ∈ m2 ↔ kv ∈ entries) := by
  cases entries with
  | nil =>
    rw [show buildMapNodeFromEntries [] depth = .leaf [] from rfl,
      show maxDepth32 + 2 = maxDepth32 + 1 + 1 from rfl] at h
    obtain ⟨g1, g2, gE, m2, hrep, hpw, hmem⟩ :=
      leafList_rep (maxDepth32 + 1) builder off b2 depth [] h (fun e he => by cases he) rfl hsz
    exact ⟨g1, g2, gE, m2, hrep, hpw, fun kv => by
      rw [hmem kv]
      simp⟩
  | cons p ps =>
    rw [show buildMapNodeFromEntries (p :: ps) depth =
      buildMapNode (maxDepth32 + 1) ((p :: ps).map fun kv => ⟨kv.1, kv.2, XXH32 kv.1 0⟩)
        depth from rfl,
      show maxDepth32 + 2 = maxDepth32 + 1 + 1 from rfl] at h
    obtain ⟨g1, g2, gE, m2, hrep, hpw, hmem⟩ :=
      encodeMapNode_rep (maxDepth32 + 1) ((p :: ps).map fun kv => ⟨kv.1, kv.2, XXH32 kv.1 0⟩)
        depth builder off b2 h
        (fun e he => by
          rw [List.mem_map] at he
          obtain ⟨kv, hkv, rfl⟩ := he
          exact ⟨(hwf kv hkv).1, (hwf kv hkv).2, rfl⟩)
        (by
          rw [List.pairwise_map]
          exact hpair)
        (by omega) hsz
    refine ⟨g1, g2, gE, m2, hrep, hpw, fun kv => ?_⟩
    rw [hmem kv, List.map_map]
    rw [show ((fun e : mapEntry => (e.Key, e.Val)) ∘ fun kv : Bytes × Value =>
      (⟨kv.1, kv.2, XXH32 kv.1 0⟩ : mapEntry)) = (fun kv => (kv.1, kv.2)) from rfl]
    constructor
    · intro hx
      rw [List.mem_map] at hx
      obtain ⟨kv2, hkv2, rfl⟩ := hx
      exact hkv2
    · intro hx
      rw [List.mem_map]
      exact ⟨kv, hx, rfl⟩

/-! ## Association-list views of the update operations -/

theorem mem_set_self_iff (m : List (Bytes × Value)) (key : Bytes) (val : Value)
    (hpw : m.Pairwise (fun a b => a.1 ≠ b.1)) (hmem : (key, val) ∈ m) :
    ∀ kv, kv ∈ m ↔ ((kv ∈ m ∧ kv.1 ≠ key) ∨ kv = (key, val)) := by
  intro kv
  constructor
  · intro hkv
    by_cases hk : kv.1 = key
    · right
      by_contra hne
      rw [List.pairwise_iff_getElem] at hpw
      rw [List.mem_iff_getElem] at hkv hmem
      obtain ⟨i, hi, hkvi⟩ := hkv
      obtain ⟨j, hj, hkvj⟩ := hmem
      rcases Nat.lt_trichotomy i j with hij | hij | hij
      · have := hpw i j hi hj hij
        rw [hkvi, hkvj] at this
        exact this (by rw [hk])
      · subst hij
        exact hne (by rw [← hkvi, hkvj])
      · have := hpw j i hj hi hij
        rw [hkvi, hkvj] at this
        exact this (by rw [hk])
    · left
      exact ⟨hkv, hk⟩
  · rintro (⟨hkv, _⟩ | rfl)
    · exact hkv
    · exact hmem

theorem replace_mem (entries : List (Bytes × Value)) (key : Bytes) (val : Value)
    (kv0 : Bytes × Value)
    (hfind : entries.find? (fun kv => kv.1 == key) = some kv0) :
    ∀ kv, kv ∈ entries.map (fun e => if e.1 == key then (e.1, val) else e) ↔
      ((kv ∈ entries ∧ kv.1 ≠ key) ∨ kv = (key, val)) := by
  have hkv0m : kv0 ∈ entries := List.mem_of_find?_eq_some hfind
  have hkv0k : kv0.1 = key := by
    have := List.find?_some hfind
    simpa using this
  intro kv
  rw [List.mem_map]
  constructor
  · rintro ⟨e, he, rfl⟩
    by_cases hk : (e.1 == key) = true
    · right
      rw [if_pos hk]
      have : e.1 = key := by simpa using hk
      rw [this]
    · left
      rw [if_neg hk]
      exact ⟨he, by simpa using hk⟩
  · rintro (⟨hkv, hnk⟩ | rfl)
    · refine ⟨kv, hkv, ?_⟩
      rw [if_neg (by simpa using hnk)]
    · refine ⟨kv0, hkv0m, ?_⟩
      rw [if_pos (by simpa using hkv0k), hkv0k]

theorem append_mem (entries : List (Bytes × Value)) (key : Bytes) (val : Value)
    (hfind : entries.find? (fun kv => kv.1 == key) = none) :
    ∀ kv, kv ∈ entries ++ [(key, val)] ↔
      ((kv ∈ entries ∧ kv.1 ≠ key) ∨ kv = (key, val)) := by
  rw [List.find?_eq_none] at hfind
  intro kv
  rw [List.mem_append, List.mem_singleton]
  constructor
  · rintro (hkv | rfl)
    · left
      refine ⟨hkv, ?_⟩
      have := hfind kv hkv
      simpa using this
    · right
      rfl
  · rintro (⟨hkv, _⟩ | rfl)
    · left; exact hkv
    · right; rfl

theorem branch_update_mem (depth slot : Nat) (key : Bytes) (val : Value)
    (m m2c : List (Bytes × Value))
    (hkeyslot : (XXH32 key 0 >>> (depth * 4)) &&& hamtMask = slot)
    (hm2c : ∀ kv, kv ∈ m2c ↔
      ((kv ∈ m.filter (fun kv => decide ((XXH32 kv.1 0 >>> (depth * 4)) &&& hamtMask = slot))
        ∧ kv.1 ≠ key) ∨ kv = (key, val))) :
    ∀ kv, kv ∈ (m.filter
        (fun kv => !decide ((XXH32 kv.1 0 >>> (depth * 4)) &&& hamtMask = slot)) ++ m2c) ↔
      ((kv ∈ m ∧ kv.1 ≠ key) ∨ kv = (key, val)) := by
  intro kv
  rw [List.mem_append, List.mem_filter, hm2c kv, List.mem_filter]
  constructor
  · rintro (⟨hm, hns⟩ | ⟨⟨⟨hm, _⟩, hnk⟩ | rfl⟩)
    · left
      refine ⟨hm, fun hc => ?_⟩
      rw [Bool.not_eq_eq_eq_not, Bool.not_true, decide_eq_false_iff_not] at hns
      apply hns
      rw [hc]
      exact hkeyslot
    · left; exact ⟨hm, hnk⟩
    · right; rfl
  · rintro (⟨hm, hnk⟩ | rfl)
    · by_cases hs : (XXH32 kv.1 0 >>> (depth * 4)) &&& hamtMask = slot
      · right; left
        exact ⟨⟨hm, by simp [hs]⟩, hnk⟩
      · left
        exact ⟨hm, by simp [hs]⟩
    · right; right; rfl

theorem branch_update_pairwise (depth slot : Nat)
    (m m2c : List (Bytes × Value))
    (hpw : m.Pairwise (fun a b => a.1 ≠ b.1))
    (hpw2 : m2c.Pairwise (fun a b => a.1 ≠ b.1))
    (hpure2 : ∀ kv ∈ m2c, (XXH32 kv.1 0 >>> (depth * 4)) &&& hamtMask = slot) :
    (m.filter (fun kv => !decide ((XXH32 kv.1 0 >>> (depth * 4)) &&& hamtMask = slot)) ++
      m2c).Pairwise (fun a b => a.1 ≠ b.1) := by
  rw [List.pairwise_append]
  refine ⟨hpw.filter _, hpw2, ?_⟩
  intro x hx y hy hxy
  have hxs : ¬ ((XXH32 x.1 0 >>> (depth * 4)) &&& hamtMask = slot) := by
    have := (List.mem_filter.mp hx).2
    simpa using this
  apply hxs
  rw [hxy]
  exact hpure2 y hy

theorem branch_update_filter_eq (depth slot : Nat)
    (m m2c : List (Bytes × Value))
    (hpure2 : ∀ kv ∈ m2c, (XXH32 kv.1 0 >>> (depth * 4)) &&& hamtMask = slot) :
    ((m.filter (fun kv => !decide ((XXH32 kv.1 0 >>> (depth * 4)) &&& hamtMask = slot)) ++
        m2c).filter
      (fun kv => decide ((XXH32 kv.1 0 >>> (depth * 4)) &&& hamtMask = slot))) = m2c := by
  rw [List.filter_append, List.filter_filter]
  have h1 : (m.filter fun a => decide ((XXH32 a.1 0 >>> (depth * 4)) &&& hamtMask = slot) &&
      !decide ((XXH32 a.1 0 >>> (depth * 4)) &&& hamtMask = slot)) = [] := by
    rw [List.filter_eq_nil_iff]
    intro a _
    by_cases hs : (XXH32 a.1 0 >>> (depth * 4)) &&& hamtMask = slot <;> simp [hs]
  rw [h1, List.filter_eq_self.mpr (fun a ha => by simp [hpure2 a ha]), List.nil_append]

theorem branch_update_filter_ne (depth slot s : Nat) (hne : s ≠ slot)
    (m m2c : List (Bytes × Value))
    (hpure2 : ∀ kv ∈ m2c, (XXH32 kv.1 0 >>> (depth * 4)) &&& hamtMask = slot) :
    ((m.filter (fun kv => !decide ((XXH32 kv.1 0 >>> (depth * 4)) &&& hamtMask = slot)) ++
        m2c).filter
      (fun kv => decide ((XXH32 kv.1 0 >>> (depth * 4)) &&& hamtMask = s))) =
      m.filter (fun kv => decide ((XXH32 kv.1 0 >>> (depth * 4)) &&& hamtMask = s)) := by
  rw [List.filter_append, List.filter_filter]
  have h2 : (m2c.filter fun kv =>
      decide ((XXH32 kv.1 0 >>> (depth * 4)) &&& hamtMask = s)) = [] := by
    rw [List.filter_eq_nil_iff]
    intro a ha
    rw [hpure2 a ha]
    simp
    exact fun hc => hne hc.symm
  rw [h2, List.append_nil]
  apply List.filter_congr
  intro x _
  by_cases hs : (XXH32 x.1 0 >>> (depth * 4)) &&& hamtMask = s
  · have : ¬ ((XXH32 x.1 0 >>> (depth * 4)) &&& hamtMask = slot) := by
      rw [hs]
      exact hne
    simp [hs, this]
    exact hne
  · simp [hs]

/-- `mapSet` preserves the map invariant: on success the new root
represents the old association list with `key` bound to `val`, and a
no-change result means the binding was already present. -/
theorem mapSet_rep (key : Bytes) (val : Value)
    (hkey : key.length < 2 ^ 64) (hval : ValueSized val) :
    ∀ fuel depth off doc builder r ch b2 m,
      mapSet doc fuel off key val depth builder = .ok (r, ch, b2) →
      mapRep doc off depth m →
      m.Pairwise (fun a b => a.1 ≠ b.1) →
      (∀ kv ∈ m, kv.1.length < 2 ^ 64 ∧ ValueSized kv.2) →
      (∃ ext0, builder = doc ++ ext0) →
      b2.length + 4 < 2 ^ 32 →
      (∃ ext, b2 = builder ++ ext) ∧
      r + 8 ≤ b2.length ∧
      (ch = false → r = off ∧ b2 = builder ∧ (key, val) ∈ m) ∧
      ∃ m2, (∀ ext2, mapRep (b2 ++ ext2) r depth m2) ∧
        m2.Pairwise (fun a b => a.1 ≠ b.1) ∧
        (∀ kv, kv ∈ m2 ↔ ((kv ∈ m ∧ kv.1 ≠ key) ∨ kv = (key, val))) := by
  intro fuel
  induction fuel with
  | zero =>
    intro depth off doc builder r ch b2 m h
    cases h
  | succ fuel ih =>
    intro depth off doc builder r ch b2 m h hrep hpw hmwf hpref hsz
    obtain ⟨ext0, hext0⟩ := hpref
    have hrep0 := hrep
    simp only [mapSet] at h
    by_cases hdg : depth > maxDepth32
    · rw [if_pos hdg] at h
      cases h
    · rw [if_neg hdg] at h
      cases hrep with
      | leaf off depth hd node entries hslice hkt hkind hparse hwfL =>
        simp only [hslice] at h
        rw [if_neg (by simp [hkt]), if_pos hkind] at h
        simp only [hparse] at h
        have hofflen : off + 8 ≤ doc.length := mapRep_off doc off depth m hrep0
        cases hfind : m.find? (fun kv => kv.1 == key) with
        | some kv0 =>
          have hkv0m : kv0 ∈ m := List.mem_of_find?_eq_some hfind
          have hkv0k : kv0.1 = key := by
            have := List.find?_some hfind
            simpa using this
          simp only [hfind] at h
          by_cases heq : valueEqual kv0.2 val = true
          · rw [if_pos heq] at h
            injection h with h1
            have hr : off = r := congrArg (fun t => t.1) h1
            have hch : false = ch := congrArg (fun t => t.2.1) h1
            have hb : builder = b2 := congrArg (fun t => t.2.2) h1
            have hkvv : kv0 = (key, val) := by
              have hv : kv0.2 = val := (valueEqual_iff kv0.2 val).mp heq
              cases kv0
              simp at hkv0k hv
              rw [hkv0k, hv]
            have hmemk : (key, val) ∈ m := by rw [← hkvv]; exact hkv0m
            refine ⟨⟨[], by rw [← hb, List.append_nil]⟩, ?_, ?_, m, ?_, hpw, ?_⟩
            · rw [← hr, ← hb, hext0]
              simp
              omega
            · intro _
              exact ⟨hr.symm, hb.symm, hmemk⟩
            · intro ext2
              rw [← hb, hext0, List.append_assoc, ← hr]
              exact mapRep_append doc (ext0 ++ ext2) off depth m hrep0
            · exact mem_set_self_iff m key val hpw hmemk
          · rw [if_neg heq] at h
            cases henc : encodeMapNode (maxDepth32 + 2) builder
                (buildMapNodeFromEntries
                  (m.map fun e => if e.1 == key then (e.1, val) else e) depth) with
            | error e => rw [henc] at h; cases h
            | ok p =>
              obtain ⟨newOff, builder2⟩ := p
              rw [henc] at h
              simp only [] at h
              injection h with h1
              have hr : newOff = r := congrArg (fun t => t.1) h1
              have hch : true = ch := congrArg (fun t => t.2.1) h1
              have hb : builder2 = b2 := congrArg (fun t => t.2.2) h1
              obtain ⟨hg1, hg2, ⟨E, hE⟩, m2, hrep2, hpw2, hmem2⟩ :=
                encodeFromEntries_rep builder
                  (m.map fun e => if e.1 == key then (e.1, val) else e) depth
                  newOff builder2 henc
                  (fun kv hkv => by
                    rw [List.mem_map] at hkv
                    obtain ⟨e, he, rfl⟩ := hkv
                    by_cases hk : (e.1 == key) = true
                    · rw [if_pos hk]
                      exact ⟨(hwfL e he).1, hval⟩
                    · rw [if_neg hk]
                      exact hwfL e he)
                  (by
                    rw [List.pairwise_map]
                    refine hpw.imp ?_
                    intro a b hab
                    by_cases ha : (a.1 == key) = true
                    · by_cases hb2 : (b.1 == key) = true
                      · rw [if_pos ha, if_pos hb2]
                        exact hab
                      · rw [if_pos ha, if_neg hb2]
                        exact hab
                    · by_cases hb2 : (b.1 == key) = true
                      · rw [if_neg ha, if_pos hb2]
                        exact hab
                      · rw [if_neg ha, if_neg hb2]
                        exact hab)
                  (by rw [← hb] at hsz; exact hsz)
              refine ⟨⟨E, by rw [← hb]; exact hE⟩, by rw [← hr, ← hb]; exact hg2, ?_,
                m2, ?_, hpw2, ?_⟩
              · intro hc
                rw [← hch] at hc
                cases hc
              · intro ext2
                rw [← hb, ← hr]
                exact hrep2 ext2
              · intro kv
                rw [hmem2 kv]
                exact replace_mem m key val kv0 hfind kv
        | none =>
          simp only [hfind] at h
          cases henc : encodeMapNode (maxDepth32 + 2) builder
              (buildMapNodeFromEntries (m ++ [(key, val)]) depth) with
          | error e => rw [henc] at h; cases h
          | ok p =>
            obtain ⟨newOff, builder2⟩ := p
            rw [henc] at h
            simp only [] at h
            injection h with h1
            have hr : newOff = r := congrArg (fun t => t.1) h1
            have hch : true = ch := congrArg (fun t => t.2.1) h1
            have hb : builder2 = b2 := congrArg (fun t => t.2.2) h1
            have hnk : ∀ kv ∈ m, kv.1 ≠ key := by
              intro kv hkv
              have := List.find?_eq_none.mp hfind kv hkv
              simpa using this
            obtain ⟨hg1, hg2, ⟨E, hE⟩, m2, hrep2, hpw2, hmem2⟩ :=
              encodeFromEntries_rep builder (m ++ [(key, val)]) depth
                newOff builder2 henc
                (fun kv hkv => by
                  rw [List.mem_append, List.mem_singleton] at hkv
                  rcases hkv with hkv | rfl
                  · exact hwfL kv hkv
                  · exact ⟨hkey, hval⟩)
                (by
                  rw [List.pairwise_append]
                  refine ⟨hpw, List.pairwise_singleton _ _, ?_⟩
                  intro x hx y hy
                  rw [List.mem_singleton] at hy
                  subst hy
                  exact hnk x hx)
                (by rw [← hb] at hsz; exact hsz)
            refine ⟨⟨E, by rw [← hb]; exact hE⟩, by rw [← hr, ← hb]; exact hg2, ?_,
              m2, ?_, hpw2, ?_⟩
            · intro hc
              rw [← hch] at hc
              cases hc
            · intro ext2
              rw [← hb, ← hr]
              exact hrep2 ext2
            · intro kv
              rw [hmem2 kv]
              exact append_mem m key val hfind kv
      | branch off depth hd node bitmap children m hslice hkt hkind hparse hdepth hchild hmiss
          hbm0 hfull =>
        simp only [hslice] at h
        rw [if_neg (by simp [hkt]), if_neg hkind] at h
        simp only [hparse] at h
        rw [and_shiftl_sub_one] at h
        have hofflen : off + 8 ≤ doc.length := mapRep_off doc off depth m hrep0
        obtain ⟨hbm16, hpcch, hch32⟩ := ParseMapBranchNodeV1_facts node bitmap children hparse
        have h65 : (2 : Nat) ^ 16 = 65536 := by norm_num
        have hks : (XXH32 key 0 >>> (depth * 4)) &&& hamtMask < 16 := slot_lt_16 _ _
        have hpcbit : popcount16 (bitmap % 2 ^ ((XXH32 key 0 >>> (depth * 4)) &&& hamtMask)) =
            bitCount (bitmap % 2 ^ ((XXH32 key 0 >>> (depth * 4)) &&& hamtMask)) := by
          refine popcount16_eq_bitCount _ ?_
          have := Nat.mod_le bitmap (2 ^ ((XXH32 key 0 >>> (depth * 4)) &&& hamtMask))
          omega
        have hpctot : children.length = bitCount (bitmap % 2 ^ 16) := by
          rw [hpcch, popcount16_eq_bitCount _ (by omega), Nat.mod_eq_of_lt hbm16]
        by_cases hbit : (bitmap >>> ((XXH32 key 0 >>> (depth * 4)) &&& hamtMask)) &&& 1 = 1
        · rw [if_pos hbit] at h
          rw [shiftr_and_one] at hbit
          have hchrep := hchild ((XXH32 key 0 >>> (depth * 4)) &&& hamtMask) hks hbit
          have hidxlt : popcount16
              (bitmap % 2 ^ ((XXH32 key 0 >>> (depth * 4)) &&& hamtMask)) <
              children.length := by
            rw [hpcbit, hpctot]
            exact cnt_strict bitmap _ 16 hks hbit
          cases hrec : mapSet doc fuel
              (children.getD (popcount16
                (bitmap % 2 ^ ((XXH32 key 0 >>> (depth * 4)) &&& hamtMask))) 0)
              key val (depth + 1) builder with
          | error e => rw [hrec] at h; cases h
          | ok p3 =>
            obtain ⟨newChild, changed, builder2⟩ := p3
            rw [hrec] at h
            simp only [] at h
            cases changed with
            | false =>
              rw [if_pos (by simp)] at h
              injection h with h1
              have hr : off = r := congrArg (fun t => t.1) h1
              have hch : false = ch := congrArg (fun t => t.2.1) h1
              have hb : builder2 = b2 := congrArg (fun t => t.2.2) h1
              have hszc : builder2.length + 4 < 2 ^ 32 := by rw [hb]; exact hsz
              obtain ⟨_, _, hchf, _⟩ := ih (depth + 1)
                (children.getD (popcount16
                  (bitmap % 2 ^ ((XXH32 key 0 >>> (depth * 4)) &&& hamtMask))) 0)
                doc builder newChild false builder2 _ hrec hchrep
                (hpw.filter _) (fun kv hkv => hmwf kv (List.mem_of_mem_filter hkv))
                ⟨ext0, hext0⟩ hszc
              obtain ⟨_, hb2b, hkvm⟩ := hchf rfl
              have hmemk : (key, val) ∈ m := List.mem_of_mem_filter hkvm
              refine ⟨⟨[], by rw [← hb, hb2b, List.append_nil]⟩, ?_, ?_, m, ?_, hpw, ?_⟩
              · rw [← hr, ← hb, hb2b, hext0]
                simp
                omega
              · intro _
                exact ⟨hr.symm, by rw [← hb, hb2b], hmemk⟩
              · intro ext2
                rw [← hb, hb2b, hext0, List.append_assoc, ← hr]
                exact mapRep_append doc (ext0 ++ ext2) off depth m hrep0
              · exact mem_set_self_iff m key val hpw hmemk
            | true =>
              rw [if_neg (by simp)] at h
              have hszc : builder2.length + 4 < 2 ^ 32 := by
                cases happ : appendMapBranchNode builder2 bitmap
                    (children.set (popcount16
                      (bitmap % 2 ^ ((XXH32 key 0 >>> (depth * 4)) &&& hamtMask)))
                      newChild) with
                | error e => rw [happ] at h; cases h
                | ok p4 =>
                  obtain ⟨no4, b4⟩ := p4
                  rw [happ] at h
                  simp only [] at h
                  injection h with h1
                  have hb : b4 = b2 := congrArg (fun t => t.2.2) h1
                  obtain ⟨_, e4, he4, _⟩ :=
                    appendMapBranchNode_grows builder2 bitmap _ no4 b4 happ
                  have hble : builder2.length ≤ b2.length := by
                    rw [← hb, he4]
                    simp
                  omega
              obtain ⟨⟨ext1, hext1⟩, hrc8, _, m2c, hrepC, hpwC, hmemC⟩ := ih (depth + 1)
                (children.getD (popcount16
                  (bitmap % 2 ^ ((XXH32 key 0 >>> (depth * 4)) &&& hamtMask))) 0)
                doc builder newChild true builder2 _ hrec hchrep
                (hpw.filter _) (fun kv hkv => hmwf kv (List.mem_of_mem_filter hkv))
                ⟨ext0, hext0⟩ hszc
              obtain ⟨node2, happ2, hn2len, hslice2, hparse2⟩ :=
                appendMapBranchNode_parse builder2 bitmap
                  (children.set (popcount16
                    (bitmap % 2 ^ ((XXH32 key 0 >>> (depth * 4)) &&& hamtMask))) newChild)
                  hbm16 (by rw [List.length_set]; exact hpcch)
                  (fun c hc => by
                    rcases List.mem_or_eq_of_mem_set hc with hc2 | hc2
                    · exact hch32 c hc2
                    · subst hc2
                      omega)
                  (by
                    rw [List.length_set, hpcch]
                    have := popcount16_le bitmap hbm16
                    omega)
              rw [happ2] at h
              simp only [] at h
              injection h with h1
              have hr : builder2.length = r := congrArg (fun t => t.1) h1
              have hch : true = ch := congrArg (fun t => t.2.1) h1
              have hb : builder2 ++ node2 = b2 := congrArg (fun t => t.2.2) h1
              have hpure2 : ∀ kv ∈ m2c,
                  (XXH32 kv.1 0 >>> (depth * 4)) &&& hamtMask =
                    (XXH32 key 0 >>> (depth * 4)) &&& hamtMask := by
                intro kv hkv
                rcases (hmemC kv).mp hkv with ⟨hkvf, _⟩ | rfl
                · have := (List.mem_filter.mp hkvf).2
                  simpa using this
                · rfl
              refine ⟨⟨ext1 ++ node2, by rw [← hb, hext1, List.append_assoc]⟩,
                ?_, ?_, (m.filter (fun kv => !decide ((XXH32 kv.1 0 >>> (depth * 4)) &&&
                  hamtMask = (XXH32 key 0 >>> (depth * 4)) &&& hamtMask))) ++ m2c,
                ?_, ?_, ?_⟩
              · rw [← hr, ← hb, List.length_append, hn2len, List.length_set]
                omega
              · intro hc
                rw [← hch] at hc
                cases hc
              · intro ext2
                refine mapRep.branch r depth
                  ⟨NodeBranch, KeyMap, 12 + 4 * (children.set (popcount16
                    (bitmap % 2 ^ ((XXH32 key 0 >>> (depth * 4)) &&& hamtMask)))
                    newChild).length, (children.set (popcount16
                    (bitmap % 2 ^ ((XXH32 key 0 >>> (depth * 4)) &&& hamtMask)))
                    newChild).length⟩ node2 bitmap
                  (children.set (popcount16
                    (bitmap % 2 ^ ((XXH32 key 0 >>> (depth * 4)) &&& hamtMask))) newChild)
                  _ ?_ rfl ?_ hparse2 hdepth ?_ ?_ ?_ ?_
                · rw [← hb, ← hr, List.append_assoc]
                  rw [← List.append_assoc]
                  exact hslice2 ext2
                · show NodeBranch ≠ NodeLeaf
                  decide
                · intro s hs16 hbs
                  by_cases hseq : s = (XXH32 key 0 >>> (depth * 4)) &&& hamtMask
                  · subst hseq
                    rw [getD_set_eq _ _ _ _ hidxlt,
                      branch_update_filter_eq depth _ m m2c hpure2]
                    rw [← hb, List.append_assoc]
                    exact hrepC (node2 ++ ext2)
                  · have hidxne : popcount16 (bitmap % 2 ^ s) ≠ popcount16
                        (bitmap % 2 ^ ((XXH32 key 0 >>> (depth * 4)) &&& hamtMask)) := by
                      rw [hpcbit, popcount16_eq_bitCount _ (by
                        have := Nat.mod_le bitmap (2 ^ s)
                        omega)]
                      rcases Nat.lt_trichotomy s
                          ((XXH32 key 0 >>> (depth * 4)) &&& hamtMask) with hlt | heqs | hgt
                      · exact Nat.ne_of_lt (cnt_strict bitmap s _ hlt hbs)
                      · exact absurd heqs hseq
                      · exact (Nat.ne_of_lt (cnt_strict bitmap _ s hgt hbit)).symm
                    rw [getD_set_ne _ _ _ _ _ (fun hc => hidxne hc.symm),
                      branch_update_filter_ne depth _ s hseq m m2c hpure2]
                    have hold := hchild s hs16 hbs
                    rw [← hb, List.append_assoc, hext1, hext0]
                    rw [List.append_assoc, List.append_assoc]
                    exact mapRep_append doc _ _ _ _ hold
                · intro s hs16 hbs
                  have hsne : s ≠ (XXH32 key 0 >>> (depth * 4)) &&& hamtMask := by
                    intro hc
                    rw [hc, hbit] at hbs
                    cases hbs
                  rw [branch_update_filter_ne depth _ s hsne m m2c hpure2]
                  exact hmiss s hs16 hbs
                · exact hbm0
                · intro s hs16 hbs
                  by_cases hseq : s = (XXH32 key 0 >>> (depth * 4)) &&& hamtMask
                  · subst hseq
                    rw [branch_update_filter_eq depth _ m m2c hpure2]
                    intro hnil
                    rw [hnil] at hmemC
                    have hm0 : ((key, val) : Bytes × Value) ∈ ([] : List (Bytes × Value)) :=
                      (hmemC (key, val)).mpr (Or.inr rfl)
                    cases hm0
                  · rw [branch_update_filter_ne depth _ s hseq m m2c hpure2]
                    exact hfull s hs16 hbs
              · exact branch_update_pairwise depth _ m m2c hpw hpwC hpure2
              · exact branch_update_mem depth _ key val m m2c rfl hmemC
        · rw [if_neg hbit] at h
          have hbit0 : bitmap / 2 ^ ((XXH32 key 0 >>> (depth * 4)) &&& hamtMask) % 2 = 0 := by
            rw [shiftr_and_one] at hbit
            omega
          cases henc : encodeMapNode (maxDepth32 + 2) builder
              (buildMapNodeFromEntries [(key, val)] (depth + 1)) with
          | error e => rw [henc] at h; cases h
          | ok p3 =>
            obtain ⟨newChild, builder2⟩ := p3
            rw [henc] at h
            simp only [] at h
            have hszc : builder2.length + 4 < 2 ^ 32 := by
              cases happ : appendMapBranchNode builder2
                  (bitmap ||| (1 <<< ((XXH32 key 0 >>> (depth * 4)) &&& hamtMask)))
                  (children.take (popcount16
                    (bitmap % 2 ^ ((XXH32 key 0 >>> (depth * 4)) &&& hamtMask))) ++
                    [newChild] ++ children.drop (popcount16
                    (bitmap % 2 ^ ((XXH32 key 0 >>> (depth * 4)) &&& hamtMask)))) with
              | error e => rw [happ] at h; cases h
              | ok p4 =>
                obtain ⟨no4, b4⟩ := p4
                rw [happ] at h
                simp only [] at h
                injection h with h1
                have hb : b4 = b2 := congrArg (fun t => t.2.2) h1
                obtain ⟨_, e4, he4, _⟩ := appendMapBranchNode_grows builder2 _ _ no4 b4 happ
                have hble : builder2.length ≤ b2.length := by
                  rw [← hb, he4]
                  simp
                omega
            obtain ⟨hg1, hg2, ⟨E1, hE1⟩, m2c, hrepC, hpwC, hmemC⟩ :=
              encodeFromEntries_rep builder [(key, val)] (depth + 1) newChild builder2 henc
                (fun kv hkv => by
                  rw [List.mem_singleton] at hkv
                  subst hkv
                  exact ⟨hkey, hval⟩)
                (List.pairwise_singleton _ _)
                hszc
            have hbmval : bitmap ||| (1 <<< ((XXH32 key 0 >>> (depth * 4)) &&& hamtMask)) =
                bitmap + 2 ^ ((XXH32 key 0 >>> (depth * 4)) &&& hamtMask) :=
              lor_insert _ _ hbit0
            have hbm16n : bitmap + 2 ^ ((XXH32 key 0 >>> (depth * 4)) &&& hamtMask) <
                2 ^ 16 := add_pow_lt bitmap _ 16 hbm16 hks hbit0
            have hidxle : popcount16
                (bitmap % 2 ^ ((XXH32 key 0 >>> (depth * 4)) &&& hamtMask)) ≤
                children.length := by
              rw [hpcbit, hpctot]
              exact cnt_mono bitmap _ 16 (le_of_lt hks)
            have hlen2 : (children.take (popcount16
                (bitmap % 2 ^ ((XXH32 key 0 >>> (depth * 4)) &&& hamtMask))) ++
                [newChild] ++ children.drop (popcount16
                (bitmap % 2 ^ ((XXH32 key 0 >>> (depth * 4)) &&& hamtMask)))).length =
                children.length + 1 := by
              simp [List.length_take, List.length_drop]
              omega
            have hpcn : (children.take (popcount16
                (bitmap % 2 ^ ((XXH32 key 0 >>> (depth * 4)) &&& hamtMask))) ++
                [newChild] ++ children.drop (popcount16
                (bitmap % 2 ^ ((XXH32 key 0 >>> (depth * 4)) &&& hamtMask)))).length =
                popcount16 (bitmap |||
                  (1 <<< ((XXH32 key 0 >>> (depth * 4)) &&& hamtMask))) := by
              rw [hlen2, hbmval, popcount16_eq_bitCount _ (by omega),
                ← Nat.mod_eq_of_lt hbm16n, add_pow_cnt bitmap _ hbit0 16, if_pos hks,
                ← hpctot]
            obtain ⟨node2, happ2, hn2len, hslice2, hparse2⟩ :=
              appendMapBranchNode_parse builder2
                (bitmap ||| (1 <<< ((XXH32 key 0 >>> (depth * 4)) &&& hamtMask)))
                (children.take (popcount16
                  (bitmap % 2 ^ ((XXH32 key 0 >>> (depth * 4)) &&& hamtMask))) ++
                  [newChild] ++ children.drop (popcount16
                  (bitmap % 2 ^ ((XXH32 key 0 >>> (depth * 4)) &&& hamtMask))))
                (by rw [hbmval]; exact hbm16n) hpcn
                (fun c hc => by
                  rw [List.append_assoc, List.mem_append] at hc
                  rcases hc with hc | hc
                  · exact hch32 c (List.mem_of_mem_take hc)
                  · rw [List.singleton_append, List.mem_cons] at hc
                    rcases hc with rfl | hc
                    · omega
                    · exact hch32 c (List.mem_of_mem_drop hc))
                (by
                  rw [hlen2, hpcch]
                  have := popcount16_le bitmap hbm16
                  omega)
            rw [happ2] at h
            simp only [] at h
            injection h with h1
            have hr : builder2.length = r := congrArg (fun t => t.1) h1
            have hch : true = ch := congrArg (fun t => t.2.1) h1
            have hb : builder2 ++ node2 = b2 := congrArg (fun t => t.2.2) h1
            have hpure2 : ∀ kv ∈ m2c,
                (XXH32 kv.1 0 >>> (depth * 4)) &&& hamtMask =
                  (XXH32 key 0 >>> (depth * 4)) &&& hamtMask := by
              intro kv hkv
              have := (hmemC kv).mp hkv
              rw [List.mem_singleton] at this
              subst this
              rfl
            have hfS : m.filter (fun kv => decide ((XXH32 kv.1 0 >>> (depth * 4)) &&&
                hamtMask = (XXH32 key 0 >>> (depth * 4)) &&& hamtMask)) = [] :=
              hmiss _ hks hbit0
            have hmemCs : ∀ kv, kv ∈ m2c ↔
                ((kv ∈ m.filter (fun kv => decide ((XXH32 kv.1 0 >>> (depth * 4)) &&&
                  hamtMask = (XXH32 key 0 >>> (depth * 4)) &&& hamtMask)) ∧ kv.1 ≠ key) ∨
                  kv = (key, val)) := by
              intro kv
              rw [hmemC kv, List.mem_singleton, hfS]
              simp
            refine ⟨⟨E1 ++ node2, by rw [← hb, hE1, List.append_assoc]⟩, ?_, ?_,
              (m.filter (fun kv => !decide ((XXH32 kv.1 0 >>> (depth * 4)) &&&
                hamtMask = (XXH32 key 0 >>> (depth * 4)) &&& hamtMask))) ++ m2c,
              ?_, ?_, ?_⟩
            · rw [← hr, ← hb, List.length_append, hn2len]
              omega
            · intro hc
              rw [← hch] at hc
              cases hc
            · intro ext2
              refine mapRep.branch r depth
                ⟨NodeBranch, KeyMap, 12 + 4 * (children.take (popcount16
                  (bitmap % 2 ^ ((XXH32 key 0 >>> (depth * 4)) &&& hamtMask))) ++
                  [newChild] ++ children.drop (popcount16
                  (bitmap % 2 ^ ((XXH32 key 0 >>> (depth * 4)) &&& hamtMask)))).length,
                  (children.take (popcount16
                  (bitmap % 2 ^ ((XXH32 key 0 >>> (depth * 4)) &&& hamtMask))) ++
                  [newChild] ++ children.drop (popcount16
                  (bitmap % 2 ^ ((XXH32 key 0 >>> (depth * 4)) &&& hamtMask)))).length⟩
                node2 (bitmap ||| (1 <<< ((XXH32 key 0 >>> (depth * 4)) &&& hamtMask)))
                (children.take (popcount16
                  (bitmap % 2 ^ ((XXH32 key 0 >>> (depth * 4)) &&& hamtMask))) ++
                  [newChild] ++ children.drop (popcount16
                  (bitmap % 2 ^ ((XXH32 key 0 >>> (depth * 4)) &&& hamtMask))))
                _ ?_ rfl ?_ hparse2 hdepth ?_ ?_ ?_ ?_
              · rw [← hb, ← hr, List.append_assoc]
                rw [← List.append_assoc]
                exact hslice2 ext2
              · show NodeBranch ≠ NodeLeaf
                decide
              · intro s hs16 hbs
                rw [hbmval] at hbs
                rw [add_pow_div bitmap _ hbit0 s] at hbs
                by_cases hseq : s = (XXH32 key 0 >>> (depth * 4)) &&& hamtMask
                · subst hseq
                  have hmodS : (bitmap |||
                      (1 <<< ((XXH32 key 0 >>> (depth * 4)) &&& hamtMask))) % 2 ^
                        ((XXH32 key 0 >>> (depth * 4)) &&& hamtMask) =
                      bitmap % 2 ^ ((XXH32 key 0 >>> (depth * 4)) &&& hamtMask) := by
                    rw [hbmval]
                    exact Nat.add_mod_right bitmap (2 ^ _)
                  rw [hmodS, getD_insert_eq children _ newChild 0 hidxle,
                    branch_update_filter_eq depth _ m m2c hpure2]
                  rw [← hb, List.append_assoc]
                  exact hrepC (node2 ++ ext2)
                · rw [if_neg hseq] at hbs
                  have hcnv : popcount16 ((bitmap |||
                      (1 <<< ((XXH32 key 0 >>> (depth * 4)) &&& hamtMask))) % 2 ^ s) =
                      bitCount (bitmap % 2 ^ s) +
                        if (XXH32 key 0 >>> (depth * 4)) &&& hamtMask < s then 1 else 0 := by
                    rw [hbmval, popcount16_eq_bitCount _ (by
                        have := Nat.mod_le (bitmap +
                          2 ^ ((XXH32 key 0 >>> (depth * 4)) &&& hamtMask)) (2 ^ s)
                        omega),
                      add_pow_cnt bitmap _ hbit0 s]
                  have hpcs : popcount16 (bitmap % 2 ^ s) = bitCount (bitmap % 2 ^ s) := by
                    refine popcount16_eq_bitCount _ ?_
                    have := Nat.mod_le bitmap (2 ^ s)
                    omega
                  have hold := hchild s hs16 hbs
                  have hlift : ∀ x, mapRep doc x (depth + 1)
                      (m.filter fun kv => decide ((XXH32 kv.1 0 >>> (depth * 4)) &&&
                        hamtMask = s)) →
                      mapRep (b2 ++ ext2) x (depth + 1)
                        (m.filter fun kv => decide ((XXH32 kv.1 0 >>> (depth * 4)) &&&
                          hamtMask = s)) := by
                    intro x hx
                    rw [← hb, hE1, hext0, List.append_assoc, List.append_assoc,
                      List.append_assoc]
                    exact mapRep_append doc _ _ _ _ hx
                  rcases Nat.lt_or_ge s ((XXH32 key 0 >>> (depth * 4)) &&& hamtMask)
                      with hlt | hge
                  · have hcnv2 : popcount16 ((bitmap |||
                        (1 <<< ((XXH32 key 0 >>> (depth * 4)) &&& hamtMask))) % 2 ^ s) =
                        popcount16 (bitmap % 2 ^ s) := by
                      rw [hcnv, if_neg (by omega), hpcs]
                      omega
                    have hjlt : popcount16 (bitmap % 2 ^ s) < popcount16
                        (bitmap % 2 ^ ((XXH32 key 0 >>> (depth * 4)) &&& hamtMask)) := by
                      rw [hpcs, hpcbit]
                      exact cnt_strict bitmap s _ hlt hbs
                    rw [hcnv2, getD_insert_lt children _ _ newChild 0 hjlt hidxle,
                      branch_update_filter_ne depth _ s hseq m m2c hpure2]
                    exact hlift _ hold
                  · have hgt : (XXH32 key 0 >>> (depth * 4)) &&& hamtMask < s := by
                      rcases Nat.lt_or_ge ((XXH32 key 0 >>> (depth * 4)) &&& hamtMask) s
                          with h1 | h1
                      · exact h1
                      · exfalso
                        exact hseq (by omega)
                    have hcnv2 : popcount16 ((bitmap |||
                        (1 <<< ((XXH32 key 0 >>> (depth * 4)) &&& hamtMask))) % 2 ^ s) =
                        popcount16 (bitmap % 2 ^ s) + 1 := by
                      rw [hcnv, if_pos hgt, hpcs]
                    have hjge : popcount16
                        (bitmap % 2 ^ ((XXH32 key 0 >>> (depth * 4)) &&& hamtMask)) ≤
                        popcount16 (bitmap % 2 ^ s) := by
                      rw [hpcs, hpcbit]
                      exact cnt_mono bitmap _ s (le_of_lt hgt)
                    rw [hcnv2, getD_insert_gt children _ _ newChild 0 hjge hidxle,
                      branch_update_filter_ne depth _ s hseq m m2c hpure2]
                    exact hlift _ hold
              · intro s hs16 hbs
                rw [hbmval, add_pow_div bitmap _ hbit0 s] at hbs
                by_cases hseq : s = (XXH32 key 0 >>> (depth * 4)) &&& hamtMask
                · rw [if_pos hseq] at hbs
                  cases hbs
                · rw [if_neg hseq] at hbs
                  rw [branch_update_filter_ne depth _ s hseq m m2c hpure2]
                  exact hmiss s hs16 hbs
              · rw [hbmval]
                have hp2 : 0 < 2 ^ ((XXH32 key 0 >>> (depth * 4)) &&& hamtMask) :=
                  Nat.pos_pow_of_pos _ (by norm_num)
                omega
              · intro s hs16 hbs
                by_cases hseq : s = (XXH32 key 0 >>> (depth * 4)) &&& hamtMask
                · subst hseq
                  rw [branch_update_filter_eq depth _ m m2c hpure2]
                  intro hnil
                  rw [hnil] at hmemC
                  have hm0 : ((key, val) : Bytes × Value) ∈ ([] : List (Bytes × Value)) :=
                    (hmemC (key, val)).mpr (List.mem_singleton.mpr rfl)
                  cases hm0
                · rw [hbmval, add_pow_div bitmap _ hbit0 s, if_neg hseq] at hbs
                  rw [branch_update_filter_ne depth _ s hseq m m2c hpure2]
                  exact hfull s hs16 hbs
            · exact branch_update_pairwise depth _ m m2c hpw hpwC hpure2
            · exact branch_update_mem depth _ key val m m2c rfl hmemCs

/-! ## Keyed lookup facts for association lists of pairs -/

theorem find?_pair_unique (l : List (Bytes × Value)) (key : Bytes) (e : Bytes × Value)
    (hpair : l.Pairwise fun a b => a.1 ≠ b.1) (he : e ∈ l) (hk : e.1 = key) :
    l.find? (fun x => x.1 == key) = some e := by
  induction l with
  | nil => cases he
  | cons x xs ih =>
    rw [List.pairwise_cons] at hpair
    rw [List.mem_cons] at he
    rcases he with he | he
    · subst he
      rw [List.find?_cons_of_pos _ (by simp [hk])]
    · have hne : x.1 ≠ key := by
        rw [← hk]
        exact hpair.1 e he
      rw [List.find?_cons_of_neg _ (by simp [hne])]
      exact ih hpair.2 he

theorem find?_ext_pairs (l1 l2 : List (Bytes × Value)) (k : Bytes)
    (h1 : l1.Pairwise fun a b => a.1 ≠ b.1) (h2 : l2.Pairwise fun a b => a.1 ≠ b.1)
    (hmem : ∀ kv : Bytes × Value, kv.1 = k → (kv ∈ l1 ↔ kv ∈ l2)) :
    l1.find? (fun x => x.1 == k) = l2.find? (fun x => x.1 == k) := by
  cases hf : l2.find? (fun x => x.1 == k) with
  | some e =>
    have he2 : e ∈ l2 := List.mem_of_find?_eq_some hf
    have hek : e.1 = k := by
      have := List.find?_some hf
      simpa using this
    exact find?_pair_unique l1 k e h1 ((hmem e hek).mpr he2) hek
  | none =>
    rw [List.find?_eq_none] at hf ⊢
    intro x hx
    simp only [beq_iff_eq]
    intro hxk
    exact hf x ((hmem x hxk).mp hx) (by simp [hxk])

/-! ## Empty maps under the invariant -/

theorem nonzero_bit_exists (n : Nat) : ∀ bm, bm < 2 ^ n → bm ≠ 0 →
    ∃ s, s < n ∧ bm / 2 ^ s % 2 = 1 := by
  induction n with
  | zero =>
    intro bm hlt hne
    exact absurd (by omega) hne
  | succ n ih =>
    intro bm hlt hne
    by_cases hb : bm / 2 ^ n % 2 = 1
    · exact ⟨n, by omega, hb⟩
    · have hp : 0 < 2 ^ n := Nat.pos_pow_of_pos _ (by norm_num)
      have hbm : bm < 2 ^ n := by
        by_contra hge
        have hd1 : 1 ≤ bm / 2 ^ n := (Nat.one_le_div_iff hp).mpr (by omega)
        have hd2 : bm / 2 ^ n < 2 := by
          rw [Nat.div_lt_iff_lt_mul hp]
          have h3 : 2 * 2 ^ n = 2 ^ (n + 1) := by ring
          omega
        omega
      obtain ⟨s, hs, hbit⟩ := ih bm hbm hne
      exact ⟨s, by omega, hbit⟩

theorem rep_empty_leaf (doc : Bytes) (off depth : Nat)
    (hrep : mapRep doc off depth []) : mapNodeEmpty doc off = .ok true := by
  cases hrep with
  | leaf off depth h node entries hslice hkt hkind hparse hwf =>
    simp only [mapNodeEmpty, hslice]
    rw [if_neg (by simp [hkt]), if_neg (by simp [hkind])]
    simp only [hparse]
    rfl
  | branch off depth h node bitmap children m hslice hkt hkind hparse hdepth hchild hmiss
      hbm0 hfull =>
    exfalso
    obtain ⟨hbm16, _, _⟩ := ParseMapBranchNodeV1_facts node bitmap children hparse
    obtain ⟨s, hs16, hbs⟩ := nonzero_bit_exists 16 bitmap hbm16 hbm0
    exact absurd rfl (hfull s hs16 hbs)

/-! ## Update no-ops -/

theorem mapSet_noop (key : Bytes) (val : Value) :
    ∀ fuel depth off doc builder m,
      mapRep doc off depth m →
      m.Pairwise (fun a b => a.1 ≠ b.1) →
      (key, val) ∈ m →
      depth ≤ maxDepth32 →
      8 ≤ fuel + depth →
      mapSet doc fuel off key val depth builder = .ok (off, false, builder) := by
  intro fuel
  induction fuel with
  | zero =>
    intro depth off doc builder m hrep hpw hmem hdle h8
    exfalso
    have h7 : maxDepth32 = 7 := rfl
    omega
  | succ fuel ih =>
    intro depth off doc builder m hrep hpw hmem hdle h8
    simp only [mapSet]
    rw [if_neg (by omega)]
    cases hrep with
    | leaf off depth hd node entries hslice hkt hkind hparse hwfL =>
      simp only [hslice]
      rw [if_neg (by simp [hkt]), if_pos hkind]
      simp only [hparse]
      have hfind : m.find? (fun kv => kv.1 == key) = some (key, val) :=
        find?_pair_unique m key (key, val) hpw hmem rfl
      simp only [hfind]
      rw [if_pos (show valueEqual (key, val).2 val = true from valueEqual_refl val)]
    | branch off depth hd node bitmap children m hslice hkt hkind hparse hdepth hchild hmiss
        hbm0 hfull =>
      simp only [hslice]
      rw [if_neg (by simp [hkt]), if_neg hkind]
      simp only [hparse]
      rw [and_shiftl_sub_one]
      have hks : (XXH32 key 0 >>> (depth * 4)) &&& hamtMask < 16 := slot_lt_16 _ _
      have hbit1 : bitmap / 2 ^ ((XXH32 key 0 >>> (depth * 4)) &&& hamtMask) % 2 = 1 := by
        rcases Nat.mod_two_eq_zero_or_one
            (bitmap / 2 ^ ((XXH32 key 0 >>> (depth * 4)) &&& hamtMask)) with h0 | h1
        · exfalso
          have hf := hmiss _ hks h0
          have hmm : (key, val) ∈ m.filter (fun kv =>
              decide ((XXH32 kv.1 0 >>> (depth * 4)) &&& hamtMask =
                (XXH32 key 0 >>> (depth * 4)) &&& hamtMask)) := by
            rw [List.mem_filter]
            exact ⟨hmem, by simp⟩
          rw [hf] at hmm
          cases hmm
        · exact h1
      have hbit : (bitmap >>> ((XXH32 key 0 >>> (depth * 4)) &&& hamtMask)) &&& 1 = 1 := by
        rw [shiftr_and_one]
        exact hbit1
      rw [if_pos hbit]
      have hchrep := hchild _ hks hbit1
      have hmemc : (key, val) ∈ m.filter (fun kv =>
          decide ((XXH32 kv.1 0 >>> (depth * 4)) &&& hamtMask =
            (XXH32 key 0 >>> (depth * 4)) &&& hamtMask)) := by
        rw [List.mem_filter]
        exact ⟨hmem, by simp⟩
      have hrec := ih (depth + 1)
        (children.getD (popcount16
          (bitmap % 2 ^ ((XXH32 key 0 >>> (depth * 4)) &&& hamtMask))) 0)
        doc builder _ hchrep (hpw.filter _) hmemc (by omega) (by omega)
      rw [hrec]
      simp only []
      rw [if_pos (by simp)]

/-! ## Delete-path helpers -/

theorem rep_empty_leaf_conv (doc : Bytes) (off depth : Nat) (m : List (Bytes × Value))
    (hrep : mapRep doc off depth m)
    (hemp : mapNodeEmpty doc off = .ok true) : m = [] := by
  cases hrep with
  | leaf off depth h node entries hslice hkt hkind hparse hwf =>
    simp only [mapNodeEmpty, hslice] at hemp
    rw [if_neg (by simp [hkt]), if_neg (by simp [hkind])] at hemp
    simp only [hparse] at hemp
    injection hemp with h1
    have h2 : m.length = 0 := by simpa using h1
    exact List.length_eq_zero.mp h2
  | branch off depth h node bitmap children m hslice hkt hkind hparse hdepth hchild hmiss
      hbm0 hfull =>
    exfalso
    simp only [mapNodeEmpty, hslice] at hemp
    rw [if_neg (by simp [hkt]), if_pos hkind] at hemp
    injection hemp with h1
    cases h1

theorem single_bit_eq (bm s t : Nat) (hcnt : bitCount (bm % 2 ^ 16) = 1)
    (hs : s < 16) (ht : t < 16)
    (hbs : bm / 2 ^ s % 2 = 1) (hbt : bm / 2 ^ t % 2 = 1) : s = t := by
  by_contra hne
  rcases Nat.lt_or_ge s t with hlt | hge
  · have h1 := cnt_strict bm s t hlt hbs
    have h2 := cnt_strict bm t 16 ht hbt
    omega
  · have hgt : t < s := by omega
    have h1 := cnt_strict bm t s hgt hbt
    have h2 := cnt_strict bm s 16 hs hbs
    omega

theorem branch_del_mem (depth slot : Nat) (key : Bytes)
    (m m2c : List (Bytes × Value))
    (hkeyslot : (XXH32 key 0 >>> (depth * 4)) &&& hamtMask = slot)
    (hm2c : ∀ kv, kv ∈ m2c ↔
      (kv ∈ m.filter (fun kv => decide ((XXH32 kv.1 0 >>> (depth * 4)) &&& hamtMask = slot))
        ∧ kv.1 ≠ key)) :
    ∀ kv, kv ∈ (m.filter
        (fun kv => !decide ((XXH32 kv.1 0 >>> (depth * 4)) &&& hamtMask = slot)) ++ m2c) ↔
      (kv ∈ m ∧ kv.1 ≠ key) := by
  intro kv
  rw [List.mem_append, List.mem_filter, hm2c kv, List.mem_filter]
  constructor
  · rintro (⟨hm, hns⟩ | ⟨⟨hm, _⟩, hnk⟩)
    · refine ⟨hm, fun hc => ?_⟩
      rw [Bool.not_eq_eq_eq_not, Bool.not_true, decide_eq_false_iff_not] at hns
      apply hns
      rw [hc]
      exact hkeyslot
    · exact ⟨hm, hnk⟩
  · rintro ⟨hm, hnk⟩
    by_cases hs : (XXH32 kv.1 0 >>> (depth * 4)) &&& hamtMask = slot
    · right
      exact ⟨⟨hm, by simp [hs]⟩, hnk⟩
    · left
      exact ⟨hm, by simp [hs]⟩

theorem mapDel_noop (key : Bytes) :
    ∀ fuel depth off doc builder m,
      mapRep doc off depth m →
      (∀ kv ∈ m, kv.1 ≠ key) →
      depth ≤ maxDepth32 →
      8 ≤ fuel + depth →
      mapDel doc fuel off key depth builder = .ok (off, false, builder) := by
  intro fuel
  induction fuel with
  | zero =>
    intro depth off doc builder m hrep hnk hdle h8
    exfalso
    have h7 : maxDepth32 = 7 := rfl
    omega
  | succ fuel ih =>
    intro depth off doc builder m hrep hnk hdle h8
    simp only [mapDel]
    rw [if_neg (by omega)]
    cases hrep with
    | leaf off depth hd node entries hslice hkt hkind hparse hwfL =>
      simp only [hslice]
      rw [if_neg (by simp [hkt]), if_pos hkind]
      simp only [hparse]
      have hnotany : ¬ (m.any fun kv => kv.1 == key) = true := by
        intro hc
        rw [List.any_eq_true] at hc
        obtain ⟨kv, hkv, hb⟩ := hc
        exact hnk kv hkv (by simpa using hb)
      rw [if_pos hnotany]
    | branch off depth hd node bitmap children m hslice hkt hkind hparse hdepth hchild hmiss
        hbm0 hfull =>
      simp only [hslice]
      rw [if_neg (by simp [hkt]), if_neg hkind]
      simp only [hparse]
      rw [and_shiftl_sub_one]
      have hks : (XXH32 key 0 >>> (depth * 4)) &&& hamtMask < 16 := slot_lt_16 _ _
      by_cases hbit : (bitmap >>> ((XXH32 key 0 >>> (depth * 4)) &&& hamtMask)) &&& 1 = 0
      · rw [if_pos hbit]
      · rw [if_neg hbit]
        have hbit1 : bitmap / 2 ^ ((XXH32 key 0 >>> (depth * 4)) &&& hamtMask) % 2 = 1 := by
          rw [shiftr_and_one] at hbit
          omega
        have hchrep := hchild _ hks hbit1
        have hrec := ih (depth + 1)
          (children.getD (popcount16
            (bitmap % 2 ^ ((XXH32 key 0 >>> (depth * 4)) &&& hamtMask))) 0)
          doc builder _ hchrep
          (fun kv hkv => hnk kv (List.mem_of_mem_filter hkv))
          (by omega) (by omega)
        rw [hrec]
        simp only []
        rw [if_pos (by simp)]

/-- C5: `map_set` is idempotent on the root offset: once a first
`MapSetNode` of `key` to `val` on a well-formed map root has returned
root `r1` with buffer `b1`, a second identical `MapSetNode` at `r1`
returns `r1` itself, reports no change, and appends no bytes. -/
theorem C5_set_idempotent (builder : Bytes) (root : Nat) (m : List (Bytes × Value))
    (key : Bytes) (val : Value) (r1 : Nat) (ch1 : Bool) (b1 : Bytes)
    (hkey : key.length < 2 ^ 64) (hval : ValueSized val)
    (hrep : mapRep builder root 0 m)
    (hpw : m.Pairwise (fun a b => a.1 ≠ b.1))
    (hmwf : ∀ kv ∈ m, kv.1.length < 2 ^ 64 ∧ ValueSized kv.2)
    (hsz : b1.length + 4 < 2 ^ 32)
    (hset : MapSetNode builder root key val = .ok (r1, ch1, b1)) :
    MapSetNode b1 r1 key val = .ok (r1, false, b1) := by
  obtain ⟨_, _, _, m2, hrep2, hpw2, hmem2⟩ :=
    mapSet_rep key val hkey hval (maxDepth32 + 2) 0 root builder builder r1 ch1 b1 m
      hset hrep hpw hmwf ⟨[], by rw [List.append_nil]⟩ hsz
  have hrepb1 : mapRep b1 r1 0 m2 := by
    have := hrep2 []
    rwa [List.append_nil] at this
  have h7 : maxDepth32 = 7 := rfl
  exact mapSet_noop key val (maxDepth32 + 2) 0 r1 b1 b1 m2 hrepb1 hpw2
    ((hmem2 (key, val)).mpr (Or.inr rfl)) (by omega) (by omega)

/-- Witness for C5: re-setting key `[107]` to `nil` right after the
first set on an empty map root returns the same root with no change. -/
theorem C5_set_idempotent_witness :
    MapSetNode [84, 82, 79, 78, 11, 0, 0, 0, 0, 0, 0, 0,
        15, 0, 0, 0, 1, 0, 0, 0, 145, 107, 0, 0] 12 [107] .nil =
      .ok (12, false, [84, 82, 79, 78, 11, 0, 0, 0, 0, 0, 0, 0,
        15, 0, 0, 0, 1, 0, 0, 0, 145, 107, 0, 0]) :=
  C5_set_idempotent [84, 82, 79, 78, 11, 0, 0, 0, 0, 0, 0, 0] 4 [] [107] .nil
    12 true [84, 82, 79, 78, 11, 0, 0, 0, 0, 0, 0, 0,
      15, 0, 0, 0, 1, 0, 0, 0, 145, 107, 0, 0]
    (by decide) trivial
    (mapRep.leaf 4 0 ⟨NodeLeaf, KeyMap, 8, 0⟩ [11, 0, 0, 0, 0, 0, 0, 0] [] rfl rfl rfl rfl
      (by intro kv h; cases h))
    List.Pairwise.nil
    (by intro kv h; cases h)
    (by decide)
    rfl

/-- C1: after a successful `MapSetNode` of `key` to `val` on a
well-formed map root, `MapGet` on the returned buffer at the returned
root yields `some val` for `key` and agrees with a `MapGet` at the old
root on every other key. -/
theorem C1_set_then_get (builder : Bytes) (root : Nat) (m : List (Bytes × Value))
    (key : Bytes) (val : Value) (r : Nat) (ch : Bool) (b2 : Bytes)
    (hkey : key.length < 2 ^ 64) (hval : ValueSized val)
    (hrep : mapRep builder root 0 m)
    (hpw : m.Pairwise (fun a b => a.1 ≠ b.1))
    (hmwf : ∀ kv ∈ m, kv.1.length < 2 ^ 64 ∧ ValueSized kv.2)
    (hsz : b2.length + 4 < 2 ^ 32)
    (hset : MapSetNode builder root key val = .ok (r, ch, b2)) :
    MapGet b2 r key = .ok (some val) ∧
      ∀ k2, k2 ≠ key → MapGet b2 r k2 = MapGet builder root k2 := by
  have hd1 : 8 ≤ builder.length := mapRep_doclen builder root 0 m hrep
  obtain ⟨⟨ext, hext⟩, hr8, _, m2, hrep2, hpw2, hmem2⟩ :=
    mapSet_rep key val hkey hval (maxDepth32 + 2) 0 root builder builder r ch b2 m
      hset hrep hpw hmwf ⟨[], by rw [List.append_nil]⟩ hsz
  have hrepb2 : mapRep b2 r 0 m2 := by
    have := hrep2 []
    rwa [List.append_nil] at this
  have hd2 : 8 ≤ b2.length := mapRep_doclen b2 r 0 m2 hrepb2
  have hget2 : ∀ k, mapGet b2 (b2.length + 2) r k 0 =
      .ok ((m2.find? fun kv => kv.1 == k).map fun kv => kv.2) :=
    fun k => mapRep_get b2 r 0 m2 hrepb2 (b2.length + 2) k (by omega) (by omega)
  have hget1 : ∀ k, mapGet builder (builder.length + 2) root k 0 =
      .ok ((m.find? fun kv => kv.1 == k).map fun kv => kv.2) :=
    fun k => mapRep_get builder root 0 m hrep (builder.length + 2) k (by omega) (by omega)
  constructor
  · show mapGet b2 (b2.length + 2) r key 0 = _
    rw [hget2 key,
      find?_pair_unique m2 key (key, val) hpw2 ((hmem2 (key, val)).mpr (Or.inr rfl)) rfl]
    rfl
  · intro k2 hk2
    show mapGet b2 (b2.length + 2) r k2 0 = mapGet builder (builder.length + 2) root k2 0
    have hfe : (m2.find? fun kv => kv.1 == k2) = m.find? fun kv => kv.1 == k2 := by
      apply find?_ext_pairs m2 m k2 hpw2 hpw
      intro kv hkvk
      rw [hmem2 kv]
      constructor
      · rintro (⟨hm, _⟩ | rfl)
        · exact hm
        · exact absurd hkvk.symm hk2
      · intro hm
        exact Or.inl ⟨hm, fun hc => hk2 (by rw [← hkvk]; exact hc)⟩
    rw [hget2 k2, hget1 k2, hfe]

/-- Witness for C1 on the singleton update of an empty map root: the new
key reads back and another key reads as before. -/
theorem C1_set_then_get_witness :
    MapGet [84, 82, 79, 78, 11, 0, 0, 0, 0, 0, 0, 0,
        15, 0, 0, 0, 1, 0, 0, 0, 145, 107, 0, 0] 12 [107] = .ok (some .nil) ∧
      MapGet [84, 82, 79, 78, 11, 0, 0, 0, 0, 0, 0, 0,
        15, 0, 0, 0, 1, 0, 0, 0, 145, 107, 0, 0] 12 [1, 2] =
        MapGet [84, 82, 79, 78, 11, 0, 0, 0, 0, 0, 0, 0] 4 [1, 2] :=
  have hc := C1_set_then_get [84, 82, 79, 78, 11, 0, 0, 0, 0, 0, 0, 0] 4 [] [107] .nil
    12 true [84, 82, 79, 78, 11, 0, 0, 0, 0, 0, 0, 0,
      15, 0, 0, 0, 1, 0, 0, 0, 145, 107, 0, 0]
    (by decide) trivial
    (mapRep.leaf 4 0 ⟨NodeLeaf, KeyMap, 8, 0⟩ [11, 0, 0, 0, 0, 0, 0, 0] [] rfl rfl rfl rfl
      (by intro kv h; cases h))
    List.Pairwise.nil
    (by intro kv h; cases h)
    (by decide)
    rfl
  ⟨hc.1, hc.2 [1, 2] (by decide)⟩

/-- `mapDel` preserves the map invariant: on success the new root
represents the old association list with `key` removed, and a no-change
result means the key was absent. -/
theorem mapDel_rep (key : Bytes) :
    ∀ fuel depth off doc builder r ch b2 m,
      mapDel doc fuel off key depth builder = .ok (r, ch, b2) →
      mapRep doc off depth m →
      m.Pairwise (fun a b => a.1 ≠ b.1) →
      (∀ kv ∈ m, kv.1.length < 2 ^ 64 ∧ ValueSized kv.2) →
      (∃ ext0, builder = doc ++ ext0) →
      b2.length + 4 < 2 ^ 32 →
      (∃ ext, b2 = builder ++ ext) ∧
      r + 8 ≤ b2.length ∧
      (ch = false → r = off ∧ b2 = builder ∧ ∀ kv ∈ m, kv.1 ≠ key) ∧
      ∃ m2, (∀ ext2, mapRep (b2 ++ ext2) r depth m2) ∧
        m2.Pairwise (fun a b => a.1 ≠ b.1) ∧
        (∀ kv, kv ∈ m2 ↔ (kv ∈ m ∧ kv.1 ≠ key)) := by
  intro fuel
  induction fuel with
  | zero =>
    intro depth off doc builder r ch b2 m h
    cases h
  | succ fuel ih =>
    intro depth off doc builder r ch b2 m h hrep hpw hmwf hpref hsz
    obtain ⟨ext0, hext0⟩ := hpref
    have hrep0 := hrep
    simp only [mapDel] at h
    by_cases hdg : depth > maxDepth32
    · rw [if_pos hdg] at h
      cases h
    · rw [if_neg hdg] at h
      cases hrep with
      | leaf off depth hd node entries hslice hkt hkind hparse hwfL =>
        simp only [hslice] at h
        rw [if_neg (by simp [hkt]), if_pos hkind] at h
        simp only [hparse] at h
        have hofflen : off + 8 ≤ doc.length := mapRep_off doc off depth m hrep0
        by_cases hany : (m.any fun kv => kv.1 == key) = true
        · rw [if_neg (by simp [hany])] at h
          by_cases hkl : (m.filter fun kv => ¬ kv.1 == key).length = 0
          · rw [if_pos hkl] at h
            obtain ⟨eL, heL, hlL⟩ := appendMapLeafNodeSorted_grows builder []
            rw [heL] at h
            simp only [] at h
            injection h with h1
            have hr : builder.length = r := congrArg (fun t => t.1) h1
            have hch : true = ch := congrArg (fun t => t.2.1) h1
            have hb : builder ++ eL = b2 := congrArg (fun t => t.2.2) h1
            obtain ⟨_, _, hrepL⟩ := leaf_rep builder [] r b2 depth
              (by rw [heL, hr, hb]) (by intro kv hkv; cases hkv) rfl hsz
            have hallk : ∀ kv ∈ m, kv.1 = key := by
              intro kv hkv
              by_contra hc
              have hmem : kv ∈ m.filter fun kv2 => ¬ kv2.1 == key := by
                rw [List.mem_filter]
                exact ⟨hkv, by simp [hc]⟩
              rw [List.length_eq_zero.mp hkl] at hmem
              cases hmem
            refine ⟨⟨eL, hb.symm⟩, ?_, ?_, [], hrepL, List.Pairwise.nil, ?_⟩
            · rw [← hr, ← hb, List.length_append]
              omega
            · intro hc
              rw [← hch] at hc
              cases hc
            · intro kv
              constructor
              · intro hkv
                cases hkv
              · rintro ⟨hkv, hnk⟩
                exact absurd (hallk kv hkv) hnk
          · rw [if_neg hkl] at h
            cases henc : encodeMapNode (maxDepth32 + 2) builder
                (buildMapNodeFromEntries (m.filter fun kv => ¬ kv.1 == key) depth) with
            | error e => rw [henc] at h; cases h
            | ok p =>
              obtain ⟨newOff, builder2⟩ := p
              rw [henc] at h
              simp only [] at h
              injection h with h1
              have hr : newOff = r := congrArg (fun t => t.1) h1
              have hch : true = ch := congrArg (fun t => t.2.1) h1
              have hb : builder2 = b2 := congrArg (fun t => t.2.2) h1
              obtain ⟨hg1, hg2, ⟨E, hE⟩, m2, hrep2, hpw2, hmem2⟩ :=
                encodeFromEntries_rep builder (m.filter fun kv => ¬ kv.1 == key) depth
                  newOff builder2 henc
                  (fun kv hkv => hwfL kv (List.mem_of_mem_filter hkv))
                  (hpw.filter _)
                  (by rw [← hb] at hsz; exact hsz)
              refine ⟨⟨E, by rw [← hb]; exact hE⟩, by rw [← hr, ← hb]; exact hg2, ?_,
                m2, ?_, hpw2, ?_⟩
              · intro hc
                rw [← hch] at hc
                cases hc
              · intro ext2
                rw [← hb, ← hr]
                exact hrep2 ext2
              · intro kv
                rw [hmem2 kv, List.mem_filter]
                constructor
                · rintro ⟨hkv, hnb⟩
                  exact ⟨hkv, by simpa using hnb⟩
                · rintro ⟨hkv, hnk⟩
                  exact ⟨hkv, by simpa using hnk⟩
        · rw [if_pos (by simpa using hany)] at h
          injection h with h1
          have hr : off = r := congrArg (fun t => t.1) h1
          have hch : false = ch := congrArg (fun t => t.2.1) h1
          have hb : builder = b2 := congrArg (fun t => t.2.2) h1
          have hnk : ∀ kv ∈ m, kv.1 ≠ key := by
            intro kv hkv hc
            exact hany (List.any_eq_true.mpr ⟨kv, hkv, by simp [hc]⟩)
          refine ⟨⟨[], by rw [← hb, List.append_nil]⟩, ?_, ?_, m, ?_, hpw, ?_⟩
          · rw [← hr, ← hb, hext0]
            simp
            omega
          · intro _
            exact ⟨hr.symm, hb.symm, hnk⟩
          · intro ext2
            rw [← hb, hext0, List.append_assoc, ← hr]
            exact mapRep_append doc (ext0 ++ ext2) off depth m hrep0
          · intro kv
            exact ⟨fun hkv => ⟨hkv, hnk kv hkv⟩, fun hkv => hkv.1⟩
      | branch off depth hd node bitmap children m hslice hkt hkind hparse hdepth hchild hmiss
          hbm0 hfull =>
        simp only [hslice] at h
        rw [if_neg (by simp [hkt]), if_neg hkind] at h
        simp only [hparse] at h
        rw [and_shiftl_sub_one] at h
        have hofflen : off + 8 ≤ doc.length := mapRep_off doc off depth m hrep0
        obtain ⟨hbm16, hpcch, hch32⟩ := ParseMapBranchNodeV1_facts node bitmap children hparse
        have h65 : (2 : Nat) ^ 16 = 65536 := by norm_num
        have hks : (XXH32 key 0 >>> (depth * 4)) &&& hamtMask < 16 := slot_lt_16 _ _
        have hpcbit : popcount16 (bitmap % 2 ^ ((XXH32 key 0 >>> (depth * 4)) &&& hamtMask)) =
            bitCount (bitmap % 2 ^ ((XXH32 key 0 >>> (depth * 4)) &&& hamtMask)) := by
          refine popcount16_eq_bitCount _ ?_
          have := Nat.mod_le bitmap (2 ^ ((XXH32 key 0 >>> (depth * 4)) &&& hamtMask))
          omega
        have hpctot : children.length = bitCount (bitmap % 2 ^ 16) := by
          rw [hpcch, popcount16_eq_bitCount _ (by omega), Nat.mod_eq_of_lt hbm16]
        by_cases hbit : (bitmap >>> ((XXH32 key 0 >>> (depth * 4)) &&& hamtMask)) &&& 1 = 0
        · rw [if_pos hbit] at h
          injection h with h1
          have hr : off = r := congrArg (fun t => t.1) h1
          have hch : false = ch := congrArg (fun t => t.2.1) h1
          have hb : builder = b2 := congrArg (fun t => t.2.2) h1
          have hbit0 : bitmap / 2 ^ ((XXH32 key 0 >>> (depth * 4)) &&& hamtMask) % 2 = 0 := by
            rw [shiftr_and_one] at hbit
            omega
          have hnk : ∀ kv ∈ m, kv.1 ≠ key := by
            intro kv hkv hc
            have hmz := hmiss _ hks hbit0
            have hmem : kv ∈ m.filter (fun kv2 =>
                decide ((XXH32 kv2.1 0 >>> (depth * 4)) &&& hamtMask = ((XXH32 key 0 >>> (depth * 4)) &&& hamtMask))) := by
              rw [List.mem_filter]
              exact ⟨hkv, by simp [hc]⟩
            rw [hmz] at hmem
            cases hmem
          refine ⟨⟨[], by rw [← hb, List.append_nil]⟩, ?_, ?_, m, ?_, hpw, ?_⟩
          · rw [← hr, ← hb, hext0]
            simp
            omega
          · intro _
            exact ⟨hr.symm, hb.symm, hnk⟩
          · intro ext2
            rw [← hb, hext0, List.append_assoc, ← hr]
            exact mapRep_append doc (ext0 ++ ext2) off depth m hrep0
          · intro kv
            exact ⟨fun hkv => ⟨hkv, hnk kv hkv⟩, fun hkv => hkv.1⟩
        · rw [if_neg hbit] at h
          have hbit1 : bitmap / 2 ^ ((XXH32 key 0 >>> (depth * 4)) &&& hamtMask) % 2 = 1 := by
            rw [shiftr_and_one] at hbit
            omega
          have hchrep := hchild _ hks hbit1
          have hidxlt : popcount16 (bitmap % 2 ^ ((XXH32 key 0 >>> (depth * 4)) &&& hamtMask)) < children.length := by
            rw [hpcbit, hpctot]
            exact cnt_strict bitmap _ 16 hks hbit1
          cases hrec : mapDel doc fuel
              (children.getD (popcount16 (bitmap % 2 ^ ((XXH32 key 0 >>> (depth * 4)) &&& hamtMask))) 0)
              key (depth + 1) builder with
          | error e => rw [hrec] at h; cases h
          | ok p3 =>
            obtain ⟨newChild, changed, builder2⟩ := p3
            rw [hrec] at h
            simp only [] at h
            cases changed with
            | false =>
              rw [if_pos (by simp)] at h
              injection h with h1
              have hr : off = r := congrArg (fun t => t.1) h1
              have hch : false = ch := congrArg (fun t => t.2.1) h1
              have hb : builder2 = b2 := congrArg (fun t => t.2.2) h1
              have hszc : builder2.length + 4 < 2 ^ 32 := by rw [hb]; exact hsz
              obtain ⟨_, _, hchf, _⟩ := ih (depth + 1)
                (children.getD (popcount16 (bitmap % 2 ^ ((XXH32 key 0 >>> (depth * 4)) &&& hamtMask))) 0)
                doc builder newChild false builder2 _ hrec hchrep
                (hpw.filter _) (fun kv hkv => hmwf kv (List.mem_of_mem_filter hkv))
                ⟨ext0, hext0⟩ hszc
              obtain ⟨_, hb2b, hnkc⟩ := hchf rfl
              have hnk : ∀ kv ∈ m, kv.1 ≠ key := by
                intro kv hkv hc
                have hkvf : kv ∈ m.filter (fun kv2 =>
                    decide ((XXH32 kv2.1 0 >>> (depth * 4)) &&& hamtMask = ((XXH32 key 0 >>> (depth * 4)) &&& hamtMask))) := by
                  rw [List.mem_filter]
                  exact ⟨hkv, by simp [hc]⟩
                exact hnkc kv hkvf hc
              refine ⟨⟨[], by rw [← hb, hb2b, List.append_nil]⟩, ?_, ?_, m, ?_, hpw, ?_⟩
              · rw [← hr, ← hb, hb2b, hext0]
                simp
                omega
              · intro _
                exact ⟨hr.symm, by rw [← hb, hb2b], hnk⟩
              · intro ext2
                rw [← hb, hb2b, hext0, List.append_assoc, ← hr]
                exact mapRep_append doc (ext0 ++ ext2) off depth m hrep0
              · intro kv
                exact ⟨fun hkv => ⟨hkv, hnk kv hkv⟩, fun hkv => hkv.1⟩
            | true =>
              rw [if_neg (by simp)] at h
              cases hemp : mapNodeEmpty builder2 newChild with
              | error e => rw [hemp] at h; cases h
              | ok empty =>
                rw [hemp] at h
                simp only [] at h
                cases empty with
                | true =>
                  rw [if_pos rfl] at h
                  by_cases hel : (children.eraseIdx (popcount16
                      (bitmap % 2 ^ ((XXH32 key 0 >>> (depth * 4)) &&& hamtMask)))).length = 0
                  · rw [if_pos hel] at h
                    obtain ⟨eL, heL, hlL⟩ := appendMapLeafNodeSorted_grows builder2 []
                    rw [heL] at h
                    simp only [] at h
                    injection h with h1
                    have hr : builder2.length = r := congrArg (fun t => t.1) h1
                    have hch : true = ch := congrArg (fun t => t.2.1) h1
                    have hb : builder2 ++ eL = b2 := congrArg (fun t => t.2.2) h1
                    have hszc : builder2.length + 4 < 2 ^ 32 := by
                      rw [← hb, List.length_append] at hsz
                      omega
                    obtain ⟨⟨ext1, hext1⟩, hrc8C, _, m2c, hrepC, hpwC, hmemC⟩ := ih (depth + 1)
                      (children.getD (popcount16 (bitmap % 2 ^ ((XXH32 key 0 >>> (depth * 4)) &&& hamtMask))) 0)
                      doc builder newChild true builder2 _ hrec hchrep
                      (hpw.filter _) (fun kv hkv => hmwf kv (List.mem_of_mem_filter hkv))
                      ⟨ext0, hext0⟩ hszc
                    have hm2cnil : m2c = [] := by
                      refine rep_empty_leaf_conv builder2 newChild (depth + 1) m2c ?_ hemp
                      have := hrepC []
                      rwa [List.append_nil] at this
                    obtain ⟨_, _, hrepL⟩ := leaf_rep builder2 [] r b2 depth
                      (by rw [heL, hr, hb]) (by intro kv hkv; cases hkv) rfl hsz
                    have hlen1 : children.length = 1 := by
                      have hei : (children.eraseIdx (popcount16
                          (bitmap % 2 ^ ((XXH32 key 0 >>> (depth * 4)) &&& hamtMask)))).length = children.length - 1 := by
                        rw [List.length_eraseIdx]
                        simp [hidxlt]
                      omega
                    have hcnt1 : bitCount (bitmap % 2 ^ 16) = 1 := by
                      rw [← hpctot]
                      exact hlen1
                    refine ⟨⟨ext1 ++ eL, by rw [← hb, hext1, List.append_assoc]⟩, ?_, ?_,
                      [], hrepL, List.Pairwise.nil, ?_⟩
                    · rw [← hr, ← hb, List.length_append]
                      omega
                    · intro hc
                      rw [← hch] at hc
                      cases hc
                    · intro kv
                      constructor
                      · intro hkv
                        cases hkv
                      · rintro ⟨hkv, hnk⟩
                        exfalso
                        have hsl : (XXH32 kv.1 0 >>> (depth * 4)) &&& hamtMask < 16 :=
                          slot_lt_16 _ _
                        have hbitkv : bitmap / 2 ^
                            ((XXH32 kv.1 0 >>> (depth * 4)) &&& hamtMask) % 2 = 1 := by
                          rcases Nat.mod_two_eq_zero_or_one (bitmap / 2 ^
                              ((XXH32 kv.1 0 >>> (depth * 4)) &&& hamtMask)) with h0 | h1
                          · exfalso
                            have hmz := hmiss _ hsl h0
                            have hmemz : kv ∈ m.filter (fun kv2 =>
                                decide ((XXH32 kv2.1 0 >>> (depth * 4)) &&& hamtMask =
                                  (XXH32 kv.1 0 >>> (depth * 4)) &&& hamtMask)) := by
                              rw [List.mem_filter]
                              exact ⟨hkv, by simp⟩
                            rw [hmz] at hmemz
                            cases hmemz
                          · exact h1
                        have hseq := single_bit_eq bitmap _ _ hcnt1 hsl hks hbitkv hbit1
                        have hkvc : kv ∈ m.filter (fun kv2 =>
                            decide ((XXH32 kv2.1 0 >>> (depth * 4)) &&& hamtMask =
                              ((XXH32 key 0 >>> (depth * 4)) &&& hamtMask))) := by
                          rw [List.mem_filter]
                          exact ⟨hkv, by simp [hseq]⟩
                        have hin := (hmemC kv).mpr ⟨hkvc, hnk⟩
                        rw [hm2cnil] at hin
                        cases hin
                  · rw [if_neg hel] at h
                    have hbmsub : bitmap &&& (65535 ^^^ (1 <<< ((XXH32 key 0 >>> (depth * 4)) &&& hamtMask))) =
                        bitmap - 2 ^ ((XXH32 key 0 >>> (depth * 4)) &&& hamtMask) :=
                      land_mask_sub bitmap _ (by omega) hks hbit1
                    rw [hbmsub] at h
                    have h2s : 2 ^ ((XXH32 key 0 >>> (depth * 4)) &&& hamtMask) ≤ bitmap := by
                      by_contra hc
                      push_neg at hc
                      rw [Nat.div_eq_of_lt hc] at hbit1
                      simp at hbit1
                    have hCb : bitmap - 2 ^ ((XXH32 key 0 >>> (depth * 4)) &&& hamtMask) + 2 ^ ((XXH32 key 0 >>> (depth * 4)) &&& hamtMask) = bitmap := by omega
                    have hb'bit : (bitmap - 2 ^ ((XXH32 key 0 >>> (depth * 4)) &&& hamtMask)) / 2 ^ ((XXH32 key 0 >>> (depth * 4)) &&& hamtMask) % 2 = 0 := by
                      have hstep : ((bitmap - 2 ^ ((XXH32 key 0 >>> (depth * 4)) &&& hamtMask)) + 2 ^ ((XXH32 key 0 >>> (depth * 4)) &&& hamtMask)) / 2 ^ ((XXH32 key 0 >>> (depth * 4)) &&& hamtMask) =
                          (bitmap - 2 ^ ((XXH32 key 0 >>> (depth * 4)) &&& hamtMask)) / 2 ^ ((XXH32 key 0 >>> (depth * 4)) &&& hamtMask) + 1 :=
                        Nat.add_div_right _ (Nat.pos_pow_of_pos _ (by norm_num))
                      rw [hCb] at hstep
                      have h9 := hbit1
                      rw [hstep] at h9
                      omega
                    have hblt : bitmap - 2 ^ ((XXH32 key 0 >>> (depth * 4)) &&& hamtMask) < 2 ^ 16 :=
                      lt_of_le_of_lt (Nat.sub_le bitmap _) hbm16
                    have hei : (children.eraseIdx (popcount16
                        (bitmap % 2 ^ ((XXH32 key 0 >>> (depth * 4)) &&& hamtMask)))).length = children.length - 1 := by
                      rw [List.length_eraseIdx]
                      simp [hidxlt]
                    have hacnt16 := add_pow_cnt (bitmap - 2 ^ ((XXH32 key 0 >>> (depth * 4)) &&& hamtMask)) _ hb'bit 16
                    rw [hCb, if_pos hks] at hacnt16
                    rw [Nat.mod_eq_of_lt hblt] at hacnt16
                    have hcnew : (children.eraseIdx (popcount16
                        (bitmap % 2 ^ ((XXH32 key 0 >>> (depth * 4)) &&& hamtMask)))).length =
                        popcount16 (bitmap - 2 ^ ((XXH32 key 0 >>> (depth * 4)) &&& hamtMask)) := by
                      rw [hei, popcount16_eq_bitCount _ (by omega)]
                      omega
                    obtain ⟨node2, happ2, hn2len, hslice2, hparse2⟩ :=
                      appendMapBranchNode_parse builder2 (bitmap - 2 ^ ((XXH32 key 0 >>> (depth * 4)) &&& hamtMask))
                        (children.eraseIdx (popcount16 (bitmap % 2 ^ ((XXH32 key 0 >>> (depth * 4)) &&& hamtMask))))
                        hblt hcnew
                        (fun c hc => hch32 c (List.mem_of_mem_eraseIdx hc))
                        (by
                          rw [hei]
                          have := popcount16_le bitmap hbm16
                          omega)
                    rw [happ2] at h
                    simp only [] at h
                    injection h with h1
                    have hr : builder2.length = r := congrArg (fun t => t.1) h1
                    have hch : true = ch := congrArg (fun t => t.2.1) h1
                    have hb : builder2 ++ node2 = b2 := congrArg (fun t => t.2.2) h1
                    have hszc : builder2.length + 4 < 2 ^ 32 := by
                      rw [← hb, List.length_append] at hsz
                      omega
                    obtain ⟨⟨ext1, hext1⟩, hrc8C, _, m2c, hrepC, hpwC, hmemC⟩ := ih (depth + 1)
                      (children.getD (popcount16 (bitmap % 2 ^ ((XXH32 key 0 >>> (depth * 4)) &&& hamtMask))) 0)
                      doc builder newChild true builder2 _ hrec hchrep
                      (hpw.filter _) (fun kv hkv => hmwf kv (List.mem_of_mem_filter hkv))
                      ⟨ext0, hext0⟩ hszc
                    have hm2cnil : m2c = [] := by
                      refine rep_empty_leaf_conv builder2 newChild (depth + 1) m2c ?_ hemp
                      have := hrepC []
                      rwa [List.append_nil] at this
                    have hpure2 : ∀ kv ∈ m2c,
                        (XXH32 kv.1 0 >>> (depth * 4)) &&& hamtMask = ((XXH32 key 0 >>> (depth * 4)) &&& hamtMask) := by
                      intro kv hkv
                      have := (List.mem_filter.mp ((hmemC kv).mp hkv).1).2
                      simpa using this
                    refine ⟨⟨ext1 ++ node2, by rw [← hb, hext1, List.append_assoc]⟩, ?_, ?_,
                      (m.filter (fun kv => !decide ((XXH32 kv.1 0 >>> (depth * 4)) &&&
                        hamtMask = ((XXH32 key 0 >>> (depth * 4)) &&& hamtMask)))) ++ m2c,
                      ?_, ?_, ?_⟩
                    · rw [← hr, ← hb, List.length_append, hn2len]
                      omega
                    · intro hc
                      rw [← hch] at hc
                      cases hc
                    · intro ext2
                      refine mapRep.branch r depth
                        ⟨NodeBranch, KeyMap, 12 + 4 * (children.eraseIdx (popcount16
                          (bitmap % 2 ^ ((XXH32 key 0 >>> (depth * 4)) &&& hamtMask)))).length,
                          (children.eraseIdx (popcount16
                          (bitmap % 2 ^ ((XXH32 key 0 >>> (depth * 4)) &&& hamtMask)))).length⟩ node2
                        (bitmap - 2 ^ ((XXH32 key 0 >>> (depth * 4)) &&& hamtMask))
                        (children.eraseIdx (popcount16 (bitmap % 2 ^ ((XXH32 key 0 >>> (depth * 4)) &&& hamtMask))))
                        _ ?_ rfl ?_ hparse2 hdepth ?_ ?_ ?_ ?_
                      · rw [← hb, ← hr, List.append_assoc]
                        rw [← List.append_assoc]
                        exact hslice2 ext2
                      · show NodeBranch ≠ NodeLeaf
                        decide
                      · intro s hs16 hbs
                        have hsne : s ≠ ((XXH32 key 0 >>> (depth * 4)) &&& hamtMask) := by
                          intro hc
                          rw [hc] at hbs
                          omega
                        have hd := add_pow_div (bitmap - 2 ^ ((XXH32 key 0 >>> (depth * 4)) &&& hamtMask)) _ hb'bit s
                        rw [hCb, if_neg hsne] at hd
                        have hbms : bitmap / 2 ^ s % 2 = 1 := by omega
                        have hold := hchild s hs16 hbms
                        rw [branch_update_filter_ne depth _ s hsne m m2c hpure2]
                        have hlift : mapRep (b2 ++ ext2)
                            (children.getD (popcount16 (bitmap % 2 ^ s)) 0) (depth + 1)
                            (m.filter fun kv => decide ((XXH32 kv.1 0 >>> (depth * 4)) &&&
                              hamtMask = s)) := by
                          rw [← hb, hext1, hext0, List.append_assoc, List.append_assoc,
                            List.append_assoc]
                          exact mapRep_append doc _ _ _ _ hold
                        rcases Nat.lt_or_ge s ((XXH32 key 0 >>> (depth * 4)) &&& hamtMask) with hlt | hge
                        · have hmod : (bitmap - 2 ^ ((XXH32 key 0 >>> (depth * 4)) &&& hamtMask)) % 2 ^ s = bitmap % 2 ^ s := by
                            conv_rhs => rw [← hCb]
                            rw [show (2 : Nat) ^ ((XXH32 key 0 >>> (depth * 4)) &&& hamtMask) = 2 ^ s * 2 ^ (((XXH32 key 0 >>> (depth * 4)) &&& hamtMask) - s) from by
                              rw [← pow_add]
                              congr 1
                              omega]
                            rw [Nat.add_mul_mod_self_left]
                          have hjlt : popcount16 (bitmap % 2 ^ s) <
                              popcount16 (bitmap % 2 ^ ((XXH32 key 0 >>> (depth * 4)) &&& hamtMask)) := by
                            rw [hpcbit, popcount16_eq_bitCount _ (by
                              have := Nat.mod_le bitmap (2 ^ s)
                              omega)]
                            exact cnt_strict bitmap s _ hlt hbms
                          rw [hmod, getD_erase_lt children _ _ 0 hjlt]
                          exact hlift
                        · have hgt : ((XXH32 key 0 >>> (depth * 4)) &&& hamtMask) < s := by
                            rcases Nat.lt_or_ge ((XXH32 key 0 >>> (depth * 4)) &&& hamtMask) s with h1 | h1
                            · exact h1
                            · exfalso
                              exact hsne (by omega)
                          have hacnt := add_pow_cnt (bitmap - 2 ^ ((XXH32 key 0 >>> (depth * 4)) &&& hamtMask)) _ hb'bit s
                          rw [hCb, if_pos hgt] at hacnt
                          have hjv : popcount16 ((bitmap - 2 ^ ((XXH32 key 0 >>> (depth * 4)) &&& hamtMask)) % 2 ^ s) + 1 =
                              popcount16 (bitmap % 2 ^ s) := by
                            rw [popcount16_eq_bitCount _ (by
                                have := Nat.mod_le (bitmap - 2 ^ ((XXH32 key 0 >>> (depth * 4)) &&& hamtMask)) (2 ^ s)
                                omega),
                              popcount16_eq_bitCount _ (by
                                have := Nat.mod_le bitmap (2 ^ s)
                                omega)]
                            omega
                          have hjge : popcount16 (bitmap % 2 ^ ((XXH32 key 0 >>> (depth * 4)) &&& hamtMask)) ≤
                              popcount16 ((bitmap - 2 ^ ((XXH32 key 0 >>> (depth * 4)) &&& hamtMask)) % 2 ^ s) := by
                            have hst := cnt_strict bitmap _ s hgt hbit1
                            rw [hpcbit, popcount16_eq_bitCount _ (by
                              have := Nat.mod_le (bitmap - 2 ^ ((XXH32 key 0 >>> (depth * 4)) &&& hamtMask)) (2 ^ s)
                              omega)]
                            omega
                          rw [getD_erase_ge children _ _ 0 hjge, hjv]
                          exact hlift
                      · intro s hs16 hbs
                        by_cases hseq : s = ((XXH32 key 0 >>> (depth * 4)) &&& hamtMask)
                        · subst hseq
                          rw [branch_update_filter_eq depth _ m m2c hpure2]
                          exact hm2cnil
                        · have hd := add_pow_div (bitmap - 2 ^ ((XXH32 key 0 >>> (depth * 4)) &&& hamtMask)) _ hb'bit s
                          rw [hCb, if_neg hseq] at hd
                          have hbms0 : bitmap / 2 ^ s % 2 = 0 := by omega
                          rw [branch_update_filter_ne depth _ s hseq m m2c hpure2]
                          exact hmiss s hs16 hbms0
                      · intro h0
                        apply hel
                        rw [hcnew, h0]
                        rfl
                      · intro s hs16 hbs
                        have hsne : s ≠ ((XXH32 key 0 >>> (depth * 4)) &&& hamtMask) := by
                          intro hc
                          rw [hc] at hbs
                          omega
                        have hd := add_pow_div (bitmap - 2 ^ ((XXH32 key 0 >>> (depth * 4)) &&& hamtMask)) _ hb'bit s
                        rw [hCb, if_neg hsne] at hd
                        have hbms : bitmap / 2 ^ s % 2 = 1 := by omega
                        rw [branch_update_filter_ne depth _ s hsne m m2c hpure2]
                        exact hfull s hs16 hbms
                    · exact branch_update_pairwise depth _ m m2c hpw hpwC hpure2
                    · exact branch_del_mem depth _ key m m2c rfl hmemC
                | false =>
                  rw [if_neg (by simp)] at h
                  have hszc : builder2.length + 4 < 2 ^ 32 := by
                    cases happ : appendMapBranchNode builder2 bitmap
                        (children.set (popcount16
                          (bitmap % 2 ^ ((XXH32 key 0 >>> (depth * 4)) &&& hamtMask))) newChild) with
                    | error e => rw [happ] at h; cases h
                    | ok p4 =>
                      obtain ⟨no4, b4⟩ := p4
                      rw [happ] at h
                      simp only [] at h
                      injection h with h1
                      have hb : b4 = b2 := congrArg (fun t => t.2.2) h1
                      obtain ⟨_, e4, he4, _⟩ :=
                        appendMapBranchNode_grows builder2 bitmap _ no4 b4 happ
                      have hble : builder2.length ≤ b2.length := by
                        rw [← hb, he4]
                        simp
                      omega
                  obtain ⟨⟨ext1, hext1⟩, hrc8C, _, m2c, hrepC, hpwC, hmemC⟩ := ih (depth + 1)
                    (children.getD (popcount16 (bitmap % 2 ^ ((XXH32 key 0 >>> (depth * 4)) &&& hamtMask))) 0)
                    doc builder newChild true builder2 _ hrec hchrep
                    (hpw.filter _) (fun kv hkv => hmwf kv (List.mem_of_mem_filter hkv))
                    ⟨ext0, hext0⟩ hszc
                  have hm2cne : m2c ≠ [] := by
                    intro h0
                    have hrn : mapRep builder2 newChild (depth + 1) m2c := by
                      have := hrepC []
                      rwa [List.append_nil] at this
                    rw [h0] at hrn
                    have hcontra := rep_empty_leaf builder2 newChild (depth + 1) hrn
                    rw [hemp] at hcontra
                    injection hcontra with hx
                    cases hx
                  have hpure2 : ∀ kv ∈ m2c,
                      (XXH32 kv.1 0 >>> (depth * 4)) &&& hamtMask = ((XXH32 key 0 >>> (depth * 4)) &&& hamtMask) := by
                    intro kv hkv
                    have := (List.mem_filter.mp ((hmemC kv).mp hkv).1).2
                    simpa using this
                  obtain ⟨node2, happ2, hn2len, hslice2, hparse2⟩ :=
                    appendMapBranchNode_parse builder2 bitmap
                      (children.set (popcount16
                        (bitmap % 2 ^ ((XXH32 key 0 >>> (depth * 4)) &&& hamtMask))) newChild)
                      hbm16 (by rw [List.length_set]; exact hpcch)
                      (fun c hc => by
                        rcases List.mem_or_eq_of_mem_set hc with hc2 | hc2
                        · exact hch32 c hc2
                        · subst hc2
                          omega)
                      (by
                        rw [List.length_set, hpcch]
                        have := popcount16_le bitmap hbm16
                        omega)
                  rw [happ2] at h
                  simp only [] at h
                  injection h with h1
                  have hr : builder2.length = r := congrArg (fun t => t.1) h1
                  have hch : true = ch := congrArg (fun t => t.2.1) h1
                  have hb : builder2 ++ node2 = b2 := congrArg (fun t => t.2.2) h1
                  refine ⟨⟨ext1 ++ node2, by rw [← hb, hext1, List.append_assoc]⟩,
                    ?_, ?_, (m.filter (fun kv => !decide ((XXH32 kv.1 0 >>> (depth * 4)) &&&
                      hamtMask = ((XXH32 key 0 >>> (depth * 4)) &&& hamtMask)))) ++ m2c,
                    ?_, ?_, ?_⟩
                  · rw [← hr, ← hb, List.length_append, hn2len, List.length_set]
                    omega
                  · intro hc
                    rw [← hch] at hc
                    cases hc
                  · intro ext2
                    refine mapRep.branch r depth
                      ⟨NodeBranch, KeyMap, 12 + 4 * (children.set (popcount16
                        (bitmap % 2 ^ ((XXH32 key 0 >>> (depth * 4)) &&& hamtMask)))
                        newChild).length, (children.set (popcount16
                        (bitmap % 2 ^ ((XXH32 key 0 >>> (depth * 4)) &&& hamtMask)))
                        newChild).length⟩ node2 bitmap
                      (children.set (popcount16
                        (bitmap % 2 ^ ((XXH32 key 0 >>> (depth * 4)) &&& hamtMask))) newChild)
                      _ ?_ rfl ?_ hparse2 hdepth ?_ ?_ ?_ ?_
                    · rw [← hb, ← hr, List.append_assoc]
                      rw [← List.append_assoc]
                      exact hslice2 ext2
                    · show NodeBranch ≠ NodeLeaf
                      decide
                    · intro s hs16 hbs
                      by_cases hseq : s = ((XXH32 key 0 >>> (depth * 4)) &&& hamtMask)
                      · subst hseq
                        rw [getD_set_eq _ _ _ _ hidxlt,
                          branch_update_filter_eq depth _ m m2c hpure2]
                        rw [← hb, List.append_assoc]
                        exact hrepC (node2 ++ ext2)
                      · have hidxne : popcount16 (bitmap % 2 ^ s) ≠ popcount16
                            (bitmap % 2 ^ ((XXH32 key 0 >>> (depth * 4)) &&& hamtMask)) := by
                          rw [hpcbit, popcount16_eq_bitCount _ (by
                            have := Nat.mod_le bitmap (2 ^ s)
                            omega)]
                          rcases Nat.lt_trichotomy s
                              ((XXH32 key 0 >>> (depth * 4)) &&& hamtMask) with hlt | heqs | hgt
                          · exact Nat.ne_of_lt (cnt_strict bitmap s _ hlt hbs)
                          · exact absurd heqs hseq
                          · exact (Nat.ne_of_lt (cnt_strict bitmap _ s hgt hbit1)).symm
                        rw [getD_set_ne _ _ _ _ _ (fun hc => hidxne hc.symm),
                          branch_update_filter_ne depth _ s hseq m m2c hpure2]
                        have hold := hchild s hs16 hbs
                        rw [← hb, List.append_assoc, hext1, hext0]
                        rw [List.append_assoc, List.append_assoc]
                        exact mapRep_append doc _ _ _ _ hold
                    · intro s hs16 hbs
                      have hsne : s ≠ ((XXH32 key 0 >>> (depth * 4)) &&& hamtMask) := by
                        intro hc
                        rw [hc, hbit1] at hbs
                        cases hbs
                      rw [branch_update_filter_ne depth _ s hsne m m2c hpure2]
                      exact hmiss s hs16 hbs
                    · exact hbm0
                    · intro s hs16 hbs
                      by_cases hseq : s = ((XXH32 key 0 >>> (depth * 4)) &&& hamtMask)
                      · subst hseq
                        rw [branch_update_filter_eq depth _ m m2c hpure2]
                        exact hm2cne
                      · rw [branch_update_filter_ne depth _ s hseq m m2c hpure2]
                        exact hfull s hs16 hbs
                  · exact branch_update_pairwise depth _ m m2c hpw hpwC hpure2
                  · exact branch_del_mem depth _ key m m2c rfl hmemC

/-- C4: `MapDelNode` on a well-formed map root yields a root at which
the key reads as absent; when the key was not present the original
root, a no-change flag and an untouched buffer come back; and when the
deletion empties the map the new root is an empty leaf. -/
theorem C4_del_then_get (builder : Bytes) (root : Nat) (m : List (Bytes × Value))
    (key : Bytes) (r : Nat) (ch : Bool) (b2 : Bytes)
    (hrep : mapRep builder root 0 m)
    (hpw : m.Pairwise (fun a b => a.1 ≠ b.1))
    (hmwf : ∀ kv ∈ m, kv.1.length < 2 ^ 64 ∧ ValueSized kv.2)
    (hsz : b2.length + 4 < 2 ^ 32)
    (hdel : MapDelNode builder root key = .ok (r, ch, b2)) :
    MapGet b2 r key = .ok none ∧
      ((∀ kv ∈ m, kv.1 ≠ key) → r = root ∧ ch = false ∧ b2 = builder) ∧
      ((∀ kv ∈ m, kv.1 = key) → mapNodeEmpty b2 r = .ok true) := by
  obtain ⟨⟨ext, hext⟩, hr8, _, m2, hrep2, hpw2, hmem2⟩ :=
    mapDel_rep key (maxDepth32 + 2) 0 root builder builder r ch b2 m
      hdel hrep hpw hmwf ⟨[], by rw [List.append_nil]⟩ hsz
  have hrepb2 : mapRep b2 r 0 m2 := by
    have := hrep2 []
    rwa [List.append_nil] at this
  have hd2 : 8 ≤ b2.length := mapRep_doclen b2 r 0 m2 hrepb2
  refine ⟨?_, ?_, ?_⟩
  · show mapGet b2 (b2.length + 2) r key 0 = _
    rw [mapRep_get b2 r 0 m2 hrepb2 (b2.length + 2) key (by omega) (by omega)]
    have hfn : (m2.find? fun kv => kv.1 == key) = none := by
      rw [List.find?_eq_none]
      intro x hx
      simp only [beq_iff_eq]
      exact ((hmem2 x).mp hx).2
    rw [hfn]
    rfl
  · intro hnk
    have h7 : maxDepth32 = 7 := rfl
    have hnoop := mapDel_noop key (maxDepth32 + 2) 0 root builder builder m hrep hnk
      (by omega) (by omega)
    rw [show MapDelNode builder root key = mapDel builder (maxDepth32 + 2) root key 0 builder
      from rfl, hnoop] at hdel
    injection hdel with h1
    exact ⟨(congrArg (fun t => t.1) h1).symm, (congrArg (fun t => t.2.1) h1).symm,
      (congrArg (fun t => t.2.2) h1).symm⟩
  · intro hallk
    have hm2nil : m2 = [] := by
      rw [List.eq_nil_iff_forall_not_mem]
      intro kv hkv
      obtain ⟨hkm, hkn⟩ := (hmem2 kv).mp hkv
      exact hkn (hallk kv hkm)
    rw [hm2nil] at hrepb2
    exact rep_empty_leaf b2 r 0 hrepb2

/-- Witness for C4 on deleting the only key of a one-entry map: the key
reads back as absent and the new root is an empty leaf. -/
theorem C4_del_then_get_witness :
    MapGet [84, 82, 79, 78, 11, 0, 0, 0, 0, 0, 0, 0, 15, 0, 0, 0, 1, 0, 0, 0, 145, 107, 0, 0,
        11, 0, 0, 0, 0, 0, 0, 0] 24 [107] = .ok none ∧
      mapNodeEmpty [84, 82, 79, 78, 11, 0, 0, 0, 0, 0, 0, 0, 15, 0, 0, 0, 1, 0, 0, 0,
        145, 107, 0, 0, 11, 0, 0, 0, 0, 0, 0, 0] 24 = .ok true :=
  have hc := C4_del_then_get [84, 82, 79, 78, 11, 0, 0, 0, 0, 0, 0, 0,
      15, 0, 0, 0, 1, 0, 0, 0, 145, 107, 0, 0] 12 [([107], .nil)] [107]
    24 true [84, 82, 79, 78, 11, 0, 0, 0, 0, 0, 0, 0, 15, 0, 0, 0, 1, 0, 0, 0, 145, 107, 0, 0,
      11, 0, 0, 0, 0, 0, 0, 0]
    (mapRep.leaf 12 0 ⟨NodeLeaf, KeyMap, 12, 1⟩ [15, 0, 0, 0, 1, 0, 0, 0, 145, 107, 0, 0]
      [([107], .nil)] rfl rfl rfl rfl
      (by
        intro kv hkv
        rw [List.mem_singleton] at hkv
        subst hkv
        exact ⟨by decide, trivial⟩))
    (List.pairwise_singleton _ _)
    (by
      intro kv hkv
      rw [List.mem_singleton] at hkv
      subst hkv
      exact ⟨by decide, trivial⟩)
    (by decide)
    rfl
  ⟨hc.1, hc.2.2 (by decide)⟩

/-! ## Append stability of the reader (V2 side) -/

theorem ParseNodeHeader_append (b ext : Bytes) (h : NodeHeader)
    (hp : ParseNodeHeader b = .ok h) : ParseNodeHeader (b ++ ext) = .ok h := by
  match b with
  | [] => simp [ParseNodeHeader] at hp
  | tag :: rest =>
    rw [show (tag :: rest) ++ ext = tag :: (rest ++ ext) from rfl]
    simp only [ParseNodeHeader] at hp ⊢
    by_cases h1 : TypeFromTagLow tag = TypeNil
    · rw [if_pos h1] at hp ⊢
      exact hp
    · rw [if_neg h1] at hp ⊢
      by_cases h2 : TypeFromTagLow tag = TypeBit
      · rw [if_pos h2] at hp ⊢
        exact hp
      · rw [if_neg h2] at hp ⊢
        by_cases h3 : TypeFromTagLow tag = TypeI64
        · rw [if_pos h3] at hp ⊢
          exact hp
        · rw [if_neg h3] at hp ⊢
          by_cases h4 : TypeFromTagLow tag = TypeF64
          · rw [if_pos h4] at hp ⊢
            exact hp
          · rw [if_neg h4] at hp ⊢
            by_cases h5 : TypeFromTagLow tag = TypeTxt ∨ TypeFromTagLow tag = TypeBin
            · rw [if_pos h5] at hp ⊢
              cases hdl : decodeLength tag rest with
              | error e => rw [hdl] at hp; cases hp
              | ok p =>
                obtain ⟨L, n⟩ := p
                rw [hdl] at hp
                rw [decodeLength_append tag rest ext L n hdl]
                exact hp
            · rw [if_neg h5] at hp ⊢
              by_cases h6 : TypeFromTagLow tag = TypeArr
              · rw [if_pos h6] at hp ⊢
                by_cases h7 : tag &&& 0x80 ≠ 0
                · rw [if_pos h7] at hp
                  cases hp
                · rw [if_neg h7] at hp ⊢
                  by_cases h8 : rest.length < ((tag >>> 4) &&& 0x03) + 1
                  · rw [if_pos h8] at hp
                    cases hp
                  · rw [if_neg h8] at hp
                    rw [if_neg (show ¬ (rest ++ ext).length < ((tag >>> 4) &&& 0x03) + 1 by
                      simp
                      omega)]
                    have hru : readUint32LE (rest ++ ext) (((tag >>> 4) &&& 0x03) + 1) =
                        readUint32LE rest (((tag >>> 4) &&& 0x03) + 1) := by
                      unfold readUint32LE
                      rw [List.take_append_of_le_length (by omega)]
                    rw [hru]
                    exact hp
              · rw [if_neg h6] at hp ⊢
                by_cases h9 : TypeFromTagLow tag = TypeMap
                · rw [if_pos h9] at hp ⊢
                  by_cases h10 : tag &&& 0xC0 ≠ 0
                  · rw [if_pos h10] at hp
                    cases hp
                  · rw [if_neg h10] at hp ⊢
                    by_cases h11 : rest.length < ((tag >>> 4) &&& 0x03) + 1
                    · rw [if_pos h11] at hp
                      cases hp
                    · rw [if_neg h11] at hp
                      rw [if_neg (show ¬ (rest ++ ext).length < ((tag >>> 4) &&& 0x03) + 1 by
                        simp
                        omega)]
                      have hru : readUint32LE (rest ++ ext) (((tag >>> 4) &&& 0x03) + 1) =
                          readUint32LE rest (((tag >>> 4) &&& 0x03) + 1) := by
                        unfold readUint32LE
                        rw [List.take_append_of_le_length (by omega)]
                      rw [hru]
                      exact hp
                · rw [if_neg h9] at hp
                  cases hp

theorem NodeSliceAt_append (b ext : Bytes) (off : Nat) (h : NodeHeader) (node : Bytes)
    (hs : NodeSliceAt b off = .ok (h, node)) :
    NodeSliceAt (b ++ ext) off = .ok (h, node) := by
  simp only [NodeSliceAt] at hs ⊢
  by_cases h1 : off ≥ b.length
  · rw [if_pos h1] at hs
    cases hs
  · rw [if_neg h1] at hs
    rw [if_neg (show ¬ off ≥ (b ++ ext).length by simp; omega)]
    rw [List.drop_append_of_le_length (by omega)]
    cases hph : ParseNodeHeader (b.drop off) with
    | error e => rw [hph] at hs; cases hs
    | ok hh =>
      simp only [hph] at hs
      simp only [ParseNodeHeader_append (b.drop off) ext hh hph]
      by_cases h2 : off + hh.NodeLen > b.length
      · rw [if_pos h2] at hs
        cases hs
      · rw [if_neg h2] at hs
        rw [if_neg (show ¬ off + hh.NodeLen > (b ++ ext).length by simp; omega)]
        rw [List.take_append_of_le_length (by simp; omega)]
        exact hs

theorem DecodeValueAt_append (b ext : Bytes) (addr : Nat) (v : Value)
    (h : DecodeValueAt b addr = .ok v) : DecodeValueAt (b ++ ext) addr = .ok v := by
  simp only [DecodeValueAt] at h ⊢
  by_cases h1 : addr ≥ b.length
  · rw [if_pos h1] at h
    cases h
  · rw [if_neg h1] at h
    rw [if_neg (show ¬ addr ≥ (b ++ ext).length by simp; omega)]
    rw [List.drop_append_of_le_length (by omega)]
    have hne : b.drop addr ≠ [] := by
      intro hc
      have := congrArg List.length hc
      simp at this
      omega
    have hhd : (b.drop addr ++ ext).headD 0 = (b.drop addr).headD 0 := by
      cases hbd : b.drop addr with
      | nil => exact absurd hbd hne
      | cons a t => rfl
    rw [hhd]
    by_cases h2 : TypeFromTagLow ((b.drop addr).headD 0) = TypeArr ∧
        (b.drop addr).headD 0 &&& 0x80 = 0
    · rw [if_pos h2] at h ⊢
      exact h
    · rw [if_neg h2] at h ⊢
      by_cases h3 : TypeFromTagLow ((b.drop addr).headD 0) = TypeMap ∧
          (b.drop addr).headD 0 &&& 0xC0 = 0
      · rw [if_pos h3] at h ⊢
        exact h
      · rw [if_neg h3] at h ⊢
        cases hdv : DecodeValue (b.drop addr) with
        | error e => rw [hdv] at h; cases h
        | ok p =>
          obtain ⟨v2, n⟩ := p
          rw [hdv] at h
          rw [DecodeValue_append (b.drop addr) ext v2 n hdv]
          exact h

theorem arrayRootLength_append (b ext : Bytes) (rootOff L : Nat)
    (h : arrayRootLength b rootOff = .ok L) :
    arrayRootLength (b ++ ext) rootOff = .ok L := by
  simp only [arrayRootLength] at h ⊢
  cases hns : NodeSliceAt b rootOff with
  | error e => rw [hns] at h; cases h
  | ok pair =>
    obtain ⟨hh, node⟩ := pair
    simp only [hns] at h
    simp only [NodeSliceAt_append b ext rootOff hh node hns]
    exact h

theorem arrGet_append (doc ext : Bytes) (index : Nat) (r : Option Value) :
    ∀ fuel off isRoot, arrGet doc fuel off index isRoot = .ok r →
      arrGet (doc ++ ext) fuel off index isRoot = .ok r := by
  intro fuel
  induction fuel with
  | zero => intro off isRoot h; cases h
  | succ fuel ih =>
    intro off isRoot h
    simp only [arrGet] at h ⊢
    cases hns : NodeSliceAt doc off with
    | error e => rw [hns] at h; cases h
    | ok pair =>
      obtain ⟨hh, node⟩ := pair
      simp only [hns] at h
      simp only [NodeSliceAt_append doc ext off hh node hns]
      by_cases hkt : hh.KeyType ≠ KeyArr
      · rw [if_pos hkt] at h
        cases h
      · rw [if_neg hkt] at h ⊢
        by_cases hkind : hh.Kind = NodeLeaf
        · rw [if_pos hkind] at h ⊢
          by_cases hroot : ¬ isRoot ∧ hh.IsRoot
          · rw [if_pos hroot] at h
            cases h
          · rw [if_neg hroot] at h ⊢
            by_cases hsmall : hh.NodeLen < 1 + hh.LenBytes + 3
            · rw [if_pos hsmall] at h
              cases h
            · rw [if_neg hsmall] at h ⊢
              by_cases hshift : (node.drop (1 + hh.LenBytes)).headD 0 ≠ 0
              · rw [if_pos hshift] at h
                cases h
              · rw [if_neg hshift] at h ⊢
                by_cases htrunc : hh.IsRoot ∧ hh.NodeLen < 1 + hh.LenBytes + 7
                · rw [if_pos htrunc] at h
                  cases h
                · rw [if_neg htrunc] at h ⊢
                  by_cases hbit : (readLE node (1 + hh.LenBytes + 1) 2 >>>
                      (index &&& 0xF)) &&& 1 = 0
                  · rw [if_pos hbit] at h ⊢
                    exact h
                  · rw [if_neg hbit] at h ⊢
                    by_cases haddr : (if hh.IsRoot then 1 + hh.LenBytes + 7 else
                        1 + hh.LenBytes + 3) + popcount16 (readLE node (1 + hh.LenBytes + 1) 2
                        &&& ((1 <<< (index &&& 0xF)) - 1)) * 4 + 4 > hh.NodeLen
                    · rw [if_pos haddr] at h
                      cases h
                    · rw [if_neg haddr] at h ⊢
                      cases hdv : DecodeValueAt doc (readLE node ((if hh.IsRoot then
                          1 + hh.LenBytes + 7 else 1 + hh.LenBytes + 3) + popcount16
                          (readLE node (1 + hh.LenBytes + 1) 2 &&&
                            ((1 <<< (index &&& 0xF)) - 1)) * 4) 4) with
                      | error e => rw [hdv] at h; cases h
                      | ok val =>
                        simp only [hdv] at h
                        simp only [DecodeValueAt_append doc ext _ val hdv]
                        exact h
        · rw [if_neg hkind] at h ⊢
          by_cases hroot : ¬ isRoot ∧ hh.IsRoot
          · rw [if_pos hroot] at h
            cases h
          · rw [if_neg hroot] at h ⊢
            by_cases hsmall : hh.NodeLen < 1 + hh.LenBytes + 3
            · rw [if_pos hsmall] at h
              cases h
            · rw [if_neg hsmall] at h ⊢
              by_cases hshift : (node.drop (1 + hh.LenBytes)).headD 0 % 4 ≠ 0
              · rw [if_pos hshift] at h
                cases h
              · rw [if_neg hshift] at h ⊢
                by_cases htrunc : hh.IsRoot ∧ hh.NodeLen < 1 + hh.LenBytes + 7
                · rw [if_pos htrunc] at h
                  cases h
                · rw [if_neg htrunc] at h ⊢
                  by_cases hbit : (readLE node (1 + hh.LenBytes + 1) 2 >>>
                      ((index >>> (node.drop (1 + hh.LenBytes)).headD 0) &&& 0xF)) &&& 1 = 0
                  · rw [if_pos hbit] at h ⊢
                    exact h
                  · rw [if_neg hbit] at h ⊢
                    by_cases hchp : (if hh.IsRoot then 1 + hh.LenBytes + 7 else
                        1 + hh.LenBytes + 3) + popcount16 (readLE node (1 + hh.LenBytes + 1) 2
                        &&& ((1 <<< ((index >>> (node.drop (1 + hh.LenBytes)).headD 0) &&&
                          0xF)) - 1)) * 4 + 4 > hh.NodeLen
                    · rw [if_pos hchp] at h
                      cases h
                    · rw [if_neg hchp] at h ⊢
                      exact ih _ _ h

theorem arrGet_fuel_mono (doc : Bytes) (index : Nat) (r : Option Value) :
    ∀ fuel fuel2 off isRoot, fuel ≤ fuel2 → arrGet doc fuel off index isRoot = .ok r →
      arrGet doc fuel2 off index isRoot = .ok r := by
  intro fuel
  induction fuel with
  | zero => intro fuel2 off isRoot _ h; cases h
  | succ fuel ih =>
    intro fuel2 off isRoot hle h
    obtain ⟨fuel3, rfl⟩ : ∃ k, fuel2 = k + 1 := ⟨fuel2 - 1, by omega⟩
    simp only [arrGet] at h ⊢
    cases hns : NodeSliceAt doc off with
    | error e => rw [hns] at h; cases h
    | ok pair =>
      obtain ⟨hh, node⟩ := pair
      simp only [hns] at h ⊢
      by_cases hkt : hh.KeyType ≠ KeyArr
      · rw [if_pos hkt] at h
        cases h
      · rw [if_neg hkt] at h ⊢
        by_cases hkind : hh.Kind = NodeLeaf
        · rw [if_pos hkind] at h ⊢
          exact h
        · rw [if_neg hkind] at h ⊢
          by_cases hroot : ¬ isRoot ∧ hh.IsRoot
          · rw [if_pos hroot] at h
            cases h
          · rw [if_neg hroot] at h ⊢
            by_cases hsmall : hh.NodeLen < 1 + hh.LenBytes + 3
            · rw [if_pos hsmall] at h
              cases h
            · rw [if_neg hsmall] at h ⊢
              by_cases hshift : (node.drop (1 + hh.LenBytes)).headD 0 % 4 ≠ 0
              · rw [if_pos hshift] at h
                cases h
              · rw [if_neg hshift] at h ⊢
                by_cases htrunc : hh.IsRoot ∧ hh.NodeLen < 1 + hh.LenBytes + 7
                · rw [if_pos htrunc] at h
                  cases h
                · rw [if_neg htrunc] at h ⊢
                  by_cases hbit : (readLE node (1 + hh.LenBytes + 1) 2 >>>
                      ((index >>> (node.drop (1 + hh.LenBytes)).headD 0) &&& 0xF)) &&& 1 = 0
                  · rw [if_pos hbit] at h ⊢
                    exact h
                  · rw [if_neg hbit] at h ⊢
                    by_cases hchp : (if hh.IsRoot then 1 + hh.LenBytes + 7 else
                        1 + hh.LenBytes + 3) + popcount16 (readLE node (1 + hh.LenBytes + 1) 2
                        &&& ((1 <<< ((index >>> (node.drop (1 + hh.LenBytes)).headD 0) &&&
                          0xF)) - 1)) * 4 + 4 > hh.NodeLen
                    · rw [if_pos hchp] at h
                      cases h
                    · rw [if_neg hchp] at h ⊢
                      exact ih _ _ _ (by omega) h

theorem MapGet_append (b ext : Bytes) (rootOff : Nat) (key : Bytes) (r : Option Value)
    (h : MapGet b rootOff key = .ok r) : MapGet (b ++ ext) rootOff key = .ok r := by
  have h1 := mapGet_append b ext key r (b.length + 2) rootOff 0 h
  exact mapGet_fuel_mono (b ++ ext) key r (b.length + 2) ((b ++ ext).length + 2) rootOff 0
    (by simp) h1

theorem ArrGet_append (b ext : Bytes) (rootOff index : Nat) (r : Option Value)
    (h : ArrGet b rootOff index = .ok r) : ArrGet (b ++ ext) rootOff index = .ok r := by
  simp only [ArrGet] at h ⊢
  cases hrl : arrayRootLength b rootOff with
  | error e => rw [hrl] at h; cases h
  | ok L =>
    simp only [hrl] at h
    simp only [arrayRootLength_append b ext rootOff L hrl]
    by_cases hidx : index ≥ L
    · rw [if_pos hidx] at h
      cases h
    · rw [if_neg hidx] at h ⊢
      have h1 := arrGet_append b ext index r (b.length + 2) rootOff true h
      exact arrGet_fuel_mono (b ++ ext) index r (b.length + 2) ((b ++ ext).length + 2)
        rootOff true (by simp) h1

/-! ## Builder growth of the update paths -/

theorem appendArrayLeafNode_grows (buf : Bytes) (n : ArrayLeafNode) :
    ∃ ext : Bytes, appendArrayLeafNode buf n = .ok (buf.length, buf ++ ext) :=
  ⟨_, rfl⟩

theorem appendArrayBranchNode_grows (buf : Bytes) (n : ArrayBranchNode) :
    ∃ ext : Bytes, appendArrayBranchNode buf n = .ok (buf.length, buf ++ ext) :=
  ⟨_, rfl⟩

theorem valueAddress_grows (buf : Bytes) (v : Value) (addr : Nat) (b2 : Bytes)
    (h : valueAddress buf v = .ok (addr, b2)) : ∃ ext : Bytes, b2 = buf ++ ext := by
  cases v <;> simp only [valueAddress, AppendNode] at h <;>
    injection h with h1 <;>
    first
    | exact ⟨[], by
        rw [List.append_nil]
        exact (congrArg Prod.snd h1).symm⟩
    | exact ⟨_, (congrArg Prod.snd h1).symm⟩

theorem buildArrayPath_grows (index : Nat) (value : Value) :
    ∀ shift builder child b2,
      buildArrayPath index shift value builder = .ok (child, b2) →
      ∃ ext : Bytes, b2 = builder ++ ext := by
  intro shift
  induction shift using Nat.strong_induction_on with
  | _ shift ih =>
    intro builder child b2 h
    rw [buildArrayPath.eq_def] at h
    by_cases h1 : shift % 4 ≠ 0
    · rw [if_pos h1] at h
      cases h
    · rw [if_neg h1] at h
      by_cases h2 : shift = 0
      · rw [dif_pos h2] at h
        cases hva : valueAddress builder value with
        | error e => rw [hva] at h; cases h
        | ok p =>
          obtain ⟨addr, builder2⟩ := p
          simp only [hva] at h
          obtain ⟨e1, he1⟩ := valueAddress_grows builder value addr builder2 hva
          obtain ⟨e2, he2⟩ := appendArrayLeafNode_grows builder2
            ⟨⟨0, 0, NodeLeaf, KeyArr, false, 0⟩, 0, 1 <<< (index &&& 0xF), 0, [addr]⟩
          rw [he2] at h
          injection h with h1b
          exact ⟨e1 ++ e2, by
            rw [show b2 = builder2 ++ e2 from (congrArg Prod.snd h1b).symm, he1,
              List.append_assoc]⟩
      · rw [dif_neg h2] at h
        cases hbp : buildArrayPath index (shift - 4) value builder with
        | error e => rw [hbp] at h; cases h
        | ok p =>
          obtain ⟨child2, builder2⟩ := p
          simp only [hbp] at h
          obtain ⟨e1, he1⟩ := ih (shift - 4) (by omega) builder child2 builder2 hbp
          obtain ⟨e2, he2⟩ := appendArrayBranchNode_grows builder2
            ⟨⟨0, 0, NodeBranch, KeyArr, false, 0⟩, shift,
              1 <<< ((index >>> shift) &&& 0xF), 0, [child2]⟩
          rw [he2] at h
          injection h with h1b
          exact ⟨e1 ++ e2, by
            rw [show b2 = builder2 ++ e2 from (congrArg Prod.snd h1b).symm, he1,
              List.append_assoc]⟩

theorem cloneArrayNodeAsChild_grows (doc : Bytes) (off : Nat) (builder : Bytes)
    (r : Nat) (b2 : Bytes) (h : cloneArrayNodeAsChild doc off builder = .ok (r, b2)) :
    ∃ ext : Bytes, b2 = builder ++ ext := by
  simp only [cloneArrayNodeAsChild] at h
  cases hns : NodeSliceAt doc off with
  | error e => rw [hns] at h; cases h
  | ok pair =>
    obtain ⟨hh, node⟩ := pair
    simp only [hns] at h
    by_cases h1 : hh.KeyType ≠ KeyArr
    · rw [if_pos h1] at h
      cases h
    · rw [if_neg h1] at h
      by_cases h2 : ¬ hh.IsRoot
      · rw [if_pos h2] at h
        injection h with h1b
        exact ⟨[], by
          rw [List.append_nil]
          exact (congrArg Prod.snd h1b).symm⟩
      · rw [if_neg h2] at h
        by_cases h3 : hh.Kind = NodeLeaf
        · rw [if_pos h3] at h
          cases hpl : ParseArrayLeafNode node with
          | error e => rw [hpl] at h; cases h
          | ok leaf =>
            simp only [hpl] at h
            obtain ⟨e2, he2⟩ := appendArrayLeafNode_grows builder
              ⟨⟨0, 0, NodeLeaf, KeyArr, false, 0⟩, leaf.Shift, leaf.Bitmap, 0, leaf.ValueAddrs⟩
            rw [he2] at h
            injection h with h1b
            exact ⟨e2, (congrArg Prod.snd h1b).symm⟩
        · rw [if_neg h3] at h
          by_cases h4 : hh.Kind = NodeBranch
          · rw [if_pos h4] at h
            cases hpb : ParseArrayBranchNode node with
            | error e => rw [hpb] at h; cases h
            | ok br =>
              simp only [hpb] at h
              obtain ⟨e2, he2⟩ := appendArrayBranchNode_grows builder
                ⟨⟨0, 0, NodeBranch, KeyArr, false, 0⟩, br.Shift, br.Bitmap, 0, br.Children⟩
              rw [he2] at h
              injection h with h1b
              exact ⟨e2, (congrArg Prod.snd h1b).symm⟩
          · rw [if_neg h4] at h
            cases h

theorem ensureArrayRootLoop_grows (index length : Nat) :
    ∀ n shift builder off r b2, index >>> shift = n →
      ensureArrayRootLoop builder off index length shift = .ok (r, b2) →
      ∃ ext : Bytes, b2 = builder ++ ext := by
  intro n
  induction n using Nat.strong_induction_on with
  | _ n ih =>
    intro shift builder off r b2 hn h
    rw [ensureArrayRootLoop.eq_def] at h
    by_cases hgt : index >>> shift > 0xF
    · rw [dif_pos hgt] at h
      cases hcl : cloneArrayNodeAsChild builder off builder with
      | error e => rw [hcl] at h; cases h
      | ok p =>
        obtain ⟨childOff, builder2⟩ := p
        simp only [hcl] at h
        obtain ⟨e1, he1⟩ := cloneArrayNodeAsChild_grows builder off builder childOff
          builder2 hcl
        obtain ⟨e2, he2⟩ := appendArrayBranchNode_grows builder2
          ⟨⟨0, 0, NodeBranch, KeyArr, true, 0⟩, shift + 4, 1, length, [childOff]⟩
        rw [he2] at h
        simp only [] at h
        have hlt : index >>> (shift + 4) < n := by
          rw [← hn, Nat.shiftRight_add index shift 4,
            Nat.shiftRight_eq_div_pow (index >>> shift) 4]
          exact Nat.div_lt_self (by omega) (by norm_num)
        obtain ⟨e3, he3⟩ := ih (index >>> (shift + 4)) hlt (shift + 4) (builder2 ++ e2)
          builder2.length r b2 rfl h
        exact ⟨e1 ++ e2 ++ e3, by
          rw [he3, he1]
          simp [List.append_assoc]⟩
    · rw [dif_neg hgt] at h
      injection h with h1
      exact ⟨[], by
        rw [List.append_nil]
        exact (congrArg Prod.snd h1).symm⟩

theorem ensureArrayRoot_grows (builder : Bytes) (rootOff index length r : Nat) (b2 : Bytes)
    (h : ensureArrayRoot builder rootOff index length = .ok (r, b2)) :
    ∃ ext : Bytes, b2 = builder ++ ext := by
  simp only [ensureArrayRoot] at h
  cases hns : NodeSliceAt builder rootOff with
  | error e => rw [hns] at h; cases h
  | ok pair =>
    obtain ⟨hh, node⟩ := pair
    simp only [hns] at h
    by_cases h1 : hh.KeyType ≠ KeyArr ∨ ¬ hh.IsRoot
    · rw [if_pos h1] at h
      cases h
    · rw [if_neg h1] at h
      by_cases h2 : hh.Kind = NodeLeaf
      · rw [if_pos h2] at h
        exact ensureArrayRootLoop_grows index length (index >>> 0) 0 builder rootOff r b2 rfl h
      · rw [if_neg h2] at h
        by_cases h3 : hh.Kind = NodeBranch
        · rw [if_pos h3] at h
          cases hpb : ParseArrayBranchNode node with
          | error e => rw [hpb] at h; cases h
          | ok br =>
            simp only [hpb] at h
            exact ensureArrayRootLoop_grows index length (index >>> br.Shift) br.Shift
              builder rootOff r b2 rfl h
        · rw [if_neg h3] at h
          cases h

theorem arrSetNode_grows (doc : Bytes) (index : Nat) (value : Value) :
    ∀ fuel off builder isRoot rootLength r ch b2,
      arrSetNode doc fuel off index value builder isRoot rootLength = .ok (r, ch, b2) →
      ∃ ext : Bytes, b2 = builder ++ ext := by
  intro fuel
  induction fuel with
  | zero => intro off builder isRoot rootLength r ch b2 h; cases h
  | succ fuel ih =>
    intro off builder isRoot rootLength r ch b2 h
    simp only [arrSetNode] at h
    cases hns : NodeSliceAt doc off with
    | error e => rw [hns] at h; cases h
    | ok pair =>
      obtain ⟨hh, node⟩ := pair
      simp only [hns] at h
      by_cases hkt : hh.KeyType ≠ KeyArr
      · rw [if_pos hkt] at h
        cases h
      · rw [if_neg hkt] at h
        by_cases hkind : hh.Kind = NodeLeaf
        · rw [if_pos hkind] at h
          by_cases hroot : ¬ isRoot ∧ hh.IsRoot
          · rw [if_pos hroot] at h
            cases h
          · rw [if_neg hroot] at h
            by_cases hsmall : hh.NodeLen < 1 + hh.LenBytes + 3
            · rw [if_pos hsmall] at h
              cases h
            · rw [if_neg hsmall] at h
              by_cases hshift : (node.drop (1 + hh.LenBytes)).headD 0 ≠ 0
              · rw [if_pos hshift] at h
                cases h
              · rw [if_neg hshift] at h
                by_cases htrunc : hh.IsRoot ∧ hh.NodeLen < 1 + hh.LenBytes + 7
                · rw [if_pos htrunc] at h
                  cases h
                · rw [if_neg htrunc] at h
                  by_cases hbit : (readLE node (1 + hh.LenBytes + 1) 2 >>>
                      (index &&& 0xF)) &&& 1 = 1
                  · rw [if_pos hbit] at h
                    by_cases haddr : (if hh.IsRoot then 1 + hh.LenBytes + 7 else
                        1 + hh.LenBytes + 3) + popcount16 (readLE node (1 + hh.LenBytes + 1) 2
                        &&& ((1 <<< (index &&& 0xF)) - 1)) * 4 + 4 > hh.NodeLen
                    · rw [if_pos haddr] at h
                      cases h
                    · rw [if_neg haddr] at h
                      cases hdv : DecodeValueAt doc (readLE node ((if hh.IsRoot then
                          1 + hh.LenBytes + 7 else 1 + hh.LenBytes + 3) + popcount16
                          (readLE node (1 + hh.LenBytes + 1) 2 &&&
                            ((1 <<< (index &&& 0xF)) - 1)) * 4) 4) with
                      | error e => rw [hdv] at h; cases h
                      | ok cur =>
                        simp only [hdv] at h
                        by_cases heq : valueEqual cur value = true ∧
                            (¬ isRoot = true ∨ (if hh.IsRoot then
                              readLE node (1 + hh.LenBytes + 3) 4 else 0) = rootLength)
                        · rw [if_pos heq] at h
                          injection h with h1
                          exact ⟨[], by
                            rw [List.append_nil]
                            exact (congrArg (fun t => t.2.2) h1).symm⟩
                        · rw [if_neg heq] at h
                          cases hva : valueAddress builder value with
                          | error e => rw [hva] at h; cases h
                          | ok p2 =>
                            obtain ⟨newAddr, builder2⟩ := p2
                            simp only [hva] at h
                            obtain ⟨e1, he1⟩ := valueAddress_grows builder value newAddr
                              builder2 hva
                            obtain ⟨e2, he2⟩ := appendArrayLeafNode_grows builder2 _
                            rw [he2] at h
                            injection h with h1
                            exact ⟨e1 ++ e2, by
                              rw [show b2 = builder2 ++ e2 from
                                (congrArg (fun t => t.2.2) h1).symm, he1, List.append_assoc]⟩
                  · rw [if_neg hbit] at h
                    cases hva : valueAddress builder value with
                    | error e => rw [hva] at h; cases h
                    | ok p2 =>
                      obtain ⟨newAddr, builder2⟩ := p2
                      simp only [hva] at h
                      obtain ⟨e1, he1⟩ := valueAddress_grows builder value newAddr builder2 hva
                      obtain ⟨e2, he2⟩ := appendArrayLeafNode_grows builder2 _
                      rw [he2] at h
                      injection h with h1
                      exact ⟨e1 ++ e2, by
                        rw [show b2 = builder2 ++ e2 from
                          (congrArg (fun t => t.2.2) h1).symm, he1, List.append_assoc]⟩
        · rw [if_neg hkind] at h
          by_cases hroot : ¬ isRoot ∧ hh.IsRoot
          · rw [if_pos hroot] at h
            cases h
          · rw [if_neg hroot] at h
            by_cases hsmall : hh.NodeLen < 1 + hh.LenBytes + 3
            · rw [if_pos hsmall] at h
              cases h
            · rw [if_neg hsmall] at h
              by_cases hshift : (node.drop (1 + hh.LenBytes)).headD 0 % 4 ≠ 0
              · rw [if_pos hshift] at h
                cases h
              · rw [if_neg hshift] at h
                by_cases htrunc : hh.IsRoot ∧ hh.NodeLen < 1 + hh.LenBytes + 7
                · rw [if_pos htrunc] at h
                  cases h
                · rw [if_neg htrunc] at h
                  by_cases hcnt : hh.NodeLen < (if hh.IsRoot then 1 + hh.LenBytes + 7 else
                      1 + hh.LenBytes + 3) + 4 * popcount16 (readLE node (1 + hh.LenBytes + 1) 2)
                  · rw [if_pos hcnt] at h
                    cases h
                  · rw [if_neg hcnt] at h
                    by_cases hbit : (readLE node (1 + hh.LenBytes + 1) 2 >>>
                        ((index >>> (node.drop (1 + hh.LenBytes)).headD 0) &&& 0xF)) &&& 1 = 1
                    · rw [if_pos hbit] at h
                      cases hrec : arrSetNode doc fuel (readLE node ((if hh.IsRoot then
                          1 + hh.LenBytes + 7 else 1 + hh.LenBytes + 3) + popcount16
                          (readLE node (1 + hh.LenBytes + 1) 2 &&&
                            ((1 <<< ((index >>> (node.drop (1 + hh.LenBytes)).headD 0) &&&
                              0xF)) - 1)) * 4) 4) index value builder false 0 with
                      | error e => rw [hrec] at h; cases h
                      | ok p2 =>
                        obtain ⟨newChild, childChanged, builder2⟩ := p2
                        simp only [hrec] at h
                        obtain ⟨e1, he1⟩ := ih _ _ _ _ _ _ _ hrec
                        by_cases hnc : ¬ childChanged = true ∧
                            (¬ isRoot = true ∨ (if hh.IsRoot then
                              readLE node (1 + hh.LenBytes + 3) 4 else 0) = rootLength)
                        · rw [if_pos hnc] at h
                          injection h with h1
                          exact ⟨e1, by
                            rw [show b2 = builder2 from
                              (congrArg (fun t => t.2.2) h1).symm, he1]⟩
                        · rw [if_neg hnc] at h
                          obtain ⟨e2, he2⟩ := appendArrayBranchNode_grows builder2 _
                          rw [he2] at h
                          injection h with h1
                          exact ⟨e1 ++ e2, by
                            rw [show b2 = builder2 ++ e2 from
                              (congrArg (fun t => t.2.2) h1).symm, he1, List.append_assoc]⟩
                    · rw [if_neg hbit] at h
                      cases hbp : buildArrayPath index
                          ((node.drop (1 + hh.LenBytes)).headD 0 - 4) value builder with
                      | error e => rw [hbp] at h; cases h
                      | ok p2 =>
                        obtain ⟨child, builder2⟩ := p2
                        simp only [hbp] at h
                        obtain ⟨e1, he1⟩ := buildArrayPath_grows index value _ builder child
                          builder2 hbp
                        obtain ⟨e2, he2⟩ := appendArrayBranchNode_grows builder2 _
                        rw [he2] at h
                        injection h with h1
                        exact ⟨e1 ++ e2, by
                          rw [show b2 = builder2 ++ e2 from
                            (congrArg (fun t => t.2.2) h1).symm, he1, List.append_assoc]⟩

theorem arrSet_grows (builder : Bytes) (rootOff index : Nat) (value : Value) (length r : Nat)
    (b2 : Bytes) (h : arrSet builder rootOff index value length = .ok (r, b2)) :
    ∃ ext : Bytes, b2 = builder ++ ext := by
  simp only [arrSet] at h
  cases hen : ensureArrayRoot builder rootOff index length with
  | error e => rw [hen] at h; cases h
  | ok p =>
    obtain ⟨rootOff2, builder2⟩ := p
    simp only [hen] at h
    obtain ⟨e1, he1⟩ := ensureArrayRoot_grows builder rootOff index length rootOff2 builder2 hen
    cases hsn : arrSetNode builder2 (builder2.length + 2) rootOff2 index value builder2 true
        length with
    | error e => rw [hsn] at h; cases h
    | ok p2 =>
      obtain ⟨newRoot, ch, builder3⟩ := p2
      simp only [hsn] at h
      injection h with h1
      obtain ⟨e2, he2⟩ := arrSetNode_grows builder2 index value (builder2.length + 2)
        rootOff2 builder2 true length newRoot ch builder3 hsn
      exact ⟨e1 ++ e2, by
        rw [show b2 = builder3 from (congrArg Prod.snd h1).symm, he2, he1]
        simp [List.append_assoc]⟩

theorem mapDel_grows (doc : Bytes) (key : Bytes) :
    ∀ fuel off depth builder r ch b2,
      mapDel doc fuel off key depth builder = .ok (r, ch, b2) →
      ∃ ext : Bytes, b2 = builder ++ ext := by
  intro fuel
  induction fuel with
  | zero => intro off depth builder r ch b2 h; cases h
  | succ fuel ih =>
    intro off depth builder r ch b2 h
    simp only [mapDel] at h
    by_cases hd : depth > maxDepth32
    · rw [if_pos hd] at h
      cases h
    · rw [if_neg hd] at h
      cases hns : NodeSliceAtV1 doc off with
      | error e => rw [hns] at h; cases h
      | ok pair =>
        obtain ⟨hh, node⟩ := pair
        simp only [hns] at h
        by_cases hkt : hh.keyType ≠ KeyMap
        · rw [if_pos hkt] at h
          cases h
        · rw [if_neg hkt] at h
          by_cases hkind : hh.kind = NodeLeaf
          · rw [if_pos hkind] at h
            cases hleaf : ParseMapLeafNodeV1 node with
            | error e => rw [hleaf] at h; cases h
            | ok entries =>
              simp only [hleaf] at h
              by_cases hany : ¬ (entries.any fun kv => kv.1 == key) = true
              · rw [if_pos hany] at h
                injection h with h1
                exact ⟨[], by
                  rw [List.append_nil]
                  exact (congrArg (fun t => t.2.2) h1).symm⟩
              · rw [if_neg hany] at h
                by_cases hkl : (entries.filter fun kv => ¬ kv.1 == key).length = 0
                · rw [if_pos hkl] at h
                  obtain ⟨eL, heL, _⟩ := appendMapLeafNodeSorted_grows builder []
                  rw [heL] at h
                  simp only [] at h
                  injection h with h1
                  exact ⟨eL, (congrArg (fun t => t.2.2) h1).symm⟩
                · rw [if_neg hkl] at h
                  cases henc : encodeMapNode (maxDepth32 + 2) builder
                      (buildMapNodeFromEntries (entries.filter fun kv => ¬ kv.1 == key)
                        depth) with
                  | error e => rw [henc] at h; cases h
                  | ok p =>
                    obtain ⟨newOff, builder2⟩ := p
                    simp only [henc] at h
                    injection h with h1
                    obtain ⟨e1, he1, _⟩ := encodeMapNode_grows _ _ _ _ _ henc
                    exact ⟨e1, by
                      rw [show b2 = builder2 from (congrArg (fun t => t.2.2) h1).symm, he1]⟩
          · rw [if_neg hkind] at h
            cases hbr : ParseMapBranchNodeV1 node with
            | error e => rw [hbr] at h; cases h
            | ok p =>
              obtain ⟨bm, children⟩ := p
              simp only [hbr] at h
              by_cases hbit : (bm >>> ((XXH32 key 0 >>> (depth * 4)) &&& hamtMask)) &&& 1 = 0
              · rw [if_pos hbit] at h
                injection h with h1
                exact ⟨[], by
                  rw [List.append_nil]
                  exact (congrArg (fun t => t.2.2) h1).symm⟩
              · rw [if_neg hbit] at h
                cases hrec : mapDel doc fuel
                    (children.getD (popcount16 (bm &&&
                      ((1 <<< ((XXH32 key 0 >>> (depth * 4)) &&& hamtMask)) - 1))) 0)
                    key (depth + 1) builder with
                | error e => rw [hrec] at h; cases h
                | ok p2 =>
                  obtain ⟨newChild, changed, builder2⟩ := p2
                  simp only [hrec] at h
                  obtain ⟨e1, he1⟩ := ih _ _ _ _ _ _ hrec
                  by_cases hch : ¬ changed = true
                  · rw [if_pos hch] at h
                    injection h with h1
                    exact ⟨e1, by
                      rw [show b2 = builder2 from (congrArg (fun t => t.2.2) h1).symm, he1]⟩
                  · rw [if_neg hch] at h
                    cases hemp : mapNodeEmpty builder2 newChild with
                    | error e => rw [hemp] at h; cases h
                    | ok empty =>
                      simp only [hemp] at h
                      cases empty with
                      | true =>
                        rw [if_pos rfl] at h
                        by_cases hel : (children.eraseIdx (popcount16 (bm &&&
                            ((1 <<< ((XXH32 key 0 >>> (depth * 4)) &&& hamtMask)) -
                              1)))).length = 0
                        · rw [if_pos hel] at h
                          obtain ⟨eL, heL, _⟩ := appendMapLeafNodeSorted_grows builder2 []
                          rw [heL] at h
                          simp only [] at h
                          injection h with h1
                          exact ⟨e1 ++ eL, by
                            rw [show b2 = builder2 ++ eL from
                              (congrArg (fun t => t.2.2) h1).symm, he1, List.append_assoc]⟩
                        · rw [if_neg hel] at h
                          cases happ : appendMapBranchNode builder2 (bm &&&
                              (65535 ^^^ (1 <<< ((XXH32 key 0 >>> (depth * 4)) &&& hamtMask))))
                              (children.eraseIdx (popcount16 (bm &&&
                                ((1 <<< ((XXH32 key 0 >>> (depth * 4)) &&& hamtMask)) - 1))))
                              with
                          | error e => rw [happ] at h; cases h
                          | ok p3 =>
                            obtain ⟨newOff, builder3⟩ := p3
                            simp only [happ] at h
                            injection h with h1
                            obtain ⟨_, e2, he2, _⟩ := appendMapBranchNode_grows _ _ _ _ _ happ
                            exact ⟨e1 ++ e2, by
                              rw [show b2 = builder3 from
                                (congrArg (fun t => t.2.2) h1).symm, he2, he1,
                                List.append_assoc]⟩
                      | false =>
                        rw [if_neg (by simp)] at h
                        cases happ : appendMapBranchNode builder2 bm
                            (children.set (popcount16 (bm &&&
                              ((1 <<< ((XXH32 key 0 >>> (depth * 4)) &&& hamtMask)) - 1)))
                              newChild) with
                        | error e => rw [happ] at h; cases h
                        | ok p3 =>
                          obtain ⟨newOff, builder3⟩ := p3
                          simp only [happ] at h
                          injection h with h1
                          obtain ⟨_, e2, he2, _⟩ := appendMapBranchNode_grows _ _ _ _ _ happ
                          exact ⟨e1 ++ e2, by
                            rw [show b2 = builder3 from
                              (congrArg (fun t => t.2.2) h1).symm, he2, he1,
                              List.append_assoc]⟩

theorem applyOp_grows (builder : Bytes) (op : BuilderOp) (b2 : Bytes)
    (h : applyOp builder op = .ok b2) : ∃ ext : Bytes, b2 = builder ++ ext := by
  cases op with
  | node bytes =>
    simp only [applyOp, AppendNode] at h
    injection h with h1
    exact ⟨bytes, h1.symm⟩
  | mset root key val =>
    simp only [applyOp] at h
    cases hm : MapSetNode builder root key val with
    | error e => rw [hm] at h; cases h
    | ok p =>
      obtain ⟨r, ch, b3⟩ := p
      simp only [hm] at h
      injection h with h1
      obtain ⟨⟨ext, he⟩, _, _⟩ := mapSet_grows builder key val (maxDepth32 + 2) root 0
        builder r ch b3 hm
      exact ⟨ext, by rw [← h1]; exact he⟩
  | mdel root key =>
    simp only [applyOp] at h
    cases hm : MapDelNode builder root key with
    | error e => rw [hm] at h; cases h
    | ok p =>
      obtain ⟨r, ch, b3⟩ := p
      simp only [hm] at h
      injection h with h1
      obtain ⟨ext, he⟩ := mapDel_grows builder key (maxDepth32 + 2) root 0 builder r ch b3 hm
      exact ⟨ext, by rw [← h1]; exact he⟩
  | aset root index val length =>
    simp only [applyOp] at h
    cases hm : arrSet builder root index val length with
    | error e => rw [hm] at h; cases h
    | ok p =>
      obtain ⟨r, b3⟩ := p
      simp only [hm] at h
      injection h with h1
      obtain ⟨ext, he⟩ := arrSet_grows builder root index val length r b3 hm
      exact ⟨ext, by rw [← h1]; exact he⟩

theorem applyOps_grows (ops : List BuilderOp) :
    ∀ builder b2, applyOps builder ops = .ok b2 → ∃ ext : Bytes, b2 = builder ++ ext := by
  induction ops with
  | nil =>
    intro builder b2 h
    injection h with h1
    exact ⟨[], by rw [List.append_nil, h1]⟩
  | cons op ops ih =>
    intro builder b2 h
    simp only [applyOps] at h
    cases hop : applyOp builder op with
    | error e => rw [hop] at h; cases h
    | ok b1 =>
      simp only [hop] at h
      obtain ⟨e1, he1⟩ := applyOp_grows builder op b1 hop
      obtain ⟨e2, he2⟩ := ih b1 b2 h
      exact ⟨e1 ++ e2, by rw [he2, he1, List.append_assoc]⟩

/-- C8: builder updates are append-only: a sequence of node appends,
map sets, map deletes and array sets only ever extends the buffer, so
every byte below the prior length stays in place and map and array
lookups through any pre-update root offset return exactly what they
returned before the updates. -/
theorem C8_append_only (builder b2 : Bytes) (ops : List BuilderOp)
    (h : applyOps builder ops = .ok b2) :
    b2.take builder.length = builder ∧
      (∀ root key r, MapGet builder root key = .ok r → MapGet b2 root key = .ok r) ∧
      (∀ root index r, ArrGet builder root index = .ok r → ArrGet b2 root index = .ok r) := by
  obtain ⟨ext, rfl⟩ := applyOps_grows ops builder b2 h
  refine ⟨?_, ?_, ?_⟩
  · rw [List.take_append_of_le_length (le_refl _), List.take_length]
  · intro root key r hq
    exact MapGet_append builder ext root key r hq
  · intro root index r hq
    exact ArrGet_append builder ext root index r hq

/-- Witness for C8: a map set on an empty map root extends the buffer
without touching the original bytes, and a lookup through the old root
still reads the old (empty) map. -/
theorem C8_append_only_witness :
    ([84, 82, 79, 78, 11, 0, 0, 0, 0, 0, 0, 0,
        15, 0, 0, 0, 1, 0, 0, 0, 145, 107, 0, 0] : Bytes).take 12 =
      [84, 82, 79, 78, 11, 0, 0, 0, 0, 0, 0, 0] ∧
      MapGet [84, 82, 79, 78, 11, 0, 0, 0, 0, 0, 0, 0,
        15, 0, 0, 0, 1, 0, 0, 0, 145, 107, 0, 0] 4 [1, 2] = .ok none :=
  have hc := C8_append_only [84, 82, 79, 78, 11, 0, 0, 0, 0, 0, 0, 0]
    [84, 82, 79, 78, 11, 0, 0, 0, 0, 0, 0, 0,
      15, 0, 0, 0, 1, 0, 0, 0, 145, 107, 0, 0]
    [.mset 4 [107] .nil] rfl
  ⟨hc.1, hc.2.1 4 [1, 2] none rfl⟩

end Tron
